import Mathlib

/-!
fgt-make-commit-pack: object model, pack encoder and pkt-line framing.

A shallow embedding of `src/fgt-make-commit-pack.cc`.

* A C++ `std::string` is a list of bytes; a byte is a natural number below 256.
* `size_t` is 64 bits wide: where the source can overflow, the result is
  reduced modulo `2 ^ 64`.
* `abort()` and a failed `assert` are modelled by `none`, in the tree builder by
  `Res.abort`.
* SHA-1, zlib and the file system are parameters (`Lib`).
-/

namespace Fuggit

/-- A byte string (`std::string`). -/
abbrev Bytes := List Nat

/-- The ASCII bytes of a string literal. -/
def ascii (s : String) : Bytes := s.toList.map Char.toNat

def NUL : Bytes := [0]

def SP : Bytes := ascii " "

def LF : Bytes := ascii "\n"

/-- Width of `size_t`. -/
def SIZE_BITS : Nat := 64

/-! ## Pack::write_vint -/

/-- The body of the `while (x)` loop of `Pack::write_vint`, run at most `fuel`
times: `c = x & 0x7f; if (x >>= 7) c |= 0x80; writec(fp, c);`. -/
def write_vint_loop : Nat → Nat → Bytes
  | 0, _ => []
  | fuel + 1, x =>
    if x = 0 then []
    else
      let c := x &&& 0x7f
      let x1 := x >>> 7
      (if x1 ≠ 0 then c ||| 0x80 else c) :: write_vint_loop fuel x1

/-- `Pack::write_vint`: `assert(x)` followed by the loop.  The loop shifts `x`
right by seven bits each round, so `x` rounds always suffice. -/
def write_vint (x : Nat) : Option Bytes :=
  if x = 0 then none else some (write_vint_loop x x)

/-- The argument `Pack::print` passes to `write_vint`:
`((size >> 4) << 7) | (obj.type << 4) | (size & 15)` in `size_t` arithmetic. -/
def type_size_arg (type size : Nat) : Nat :=
  (((size >>> 4) <<< 7) % 2 ^ SIZE_BITS) ||| (type <<< 4) ||| (size &&& 15)

/-- One round of the loop, as arithmetic. -/
def vint_byte (x : Nat) : Nat := x % 128 + (if x / 128 = 0 then 0 else 128)

/-! ## Library collaborators -/

/-- The library functions the program calls but does not define.
* `digest` is SHA-1 of a byte string;
* `compress2 data` is zlib's `compress2` at level 9 into a buffer of
  `compressBound` bytes: `some out` for `Z_OK`, `none` for any other status;
* `read_file_content path` is what `stat`, `fopen` and `fread` deliver for a
  path: the content of the file, or `none` when `stat` fails;
* `stat_mode path` is the `st_mode` the `stat` call leaves in the buffer. -/
structure Lib where
  digest : Bytes → Bytes
  compress2 : Bytes → Option Bytes
  read_file_content : Bytes → Option Bytes
  stat_mode : Bytes → Nat

/-- `SHA_CTX`, abstracted to the bytes fed into it since `SHA1_Init`. -/
abbrev SHA_CTX := Bytes

def SHA1_Init : SHA_CTX := []

def SHA1_Update (ctx : SHA_CTX) (data : Bytes) : SHA_CTX := ctx ++ data

def SHA1_Final (lib : Lib) (ctx : SHA_CTX) : Bytes := lib.digest ctx

/-- `compress`: the output of `compress2`, or abort on a zlib error. -/
def compress (lib : Lib) (input : Bytes) : Option Bytes := lib.compress2 input

/-! ## printf conversions -/

/-- The character of one digit: `0`-`9`, then lowercase `a`-`f`. -/
def digit_char (d : Nat) : Nat := if d < 10 then 48 + d else 87 + d

/-- Digits of `n` in base `base`, most significant first, in front of `acc`. -/
def fmt_uint_loop (base : Nat) : Nat → Nat → Bytes → Bytes
  | 0, _, acc => acc
  | fuel + 1, n, acc =>
    if n < base then digit_char n :: acc
    else fmt_uint_loop base fuel (n / base) (digit_char (n % base) :: acc)

/-- The conversions `%zu` (base 10), `%o` (base 8) and `%zx`, `%x` (base 16)
without width: the digits of `n`, at least one. -/
def fmt_uint (base n : Nat) : Bytes := fmt_uint_loop base (n + 1) n []

/-- A conversion with zero padding to a minimum width (`%04zx`, `%02x`). -/
def fmt_uint_pad (base width n : Nat) : Bytes :=
  let ds := fmt_uint base n
  List.replicate (width - ds.length) 48 ++ ds

/-- What `snprintf(buf, size, ...)` leaves in `buf` before the terminating NUL:
at most `size - 1` bytes of the formatted text. -/
def snprintf_buf (size : Nat) (formatted : Bytes) : Bytes := formatted.take (size - 1)

/-- A `char` buffer read as a C string: the bytes before the first NUL. -/
def c_str (buf : Bytes) : Bytes := buf.takeWhile (fun c => c ≠ 0)

/-! ## Object model -/

inductive GitType where
  | OBJ_COMMIT
  | OBJ_TREE
  | OBJ_BLOB
  deriving DecidableEq, Repr

/-- The enumerator values: `OBJ_COMMIT = 1, OBJ_TREE = 2, OBJ_BLOB = 3`. -/
def GitType.code : GitType → Nat
  | .OBJ_COMMIT => 1
  | .OBJ_TREE => 2
  | .OBJ_BLOB => 3

def gittype_name : GitType → Bytes
  | .OBJ_COMMIT => ascii "commit"
  | .OBJ_TREE => ascii "tree"
  | .OBJ_BLOB => ascii "blob"

/-- `sha1(header, data)`: init, two updates, final. -/
def sha1 (lib : Lib) (header data : Bytes) : Bytes :=
  SHA1_Final lib (SHA1_Update (SHA1_Update SHA1_Init header) data)

/-- `git_header`: `snprintf(buf, 32, "%s %zu", name, length)`, then the C string
in `buf` together with its terminating NUL. -/
def git_header (type : GitType) (length : Nat) : Bytes :=
  let buf := snprintf_buf 32 (gittype_name type ++ ascii " " ++ fmt_uint 10 length)
  c_str buf ++ [0]

/-- `struct Object`; the pointer `data` is modelled by the string it points to. -/
structure Object where
  type : GitType
  data : Bytes
  deriving DecidableEq, Repr

/-! ## std::map with string keys

A `std::map<string, V>` is its list of entries in iteration order, that is in
strictly ascending key order; keys compare lexicographically by unsigned byte. -/

/-- `map::find`: the value stored under `k`, if any. -/
def map_find {V : Type} : List (Bytes × V) → Bytes → Option V
  | [], _ => none
  | (k1, v1) :: rest, k => if k = k1 then some v1 else map_find rest k

/-- `m[k] = v`: overwrite the value stored under `k`, or insert the entry at
its place in key order. -/
def map_set {V : Type} : List (Bytes × V) → Bytes → V → List (Bytes × V)
  | [], k, v => [(k, v)]
  | (k1, v1) :: rest, k, v =>
    if k < k1 then (k, v) :: (k1, v1) :: rest
    else if k = k1 then (k1, v) :: rest
    else (k1, v1) :: map_set rest k v

/-- The class invariant of `std::map`: keys strictly ascending. -/
def map_ok {V : Type} (m : List (Bytes × V)) : Prop := (m.map Prod.fst).Sorted (· < ·)

/-! ## Pack -/

/-- `struct Pack`: the object store and the running digest of `print`. -/
structure Pack where
  objects : List (Bytes × Object)
  sha : SHA_CTX

/-- `Pack::add`: store `obj` under `hash` unless the hash is present. -/
def Pack.add (pack : Pack) (hash : Bytes) (obj : Object) : Pack :=
  if map_find pack.objects hash = none then
    { pack with objects := map_set pack.objects hash obj }
  else pack

/-- `Pack::hash_add`: returns the hash and the updated pack. -/
def Pack.hash_add (lib : Lib) (pack : Pack) (obj : Object) : Bytes × Pack :=
  let hash := sha1 lib (git_header obj.type obj.data.length) obj.data
  (hash, pack.add hash obj)

/-- A sequence of `Pack::add` calls, one for each listed (hash, object) pair. -/
def Pack.add_all (pack : Pack) (calls : List (Bytes × Object)) : Pack :=
  calls.foldl (fun p e => p.add e.1 e.2) pack

/-- The state `Pack::print` works on: the running digest and the bytes written
to `fp` so far. -/
structure PrintState where
  sha : SHA_CTX
  fp : Bytes

/-- `Pack::writec`. -/
def Pack.writec (s : PrintState) (c : Nat) : PrintState :=
  { fp := s.fp ++ [c], sha := SHA1_Update s.sha [c] }

/-- `Pack::write`. -/
def Pack.write (s : PrintState) (data : Bytes) : PrintState :=
  { sha := SHA1_Update s.sha data, fp := s.fp ++ data }

/-- `Pack::write_vint` on the print state: every byte the loop produces goes
through `writec`, in order. -/
def Pack.write_vint (s : PrintState) (x : Nat) : Option PrintState :=
  match Fuggit.write_vint x with
  | none => none
  | some w => some (w.foldl Pack.writec s)

/-- `htonl(n)` stored in memory: the four bytes of `n mod 2^32`, big end first. -/
def htonl_bytes (n : Nat) : Bytes :=
  let m := n % 2 ^ 32
  [m / 2 ^ 24 % 256, m / 2 ^ 16 % 256, m / 2 ^ 8 % 256, m % 256]

/-- The 12 bytes of `header` in `Pack::print` after the count is stored. -/
def pack_header (count : Nat) : Bytes :=
  ascii "PACK" ++ [0, 0, 0, 2] ++ htonl_bytes count

/-- One round of the `for` loop of `Pack::print`. -/
def Pack.print_object (lib : Lib) (s : PrintState) (obj : Object) : Option PrintState :=
  if obj.type.code = 0 then none
  else
    let size := obj.data.length
    match Pack.write_vint s (type_size_arg obj.type.code size) with
    | none => none
    | some s1 =>
      match compress lib obj.data with
      | none => none
      | some compressed => some (Pack.write s1 compressed)

/-- One round of the `for` loop of `Pack::print` on an object whose `type` field
holds the integer `code`.  The enumeration `GitType` has the values 0 to 3;
0 is the value of a value-initialized `Object`. -/
def Pack.print_object_code (lib : Lib) (s : PrintState) (code : Nat) (data : Bytes) :
    Option PrintState :=
  if code = 0 then none
  else
    let size := data.length
    match Pack.write_vint s (type_size_arg code size) with
    | none => none
    | some s1 =>
      match compress lib data with
      | none => none
      | some compressed => some (Pack.write s1 compressed)

/-- The `for` loop of `Pack::print` over the entries in iteration order. -/
def Pack.print_loop (lib : Lib) : PrintState → List (Bytes × Object) → Option PrintState
  | s, [] => some s
  | s, (_, obj) :: rest =>
    match Pack.print_object lib s obj with
    | none => none
    | some s1 => Pack.print_loop lib s1 rest

/-- `Pack::print(fp)`: `fp` holds the bytes written to the stream before the
call; the result is the pack with its digest state after the call and the
content of the stream. -/
def Pack.print (lib : Lib) (pack : Pack) (fp : Bytes) : Option (Pack × Bytes) :=
  let s0 : PrintState := { sha := SHA1_Init, fp := fp }
  let s1 := Pack.write s0 (pack_header pack.objects.length)
  match Pack.print_loop lib s1 pack.objects with
  | none => none
  | some s2 =>
    let md := SHA1_Final lib s2.sha
    let s3 := Pack.write s2 md
    some ({ pack with sha := s3.sha }, s3.fp)

/-! ## Tree -/

/-- How a call ends: with a result, by `abort()` (or an uncaught exception), or
because the model ran out of recursion fuel. -/
inductive Res (α : Type) where
  | ok (a : α)
  | abort
  | out_of_fuel
  deriving DecidableEq, Repr

/-- The result of a call that returned. -/
def Res.value {α : Type} : Res α → Option α
  | .ok a => some a
  | _ => none

/-- The file-type bits of `st_mode`, with their values on Linux. -/
def S_IFMT : Nat := 0o170000

def S_IFDIR : Nat := 0o040000

def S_IFREG : Nat := 0o100000

def S_IFLNK : Nat := 0o120000

def S_ISDIR (m : Nat) : Bool := m &&& S_IFMT == S_IFDIR

def S_ISREG (m : Nat) : Bool := m &&& S_IFMT == S_IFREG

/-- `string::npos`. -/
def npos : Nat := 2 ^ SIZE_BITS - 1

/-- `s.find(c, pos)`: the first index at or after `pos` holding `c`, or `npos`. -/
def str_find (s : Bytes) (c pos : Nat) : Nat :=
  let i := (s.drop pos).indexOf c
  if i < (s.drop pos).length then pos + i else npos

/-- `s.substr(pos, count)` for `pos <= s.size()`: at most `count` bytes from
index `pos` on. -/
def str_substr (s : Bytes) (pos count : Nat) : Bytes := (s.drop pos).take count

/-- `struct Tree`; `st_mode` is the one field of `stat_` the program reads. -/
inductive Tree where
  | mk (path_ data_ hash_ : Bytes) (st_mode : Nat) (files_ : List (Bytes × Tree))

def Tree.path_ : Tree → Bytes
  | .mk p _ _ _ _ => p

def Tree.data_ : Tree → Bytes
  | .mk _ d _ _ _ => d

def Tree.hash_ : Tree → Bytes
  | .mk _ _ h _ _ => h

def Tree.st_mode : Tree → Nat
  | .mk _ _ _ m _ => m

def Tree.files_ : Tree → List (Bytes × Tree)
  | .mk _ _ _ _ fs => fs

/-- The constructor `Tree(path)`: empty payload, hash and children, and the
mode `stat` reports for the path. -/
def Tree.new (lib : Lib) (path : Bytes) : Tree :=
  .mk path [] [] (lib.stat_mode path) []

/-- `Tree::addfile`: the node after the call; the child `name` exists in it. -/
def Tree.addfile (lib : Lib) (t : Tree) (name path : Bytes) : Tree :=
  match t with
  | .mk p d h m fs =>
    if (map_find fs name).isNone then .mk p d h m (map_set fs name (Tree.new lib path))
    else t

/-- Stores a child node back under its name (the effect of mutating the node
through the reference `addfile` returns). -/
def Tree.set_child (t : Tree) (name : Bytes) (child : Tree) : Tree :=
  match t with
  | .mk p d h m fs => .mk p d h m (map_set fs name child)

/-- `Tree::addpath(path, pos)`; `substr` throws when `pos` exceeds the size. -/
def Tree.addpath_fuel (lib : Lib) : Nat → Tree → Bytes → Nat → Res Tree
  | 0, _, _, _ => .out_of_fuel
  | fuel + 1, t, path, pos =>
    if pos > path.length then .abort
    else
      let end_ := str_find path 47 pos
      let t1 := t.addfile lib (str_substr path pos end_) (str_substr path 0 end_)
      if end_ ≠ npos then
        match map_find t1.files_ (str_substr path pos end_) with
        | none => .abort
        | some sub =>
          match Tree.addpath_fuel lib fuel sub path (end_ + 1) with
          | .ok sub1 => .ok (t1.set_child (str_substr path pos end_) sub1)
          | .abort => .abort
          | .out_of_fuel => .out_of_fuel
      else .ok t1

/-- `addpath(path)` with the default `pos = 0`; every round moves `pos` past one
more byte of `path`, so `path.length + 1` rounds suffice. -/
def Tree.addpath (lib : Lib) (t : Tree) (path : Bytes) : Res Tree :=
  Tree.addpath_fuel lib (path.length + 1) t path 0

/-- `Tree::gittype`. -/
def Tree.gittype (t : Tree) : GitType :=
  if S_ISDIR t.st_mode then .OBJ_TREE else .OBJ_BLOB

/-- `Tree::git_mode`; `none` is the abort on an unknown file type. -/
def Tree.git_mode (t : Tree) : Option Nat :=
  let m := t.st_mode
  let type_mask := S_IFDIR ||| S_IFREG ||| S_IFLNK
  let exec_mask := 0o111
  if (m &&& S_IFMT) ≠ (m &&& type_mask) then none
  else some ((m &&& type_mask) ||| 0o644 ||| (if m &&& exec_mask ≠ 0 then exec_mask else 0))

/-- The global `pack` and the record of the `read_file` calls made so far (the
paths, in call order). -/
structure World where
  pack : Pack
  reads : List Bytes

/-- `read_file`: aborts when `stat` fails, else returns the content. -/
def read_file (lib : Lib) (name : Bytes) (w : World) : Res (Bytes × World) :=
  match lib.read_file_content name with
  | none => .abort
  | some content => .ok (content, { w with reads := w.reads ++ [name] })

/-- One directory entry as `Tree::data` builds it: `buf + it.first + NUL + hash`
with `buf` filled by `snprintf(buf, 12, "%o ", mode)`. -/
def tree_entry (mode : Nat) (name hash : Bytes) : Bytes :=
  c_str (snprintf_buf 12 (fmt_uint 8 mode ++ ascii " ")) ++ name ++ NUL ++ hash

/-- The `for` loop of `Tree::data` over the children in iteration order;
`child_hash` is `Tree::hash` on a child.  Returns the children after the loop,
`data_` and the world. -/
def data_loop (child_hash : Tree → World → Res (Bytes × Tree × World)) :
    List (Bytes × Tree) → Bytes → World → Res (List (Bytes × Tree) × Bytes × World)
  | [], data_, w => .ok ([], data_, w)
  | (name, child) :: rest, data_, w =>
    match child_hash child w with
    | .ok (hash, child1, w1) =>
      match child1.git_mode with
      | none => .abort
      | some mode =>
        match data_loop child_hash rest (data_ ++ tree_entry mode name hash) w1 with
        | .ok (rest1, data1, w2) => .ok ((name, child1) :: rest1, data1, w2)
        | .abort => .abort
        | .out_of_fuel => .out_of_fuel
    | .abort => .abort
    | .out_of_fuel => .out_of_fuel

/-- `Tree::data`, given `Tree::hash` on the children: returns `data_`, the node
and the world after the call. -/
def data_step (lib : Lib) (child_hash : Tree → World → Res (Bytes × Tree × World))
    (t : Tree) (w : World) : Res (Bytes × Tree × World) :=
  match t with
  | .mk p d h m fs =>
    if d.length = 0 then
      if S_ISDIR m then
        match data_loop child_hash fs d w with
        | .ok (fs1, d1, w1) => .ok (d1, .mk p d1 h m fs1, w1)
        | .abort => .abort
        | .out_of_fuel => .out_of_fuel
      else if S_ISREG m then
        match read_file lib p w with
        | .ok (content, w1) => .ok (content, .mk p content h m fs, w1)
        | .abort => .abort
        | .out_of_fuel => .out_of_fuel
      else .abort
    else .ok (d, t, w)

/-- Assignment to `hash_`. -/
def Tree.set_hash (t : Tree) (hash : Bytes) : Tree :=
  match t with
  | .mk p d _ m fs => .mk p d hash m fs

/-- `Tree::hash`, given `Tree::hash` on the children.  `data()` is called three
times: by `header()`, as the second argument of `sha1`, and by `object()`.  The
object stored in the pack points to `data_`; the model stores its value. -/
def hash_step (lib : Lib) (child_hash : Tree → World → Res (Bytes × Tree × World))
    (t : Tree) (w : World) : Res (Bytes × Tree × World) :=
  if t.hash_ = [] then
    match data_step lib child_hash t w with
    | .ok (d1, t1, w1) =>
      let header := git_header t1.gittype d1.length
      match data_step lib child_hash t1 w1 with
      | .ok (d2, t2, w2) =>
        let t3 := t2.set_hash (sha1 lib header d2)
        match data_step lib child_hash t3 w2 with
        | .ok (d3, t4, w3) =>
          .ok (t4.hash_, t4,
            { w3 with pack := w3.pack.add t4.hash_ { type := t4.gittype, data := d3 } })
        | .abort => .abort
        | .out_of_fuel => .out_of_fuel
      | .abort => .abort
      | .out_of_fuel => .out_of_fuel
    | .abort => .abort
    | .out_of_fuel => .out_of_fuel
  else .ok (t.hash_, t, w)

/-- `Tree::hash` with the recursion into children limited to `fuel` levels. -/
def Tree.hash_fuel (lib : Lib) : Nat → Tree → World → Res (Bytes × Tree × World)
  | 0, _, _ => .out_of_fuel
  | fuel + 1, t, w => hash_step lib (Tree.hash_fuel lib fuel) t w

/-- `Tree::data` with the recursion into children limited to `fuel` levels. -/
def Tree.data_fuel (lib : Lib) (fuel : Nat) (t : Tree) (w : World) :
    Res (Bytes × Tree × World) :=
  data_step lib (Tree.hash_fuel lib fuel) t w

mutual
/-- The number of levels of a node: one more than that of its deepest child. -/
def Tree.height : Tree → Nat
  | .mk _ _ _ _ fs => height_list fs + 1
/-- The number of levels of the deepest node in a child map. -/
def height_list : List (Bytes × Tree) → Nat
  | [] => 0
  | e :: rest => max (Tree.height e.2) (height_list rest)
end

/-- `Tree::hash`: the recursion into children goes as deep as the node has
levels. -/
def Tree.hash (lib : Lib) (t : Tree) (w : World) : Res (Bytes × Tree × World) :=
  Tree.hash_fuel lib t.height t w

/-- `Tree::data`. -/
def Tree.data (lib : Lib) (t : Tree) (w : World) : Res (Bytes × Tree × World) :=
  Tree.data_fuel lib (t.height - 1) t w

/-- A sequence of `Tree::addfile` calls on one node, one for each listed
(name, path) pair. -/
def Tree.addfile_all (lib : Lib) (t : Tree) (calls : List (Bytes × Bytes)) : Tree :=
  calls.foldl (fun t c => t.addfile lib c.1 c.2) t

/-- The string a returning `data()` or `hash()` call returned. -/
def Res.bytes (r : Res (Bytes × Tree × World)) : Option Bytes :=
  r.value.map (fun x => x.1)

/-! ## pkt-line -/

/-- The payload `main` passes to `pktline`:
`parent + SP + hex(commithash) + SP + branch + NUL + capabilities + LF`. -/
def ref_update_payload (parent newhex branch capabilities : Bytes) : Bytes :=
  parent ++ SP ++ newhex ++ SP ++ branch ++ NUL ++ capabilities ++ LF

/-- `pktline`: the bytes written to stdout, or abort. -/
def pktline (payload : Bytes) : Option Bytes :=
  if payload.length > 65516 then none
  else some (fmt_uint_pad 16 4 (payload.length + 4) ++ payload)

/-! ## Decoder of the type+size word (reader's side, not part of the source) -/

/-- Reads 7-bit groups, least significant first, until a byte has bit 7 clear. -/
def read_size_groups : Bytes → Option (Nat × Bytes)
  | [] => none
  | b :: rest =>
    if b.testBit 7 then
      match read_size_groups rest with
      | none => none
      | some (v, r) => some (b % 128 + 128 * v, r)
    else some (b % 128, rest)

/-- Decodes a type+size word from the front of a byte sequence: the type is in
bits 4-6 of the first byte, the size is its low 4 bits plus the following
7-bit groups.  Returns the type, the size and the unread bytes. -/
def decode_type_size : Bytes → Option (Nat × Nat × Bytes)
  | [] => none
  | b :: rest =>
    if b.testBit 7 then
      match read_size_groups rest with
      | none => none
      | some (v, r) => some (b / 16 % 8, b % 16 + 16 * v, r)
    else some (b / 16 % 8, b % 16, rest)

/-! ## The pack layout as the format describes it -/

/-- The type+size word of an object of a given type code and payload size. -/
def type_size_word (code size : Nat) : Bytes :=
  write_vint_loop (type_size_arg code size) (type_size_arg code size)

/-- The value of a byte sequence read as a big-endian integer. -/
def be_value (bs : Bytes) : Nat := bs.foldl (fun acc b => acc * 256 + b) 0

/-- One object record: the type+size word, then the compressed payload. -/
def pack_record (deflate : Bytes → Bytes) (obj : Object) : Bytes :=
  type_size_word obj.type.code obj.data.length ++ deflate obj.data

/-- The records of a list of entries, in list order. -/
def pack_records (deflate : Bytes → Bytes) (entries : List (Bytes × Object)) : Bytes :=
  entries.flatMap (fun e => pack_record deflate e.2)

/-- The entries of a store sorted by ascending hash. -/
def ascending (entries : List (Bytes × Object)) : List (Bytes × Object) :=
  entries.insertionSort (fun a b => a.1 ≤ b.1)

/-! ## Reading numerals back (reader's side, not part of the source) -/

/-- The value of a digit character `0`-`9`, `a`-`f`. -/
def char_digit (c : Nat) : Nat := if c < 58 then c - 48 else c - 87

/-- The value of a numeral in a given base, most significant digit first. -/
def numeral_value (base : Nat) (cs : Bytes) : Nat :=
  cs.foldl (fun acc c => acc * base + char_digit c) 0

/-- The characters `0`-`9`. -/
def is_dec_digit (c : Nat) : Prop := 48 ≤ c ∧ c ≤ 57

/-- The characters `0`-`7`. -/
def is_oct_digit (c : Nat) : Prop := 48 ≤ c ∧ c ≤ 55

/-- The characters `0`-`9` and lowercase `a`-`f`. -/
def is_lower_hex_digit (c : Nat) : Prop := (48 ≤ c ∧ c ≤ 57) ∨ (97 ≤ c ∧ c ≤ 102)

/-- The digits of `n`, most significant first; `[0]` for zero. -/
def digits_msb (base n : Nat) : List Nat :=
  if n = 0 then [0] else (Nat.digits base n).reverse

/-! ## The directory payload as the format describes it -/

/-- One entry of a directory payload: the child's mode in octal, a space, the
child's name, a NUL and the child's hash. -/
def dir_entry (e : Bytes × Tree) : Bytes :=
  fmt_uint 8 (e.2.git_mode.getD 0) ++ ascii " " ++ e.1 ++ [0] ++ e.2.hash_

/-- What the proofs need to know of `Tree::hash` on a child: the hash returned
is the one the node holds afterwards, and mode and path are left alone. -/
def hash_fn_ok (child_hash : Tree → World → Res (Bytes × Tree × World)) : Prop :=
  ∀ c w h c1 w1, child_hash c w = .ok (h, c1, w1) →
    c1.hash_ = h ∧ c1.st_mode = c.st_mode ∧ c1.path_ = c.path_

/-- The content-addressing invariant of the store: every entry is filed under
the digest of its header followed by its payload. -/
def store_ok (lib : Lib) (objects : List (Bytes × Object)) : Prop :=
  ∀ e ∈ objects, e.1 = lib.digest (git_header e.2.type e.2.data.length ++ e.2.data)

/-- A `Tree::hash` on children that keeps the invariant of the store. -/
def hash_fn_keeps (lib : Lib) (child_hash : Tree → World → Res (Bytes × Tree × World)) : Prop :=
  ∀ c w h c1 w1, child_hash c w = .ok (h, c1, w1) →
    store_ok lib w.pack.objects → store_ok lib w1.pack.objects

/-- The packs that arise from the empty store by `Pack::hash_add` calls and by
returning `Tree::hash` calls, on any nodes, in any order. -/
inductive Reachable (lib : Lib) : Pack → Prop where
  | empty (sha : SHA_CTX) : Reachable lib { objects := [], sha := sha }
  | hash_add (pack : Pack) (obj : Object) :
      Reachable lib pack → Reachable lib (Pack.hash_add lib pack obj).2
  | tree_hash (fuel : Nat) (t : Tree) (w : World) (h : Bytes) (t1 : Tree) (w1 : World) :
      Reachable lib w.pack → Tree.hash_fuel lib fuel t w = .ok (h, t1, w1) →
      Reachable lib w1.pack

/-- A node on which `Tree::hash` returns within `n` levels of recursion: the
hash or the payload is memoized, or the node is a readable regular file, or it
is a directory whose children are regular files or directories of this kind. -/
inductive Finalizable (lib : Lib) : Nat → Tree → Prop where
  | memo (n : Nat) (p d h : Bytes) (m : Nat) (fs : List (Bytes × Tree)) :
      h ≠ [] → Finalizable lib (n + 1) (.mk p d h m fs)
  | cached (n : Nat) (p d h : Bytes) (m : Nat) (fs : List (Bytes × Tree)) :
      d ≠ [] → Finalizable lib (n + 1) (.mk p d h m fs)
  | file (n : Nat) (p h : Bytes) (m : Nat) (fs : List (Bytes × Tree)) :
      S_ISDIR m = false → S_ISREG m = true → lib.read_file_content p ≠ none →
      Finalizable lib (n + 1) (.mk p [] h m fs)
  | dir (n : Nat) (p h : Bytes) (m : Nat) (fs : List (Bytes × Tree)) :
      S_ISDIR m = true →
      (∀ e ∈ fs, Finalizable lib n e.2) →
      (∀ e ∈ fs, S_ISREG e.2.st_mode = true ∨ S_ISDIR e.2.st_mode = true) →
      Finalizable lib (n + 1) (.mk p [] h m fs)

/-- The effect of `Tree::addfile` on the child map. -/
def files_add (lib : Lib) (fs : List (Bytes × Tree)) (c : Bytes × Bytes) : List (Bytes × Tree) :=
  if (map_find fs c.1).isNone then map_set fs c.1 (Tree.new lib c.2) else fs

/-! ## A small concrete world

A directory `.` holding the regular file `a` (mode 100644, content `A`) and the
executable regular file `b` (mode 100755, content `BB`).  The stand-in digest
repeats the byte sum of its input 20 times; the stand-in compressor returns its
input. -/

def demo_lib : Lib where
  digest := fun b => List.replicate 20 (b.foldl (fun x y => x + y) 0 % 256)
  compress2 := fun b => some b
  read_file_content := fun p =>
    if p = ascii "a" then some (ascii "A")
    else if p = ascii "b" then some (ascii "BB")
    else none
  stat_mode := fun p =>
    if p = ascii "." then 0o040755
    else if p = ascii "a" then 0o100644
    else if p = ascii "b" then 0o100755
    else 0

def demo_world : World := { pack := { objects := [], sha := [] }, reads := [] }

def demo_blob_a : Object := { type := .OBJ_BLOB, data := ascii "A" }

def demo_blob_b : Object := { type := .OBJ_BLOB, data := ascii "BB" }

/-- The pack after `hash_add` of the blob `BB` and then of the blob `A`. -/
def demo_pack : Pack :=
  (Pack.hash_add demo_lib
    (Pack.hash_add demo_lib { objects := [], sha := [] } demo_blob_b).2 demo_blob_a).2

/-- The two demo blobs under their hashes, `BB` first. -/
def demo_calls_b_a : List (Bytes × Object) :=
  [(List.replicate 20 117, demo_blob_b), (List.replicate 20 49, demo_blob_a)]

/-- The two demo blobs under their hashes, `A` first. -/
def demo_calls_a_b : List (Bytes × Object) :=
  [(List.replicate 20 49, demo_blob_a), (List.replicate 20 117, demo_blob_b)]

/-- The root node after `addfile("b", "b")` and then `addfile("a", "a")`. -/
def demo_dir_b_a : Tree :=
  ((Tree.new demo_lib (ascii ".")).addfile demo_lib (ascii "b") (ascii "b")).addfile demo_lib
    (ascii "a") (ascii "a")

/-- The entry of child `a` in the payload of the demo directory. -/
def demo_entry_a : Bytes := ascii "100644 a" ++ [0] ++ List.replicate 20 49

/-- The entry of child `b` in the payload of the demo directory. -/
def demo_entry_b : Bytes := ascii "100755 b" ++ [0] ++ List.replicate 20 117

/-- The first character of the name of a kind: `c`, `t` or `b`. -/
def kind_initial : GitType → Nat
  | .OBJ_COMMIT => 99
  | .OBJ_TREE => 116
  | .OBJ_BLOB => 98

mutual
/-- The descendants of a node, each as its name (the key it is filed under) and
its path, parents before children. -/
def Tree.nodes : Tree → List (Bytes × Bytes)
  | .mk _ _ _ _ fs => nodes_list fs
/-- The nodes of a child map with their descendants. -/
def nodes_list : List (Bytes × Tree) → List (Bytes × Bytes)
  | [] => []
  | e :: rest => (e.1, Tree.path_ e.2) :: (Tree.nodes e.2 ++ nodes_list rest)
end

/-- The names and paths of the nodes below the root after a call of `addpath`. -/
def Res.nodes (r : Res Tree) : Option (List (Bytes × Bytes)) :=
  r.value.map Tree.nodes

/-- `addpath(second)` after `addpath(first)` on one root. -/
def Tree.addpath_two (lib : Lib) (t : Tree) (first second : Bytes) : Res Tree :=
  match Tree.addpath lib t first with
  | .ok t1 => Tree.addpath lib t1 second
  | .abort => .abort
  | .out_of_fuel => .out_of_fuel

/-- The root of `main`: `Tree root(".")`. -/
def demo_root : Tree := Tree.new demo_lib (ascii ".")

/-- The demo world with one more regular file, `e`, of length zero. -/
def demo_lib_e : Lib where
  digest := demo_lib.digest
  compress2 := demo_lib.compress2
  read_file_content := fun p => if p = ascii "e" then some [] else demo_lib.read_file_content p
  stat_mode := fun p => if p = ascii "e" then 0o100644 else demo_lib.stat_mode p

/-- The paths passed to `read_file` up to the return of a call. -/
def Res.reads (r : Res (Bytes × Tree × World)) : Option (List Bytes) :=
  r.value.map (fun x => x.2.2.reads)

/-- A second `hash()` on the node and in the world a first `hash()` left. -/
def Tree.hash_twice (lib : Lib) (t : Tree) (w : World) : Res (Bytes × Tree × World) :=
  match Tree.hash lib t w with
  | .ok (_, t1, w1) => Tree.hash lib t1 w1
  | .abort => .abort
  | .out_of_fuel => .out_of_fuel

/-- Key number `i` of the large store: 16 zero bytes, then `i` as four bytes,
big end first. -/
def big_key (i : Nat) : Bytes :=
  List.replicate 16 0 ++ [i / 2 ^ 24 % 256, i / 2 ^ 16 % 256, i / 2 ^ 8 % 256, i % 256]

/-- A store of `2^32` blobs under `2^32` ascending 20-byte keys. -/
@[irreducible]
def big_store : List (Bytes × Object) :=
  (List.range (2 ^ 32)).map (fun i => (big_key i, { type := .OBJ_BLOB, data := big_key i }))

/-- The pack holding the large store. -/
def big_pack : Pack := { objects := big_store, sha := [] }

/-! ## Commit and main -/

/-- `hex`: for each byte the C string `snprintf(buf, 3, "%02x", c)` leaves in
`buf`. -/
def hex (bin : Bytes) : Bytes :=
  bin.flatMap (fun c => c_str (snprintf_buf 3 (fmt_uint_pad 16 2 c)))

/-- `make_author`: `snprintf(buf, 256, "%s %ld +0000", author.c_str(), time(nullptr))`
read back as a C string; `now` is what `time` returns. -/
def make_author (author : Bytes) (now : Nat) : Bytes :=
  c_str (snprintf_buf 256 (c_str author ++ ascii " " ++ fmt_uint 10 now ++ ascii " +0000"))

/-- `make_commit`; the globals `author` and `parent` and the clock are
parameters. -/
def make_commit (author parent : Bytes) (now : Nat) (tree commitmessage : Bytes) : Bytes :=
  let author1 := make_author author now
  ascii "tree " ++ tree ++
    ascii "\nparent " ++ parent ++
    ascii "\nauthor " ++ author1 ++
    ascii "\ncommitter " ++ author1 ++
    ascii "\n\n" ++ commitmessage

/-- `strchr(line, '/')` followed by `path + 1`: what follows the first `/`. -/
def after_first_slash (line : Bytes) : Option Bytes :=
  let i := line.indexOf 47
  if i < line.length then some (line.drop (i + 1)) else none

/-- The `getdelim` loop of `main` over the NUL-terminated records of stdin. -/
def main_paths (lib : Lib) : Tree → List Bytes → Res Tree
  | root, [] => .ok root
  | root, line :: rest =>
    if line = ascii "./tmp.pack" ∨ line = ascii "./tmp.idx" then main_paths lib root rest
    else
      match after_first_slash line with
      | none => main_paths lib root rest
      | some path =>
        match Tree.addpath lib root path with
        | .ok root1 => main_paths lib root1 rest
        | .abort => .abort
        | .out_of_fuel => .out_of_fuel

/-- What a run of `main` leaves behind: the commit payload, the bytes on stdout
and the content of `tmp.pack`. -/
structure MainOutput where
  commitobj : Bytes
  stdout : Bytes
  tmp_pack : Bytes
  deriving DecidableEq, Repr

/-- `main`, with `argv[1..4]`, the records of stdin and the clock as
parameters. -/
def main (lib : Lib) (now : Nat) (branch author msgfile parent : Bytes) (lines : List Bytes) :
    Res MainOutput :=
  match read_file lib msgfile { pack := { objects := [], sha := [] }, reads := [] } with
  | .ok (commitmessage, w0) =>
    if parent.length ≠ 40 then .abort
    else
      match main_paths lib (Tree.new lib (ascii ".")) lines with
      | .ok root =>
        match Tree.hash lib root w0 with
        | .ok (tree, _, w1) =>
          let commitobj := make_commit author parent now (hex tree) commitmessage
          let r := Pack.hash_add lib w1.pack { type := .OBJ_COMMIT, data := commitobj }
          match pktline (ref_update_payload parent (hex r.1) branch (ascii "report-status")) with
          | none => .abort
          | some line =>
            match Pack.print lib r.2 (line ++ ascii "0000") with
            | none => .abort
            | some (pack2, stdout) =>
              match Pack.print lib pack2 [] with
              | none => .abort
              | some (_, tmp) => .ok { commitobj := commitobj, stdout := stdout, tmp_pack := tmp }
        | .abort => .abort
        | .out_of_fuel => .out_of_fuel
      | .abort => .abort
      | .out_of_fuel => .out_of_fuel
  | .abort => .abort
  | .out_of_fuel => .out_of_fuel

/-- A demo run: branch `refs/heads/main`, author `me`, the message read from
file `a`, an all-zero parent, and the records `./b` and `./a` on stdin. -/
def demo_main : Res MainOutput :=
  main demo_lib 1700000000 (ascii "refs/heads/main") (ascii "me") (ascii "a")
    (List.replicate 40 48) [ascii "./b", ascii "./a"]

/-! # Theorems -/

/-! ## Lemmas on the variable-length integer -/

theorem or_0x80 (c : Nat) (h : c < 128) : c ||| 0x80 = c + 128 := by
  have := Nat.mul_add_lt_is_or (i := 7) (b := c) (by simpa using h) 1
  rw [Nat.or_comm]
  simp at this
  omega

theorem type_size_arg_eq (t n : Nat) (ht : t < 8) (hn : n < 2 ^ 61) :
    type_size_arg t n = n / 16 * 128 + t * 16 + n % 16 := by
  unfold type_size_arg SIZE_BITS
  have h1 : (n >>> 4) <<< 7 = 2 ^ 7 * (n / 16) := by
    rw [Nat.shiftLeft_eq, Nat.shiftRight_eq_div_pow]; ring
  have h2 : t <<< 4 = 2 ^ 4 * t := by rw [Nat.shiftLeft_eq]; ring
  have h3 : n &&& 15 = n % 16 := Nat.and_pow_two_sub_one_eq_mod n 4
  have hlt : 2 ^ 7 * (n / 16) < 2 ^ 64 := by omega
  rw [h1, h2, h3, Nat.mod_eq_of_lt hlt, Nat.or_assoc]
  have h4 : n % 16 < 2 ^ 4 := by omega
  rw [← Nat.mul_add_lt_is_or h4 t]
  have h5 : 2 ^ 4 * t + n % 16 < 2 ^ 7 := by omega
  rw [← Nat.mul_add_lt_is_or h5 (n / 16)]
  omega

theorem write_vint_loop_step (fuel x : Nat) (hx : x ≠ 0) :
    write_vint_loop (fuel + 1) x = vint_byte x :: write_vint_loop fuel (x / 128) := by
  have hm : x &&& 0x7f = x % 128 := Nat.and_pow_two_sub_one_eq_mod x 7
  have hs : x >>> 7 = x / 128 := Nat.shiftRight_eq_div_pow x 7
  simp only [write_vint_loop, hx, if_false, hm, hs, vint_byte]
  by_cases h : x / 128 = 0
  · simp [h]
  · simp only [h, ne_eq, not_false_eq_true, if_true, if_false]
    rw [or_0x80 _ (Nat.mod_lt _ (by norm_num))]

/-- The loop does not depend on the fuel once the fuel is at least `x`. -/
theorem write_vint_loop_fuel (fuel x : Nat) (h : x ≤ fuel) :
    write_vint_loop fuel x = write_vint_loop x x := by
  induction fuel using Nat.strong_induction_on generalizing x with
  | _ fuel ih =>
    by_cases hx : x = 0
    · subst hx; cases fuel <;> simp [write_vint_loop]
    · obtain ⟨f, rfl⟩ : ∃ f, fuel = f + 1 := ⟨fuel - 1, by omega⟩
      obtain ⟨y, rfl⟩ : ∃ y, x = y + 1 := ⟨x - 1, by omega⟩
      rw [write_vint_loop_step _ _ hx, write_vint_loop_step _ _ hx]
      have hd : (y + 1) / 128 ≤ y := by omega
      rw [ih f (by omega) _ (by omega), ih y (by omega) _ hd]

/-- Unfolding equation of the loop, free of fuel. -/
theorem write_vint_loop_unfold (x : Nat) (hx : x ≠ 0) :
    write_vint_loop x x = vint_byte x :: write_vint_loop (x / 128) (x / 128) := by
  obtain ⟨y, rfl⟩ : ∃ y, x = y + 1 := ⟨x - 1, by omega⟩
  rw [write_vint_loop_step _ _ hx, write_vint_loop_fuel y _ (by omega)]

theorem write_vint_loop_zero : write_vint_loop 0 0 = [] := rfl

theorem write_vint_loop_length_pos (x : Nat) (hx : x ≠ 0) :
    0 < (write_vint_loop x x).length := by
  rw [write_vint_loop_unfold x hx]; simp

/-- Position `i` exists in the output iff `x` has a nonzero part from bit `7 i` up. -/
theorem write_vint_loop_length (x i : Nat) :
    i < (write_vint_loop x x).length ↔ x / 128 ^ i ≠ 0 := by
  induction i generalizing x with
  | zero =>
    by_cases hx : x = 0
    · subst hx; simp [write_vint_loop]
    · simp [hx, write_vint_loop_length_pos x hx]
  | succ i ih =>
    by_cases hx : x = 0
    · subst hx; simp [write_vint_loop]
    · rw [write_vint_loop_unfold x hx]
      simp only [List.length_cons, Nat.add_lt_add_iff_right, ih, pow_succ]
      rw [Nat.mul_comm, Nat.div_div_eq_div_mul]

/-- Byte `i` of the output: seven bits of `x` and the continuation flag. -/
theorem write_vint_loop_getD (x i : Nat) (hi : i < (write_vint_loop x x).length) :
    (write_vint_loop x x).getD i 0 = vint_byte (x / 128 ^ i) := by
  induction i generalizing x with
  | zero =>
    have hx : x ≠ 0 := by
      intro h; subst h; simp [write_vint_loop] at hi
    rw [write_vint_loop_unfold x hx]; simp
  | succ i ih =>
    have hx : x ≠ 0 := by
      intro h; subst h; simp [write_vint_loop] at hi
    rw [write_vint_loop_unfold x hx] at hi ⊢
    simp only [List.length_cons, Nat.add_lt_add_iff_right] at hi
    simp only [List.getD_cons_succ, ih _ hi, pow_succ]
    rw [Nat.mul_comm, Nat.div_div_eq_div_mul]

theorem vint_byte_mod (y : Nat) : vint_byte y % 128 = y % 128 := by
  unfold vint_byte; split <;> omega

theorem vint_byte_lt (y : Nat) : vint_byte y < 256 := by
  unfold vint_byte; split <;> omega

theorem vint_byte_testBit (y : Nat) : (vint_byte y).testBit 7 = decide (y / 128 ≠ 0) := by
  unfold vint_byte
  by_cases h : y / 128 = 0
  · simp only [h, if_true, Nat.add_zero, ne_eq, not_true_eq_false, decide_False]
    exact Nat.testBit_lt_two_pow (by omega)
  · simp only [h, if_false, ne_eq, not_false_eq_true, decide_True]
    have := Nat.testBit_two_pow_add_eq (y % 128) 7
    rw [Nat.testBit_lt_two_pow (show y % 128 < 2 ^ 7 by omega)] at this
    rw [Nat.add_comm]; simpa using this

theorem write_vint_loop_mem_lt (x b : Nat) (hb : b ∈ write_vint_loop x x) : b < 256 := by
  obtain ⟨i, hi, rfl⟩ := List.getElem_of_mem hb
  have := write_vint_loop_getD x i hi
  rw [List.getD_eq_getElem _ _ hi] at this
  rw [this]; exact vint_byte_lt _

/-- C1: for type `t` in 1..3 and size `n < 2^61`, `write_vint` applied to the
argument built by `Pack::print` emits a non-empty word whose first byte holds
`n mod 16` in bits 0-3, `t` in bits 4-6 and has bit 7 set iff `n >= 16`; the
`k`-th following byte holds bits `4+7(k-1) ..` of `n` in its bits 0-6; bit 7 is
set on every byte but the last; every element is a byte. -/
theorem C1_type_size_word_layout (t n : Nat) (ht : t = 1 ∨ t = 2 ∨ t = 3) (hn : n < 2 ^ 61) :
    ∃ w, write_vint (type_size_arg t n) = some w ∧ w ≠ [] ∧
      w.getD 0 0 % 16 = n % 16 ∧
      w.getD 0 0 / 16 % 8 = t ∧
      (w.getD 0 0).testBit 7 = decide (16 ≤ n) ∧
      (∀ k, 1 ≤ k → k < w.length → w.getD k 0 % 128 = n / 2 ^ (4 + 7 * (k - 1)) % 128) ∧
      (∀ i, i < w.length → (w.getD i 0).testBit 7 = decide (i + 1 < w.length)) ∧
      (∀ b ∈ w, b < 256) := by
  have hx := type_size_arg_eq t n (by omega) hn
  have hx0 : type_size_arg t n ≠ 0 := by omega
  have hdiv : type_size_arg t n / 128 = n / 16 := by omega
  have hmod : type_size_arg t n % 128 = t * 16 + n % 16 := by omega
  refine ⟨write_vint_loop (type_size_arg t n) (type_size_arg t n), by simp [write_vint, hx0],
    ?_, ?_, ?_, ?_, ?_, ?_, ?_⟩
  · exact List.ne_nil_of_length_pos (write_vint_loop_length_pos _ hx0)
  · rw [write_vint_loop_getD _ 0 (write_vint_loop_length_pos _ hx0)]
    have := vint_byte_mod (type_size_arg t n)
    simp only [pow_zero, Nat.div_one]; omega
  · rw [write_vint_loop_getD _ 0 (write_vint_loop_length_pos _ hx0)]
    have := vint_byte_mod (type_size_arg t n)
    have := vint_byte_lt (type_size_arg t n)
    simp only [pow_zero, Nat.div_one]; omega
  · rw [write_vint_loop_getD _ 0 (write_vint_loop_length_pos _ hx0)]
    simp only [pow_zero, Nat.div_one, vint_byte_testBit, hdiv]
    congr 1; apply propext; omega
  · intro k hk hlen
    rw [write_vint_loop_getD _ k hlen, vint_byte_mod]
    obtain ⟨j, rfl⟩ : ∃ j, k = j + 1 := ⟨k - 1, by omega⟩
    have e1 : type_size_arg t n / 128 ^ (j + 1) = n / 16 / 128 ^ j := by
      rw [pow_succ, Nat.mul_comm, ← Nat.div_div_eq_div_mul, hdiv]
    have e2 : (2 : Nat) ^ (4 + 7 * (j + 1 - 1)) = 16 * 128 ^ j := by
      rw [Nat.add_sub_cancel, pow_add, pow_mul]; norm_num
    rw [e1, e2, Nat.div_div_eq_div_mul]
  · intro i hi
    rw [write_vint_loop_getD _ i hi, vint_byte_testBit]
    congr 1; apply propext
    rw [write_vint_loop_length, pow_succ, Nat.div_div_eq_div_mul]
  · exact fun b hb => write_vint_loop_mem_lt _ b hb

/-- C1 at type 3 (blob) and size 300: the word is the two bytes `0xbc 0x12`. -/
theorem C1_type_size_word_layout_witness :
    ∃ w, write_vint (type_size_arg 3 300) = some w ∧ w ≠ [] ∧
      w.getD 0 0 % 16 = 300 % 16 ∧
      w.getD 0 0 / 16 % 8 = 3 ∧
      (w.getD 0 0).testBit 7 = decide (16 ≤ 300) ∧
      (∀ k, 1 ≤ k → k < w.length → w.getD k 0 % 128 = 300 / 2 ^ (4 + 7 * (k - 1)) % 128) ∧
      (∀ i, i < w.length → (w.getD i 0).testBit 7 = decide (i + 1 < w.length)) ∧
      (∀ b ∈ w, b < 256) :=
  C1_type_size_word_layout 3 300 (by decide) (by decide)

/-! ## C2: the word is self-delimiting -/

theorem read_size_groups_write_vint_loop (y : Nat) (hy : y ≠ 0) (rest : Bytes) :
    read_size_groups (write_vint_loop y y ++ rest) = some (y, rest) := by
  induction y using Nat.strong_induction_on with
  | _ y ih =>
    rw [write_vint_loop_unfold y hy, List.cons_append, read_size_groups, vint_byte_testBit,
      vint_byte_mod]
    by_cases h : y / 128 = 0
    · simp only [h, ne_eq, not_true_eq_false, decide_False, write_vint_loop_zero, List.nil_append]
      simp only [Bool.false_eq_true, if_false, Option.some.injEq, Prod.mk.injEq, and_true]
      omega
    · simp only [h, ne_eq, not_false_eq_true, decide_True, if_true]
      rw [ih (y / 128) (by omega) h]
      simp only [Option.some.injEq, Prod.mk.injEq, and_true]
      omega

/-- C2: the decoder, run on the word for `(t, n)` followed by any bytes `rest`,
returns exactly `(t, n, rest)`. -/
theorem C2_type_size_word_decodes (t n : Nat) (ht : t = 1 ∨ t = 2 ∨ t = 3) (hn : n < 2 ^ 61)
    (rest : Bytes) :
    ∃ w, write_vint (type_size_arg t n) = some w ∧
      decode_type_size (w ++ rest) = some (t, n, rest) := by
  have hx := type_size_arg_eq t n (by omega) hn
  have hx0 : type_size_arg t n ≠ 0 := by omega
  have hdiv : type_size_arg t n / 128 = n / 16 := by omega
  have hmod : type_size_arg t n % 128 = t * 16 + n % 16 := by omega
  refine ⟨write_vint_loop (type_size_arg t n) (type_size_arg t n), by simp [write_vint, hx0], ?_⟩
  rw [write_vint_loop_unfold _ hx0, List.cons_append, decode_type_size, vint_byte_testBit, hdiv]
  have hb := vint_byte_mod (type_size_arg t n)
  have hlt := vint_byte_lt (type_size_arg t n)
  by_cases h : n / 16 = 0
  · simp only [h, ne_eq, not_true_eq_false, decide_False, write_vint_loop_zero, List.nil_append]
    simp only [Bool.false_eq_true, if_false, Option.some.injEq, Prod.mk.injEq, and_true]
    omega
  · simp only [h, ne_eq, not_false_eq_true, decide_True, if_true]
    rw [read_size_groups_write_vint_loop _ h]
    simp only [Option.some.injEq, Prod.mk.injEq, and_true]
    omega

/-- C2 at type 2 (tree), size 1000 and two trailing bytes. -/
theorem C2_type_size_word_decodes_witness :
    ∃ w, write_vint (type_size_arg 2 1000) = some w ∧
      decode_type_size (w ++ [120, 156]) = some (2, 1000, [120, 156]) :=
  C2_type_size_word_decodes 2 1000 (by decide) (by decide) [120, 156]

/-! ## printf conversions -/

theorem fmt_uint_loop_eq (base : Nat) (hb : 2 ≤ base) (n : Nat) :
    ∀ fuel acc, n < fuel →
      fmt_uint_loop base fuel n acc = (digits_msb base n).map digit_char ++ acc := by
  induction n using Nat.strong_induction_on with
  | _ n ih =>
    intro fuel acc hf
    obtain ⟨f, rfl⟩ : ∃ f, fuel = f + 1 := ⟨fuel - 1, by omega⟩
    by_cases hlt : n < base
    · simp only [fmt_uint_loop, hlt, if_true]
      by_cases h0 : n = 0
      · simp [digits_msb, h0]
      · simp [digits_msb, h0, Nat.digits_of_lt base n h0 hlt]
    · have h0 : n ≠ 0 := by omega
      have hdiv : n / base < n := Nat.div_lt_self (by omega) (by omega)
      have hdiv0 : n / base ≠ 0 := by
        have := Nat.div_pos (Nat.le_of_not_lt hlt) (by omega : 0 < base)
        omega
      simp only [fmt_uint_loop, hlt, if_false]
      rw [ih (n / base) hdiv f _ (by omega)]
      simp only [digits_msb, h0, hdiv0, if_false]
      rw [Nat.digits_def' (by omega) (by omega : 0 < n)]
      simp

theorem fmt_uint_eq (base : Nat) (hb : 2 ≤ base) (n : Nat) :
    fmt_uint base n = (digits_msb base n).map digit_char := by
  simp [fmt_uint, fmt_uint_loop_eq base hb n (n + 1) [] (by omega)]

theorem digits_msb_lt (base : Nat) (hb : 2 ≤ base) (n d : Nat) (hd : d ∈ digits_msb base n) :
    d < base := by
  unfold digits_msb at hd
  split at hd
  · simp at hd; omega
  · exact Nat.digits_lt_base (by omega) (List.mem_reverse.mp hd)

theorem digits_msb_length_le (base : Nat) (hb : 2 ≤ base) (n k : Nat) (hk : 1 ≤ k)
    (hn : n < base ^ k) : (digits_msb base n).length ≤ k := by
  unfold digits_msb
  split
  · simpa using hk
  · rename_i h0
    have h1 := Nat.base_pow_length_digits_le base n (by omega) h0
    have h2 : base * n < base ^ (k + 1) := by
      rw [pow_succ, Nat.mul_comm]
      exact Nat.mul_lt_mul_of_pos_right hn (by omega)
    have h3 : base ^ (Nat.digits base n).length < base ^ (k + 1) := lt_of_le_of_lt h1 h2
    have h4 := (Nat.pow_lt_pow_iff_right (by omega : 1 < base)).mp h3
    simp only [List.length_reverse]; omega

theorem fmt_uint_length_le (base : Nat) (hb : 2 ≤ base) (n k : Nat) (hk : 1 ≤ k)
    (hn : n < base ^ k) : (fmt_uint base n).length ≤ k := by
  rw [fmt_uint_eq base hb, List.length_map]
  exact digits_msb_length_le base hb n k hk hn

theorem fmt_uint_length_pos (base : Nat) (hb : 2 ≤ base) (n : Nat) :
    0 < (fmt_uint base n).length := by
  rw [fmt_uint_eq base hb, List.length_map]
  unfold digits_msb
  split
  · simp
  · rename_i h0
    simp only [List.length_reverse]
    exact List.length_pos.mpr (Nat.digits_ne_nil_iff_ne_zero.mpr h0)

theorem char_digit_digit_char (d : Nat) (hd : d < 16) : char_digit (digit_char d) = d := by
  unfold char_digit digit_char
  split <;> split <;> omega

theorem numeral_value_append (base : Nat) (xs : Bytes) (c : Nat) :
    numeral_value base (xs ++ [c]) = numeral_value base xs * base + char_digit c := by
  simp [numeral_value, List.foldl_append]

theorem numeral_value_digits (base : Nat) (hb16 : base ≤ 16) (ds : List Nat)
    (hds : ∀ d ∈ ds, d < base) :
    numeral_value base (ds.reverse.map digit_char) = Nat.ofDigits base ds := by
  induction ds with
  | nil => simp [numeral_value]
  | cons d ds ih =>
    have hd : d < 16 := lt_of_lt_of_le (hds d (by simp)) hb16
    rw [List.reverse_cons, List.map_append, List.map_singleton, numeral_value_append,
      ih (fun x hx => hds x (by simp [hx])), char_digit_digit_char d hd, Nat.ofDigits_cons]
    ring

theorem numeral_value_fmt_uint (base : Nat) (hb : 2 ≤ base) (hb16 : base ≤ 16) (n : Nat) :
    numeral_value base (fmt_uint base n) = n := by
  rw [fmt_uint_eq base hb]
  unfold digits_msb
  split
  · rename_i h0; subst h0; simp [numeral_value, char_digit, digit_char]
  · rw [numeral_value_digits base hb16 _ (fun d hd => Nat.digits_lt_base (by omega) hd),
      Nat.ofDigits_digits]

theorem numeral_value_zeros (base : Nat) (k : Nat) (cs : Bytes) :
    numeral_value base (List.replicate k 48 ++ cs) = numeral_value base cs := by
  induction k with
  | zero => simp
  | succ k ih =>
    have : ∀ ys : Bytes, List.foldl (fun acc c => acc * base + char_digit c) 0 (48 :: ys) =
        List.foldl (fun acc c => acc * base + char_digit c) 0 ys := by
      intro ys; simp [char_digit]
    unfold numeral_value at ih ⊢
    rw [List.replicate_succ, List.cons_append, this, ih]

theorem fmt_uint_mem (base : Nat) (hb : 2 ≤ base) (n c : Nat) (hc : c ∈ fmt_uint base n) :
    ∃ d, d < base ∧ c = digit_char d := by
  rw [fmt_uint_eq base hb, List.mem_map] at hc
  obtain ⟨d, hd, rfl⟩ := hc
  exact ⟨d, digits_msb_lt base hb n d hd, rfl⟩

/-- A numeral has no leading zero, except the numeral of zero, which is `0`. -/
theorem fmt_uint_no_leading_zero (base : Nat) (hb : 2 ≤ base) (n : Nat) :
    (n = 0 → fmt_uint base n = [48]) ∧ (n ≠ 0 → (fmt_uint base n).head? ≠ some 48) := by
  rw [fmt_uint_eq base hb]
  unfold digits_msb
  constructor
  · intro h0; simp [h0, digit_char]
  · intro h0
    simp only [h0, if_false]
    have hne : Nat.digits base n ≠ [] := Nat.digits_ne_nil_iff_ne_zero.mpr h0
    have hl := Nat.getLast_digit_ne_zero base h0
    have hlt : (Nat.digits base n).getLast hne < base :=
      Nat.digits_lt_base (by omega) (List.getLast_mem hne)
    rw [List.head?_map, List.head?_reverse, List.getLast?_eq_getLast _ hne]
    simp only [Option.map_some', ne_eq, Option.some.injEq]
    unfold digit_char
    split <;> omega

/-! ## C3: layout of the pack -/

theorem type_size_arg_ne_zero (t n : Nat) (ht : t = 1 ∨ t = 2 ∨ t = 3) :
    type_size_arg t n ≠ 0 := by
  intro h
  have h4 : (type_size_arg t n).testBit 4 = false := by rw [h]; simp
  have h5 : (type_size_arg t n).testBit 5 = false := by rw [h]; simp
  unfold type_size_arg at h4 h5
  simp only [Nat.testBit_or, Nat.testBit_shiftLeft, Bool.or_eq_false_iff] at h4 h5
  have a1 : Nat.testBit 1 0 = true := by decide
  have a2 : Nat.testBit 2 1 = true := by decide
  have a3 : Nat.testBit 3 0 = true := by decide
  rcases ht with rfl | rfl | rfl <;> simp_all

theorem GitType.code_cases (t : GitType) : t.code = 1 ∨ t.code = 2 ∨ t.code = 3 := by
  cases t <;> simp [GitType.code]

theorem foldl_writec (w : Bytes) (s : PrintState) :
    w.foldl Pack.writec s = { sha := s.sha ++ w, fp := s.fp ++ w } := by
  induction w generalizing s with
  | nil => simp
  | cons c w ih => simp [ih, Pack.writec, SHA1_Update]

theorem print_object_eq (lib : Lib) (deflate : Bytes → Bytes) (s : PrintState) (obj : Object)
    (hz : lib.compress2 obj.data = some (deflate obj.data)) :
    Pack.print_object lib s obj =
      some { sha := s.sha ++ pack_record deflate obj, fp := s.fp ++ pack_record deflate obj } := by
  have hc := GitType.code_cases obj.type
  have h0 : obj.type.code ≠ 0 := by omega
  have hx := type_size_arg_ne_zero obj.type.code obj.data.length hc
  simp [Pack.print_object, h0, Pack.write_vint, write_vint, hx, compress, hz, Pack.write,
    foldl_writec, SHA1_Update, pack_record, type_size_word]

theorem print_loop_eq (lib : Lib) (deflate : Bytes → Bytes) (entries : List (Bytes × Object))
    (s : PrintState) (hz : ∀ e ∈ entries, lib.compress2 e.2.data = some (deflate e.2.data)) :
    Pack.print_loop lib s entries =
      some { sha := s.sha ++ pack_records deflate entries,
             fp := s.fp ++ pack_records deflate entries } := by
  induction entries generalizing s with
  | nil => simp [Pack.print_loop, pack_records]
  | cons e rest ih =>
    obtain ⟨k, obj⟩ := e
    have h1 := print_object_eq lib deflate s obj (hz (k, obj) (by simp))
    simp only [Pack.print_loop, h1]
    rw [ih _ (fun e he => hz e (by simp [he]))]
    simp [pack_records, List.flatMap_cons]

theorem print_eq (lib : Lib) (deflate : Bytes → Bytes) (pack : Pack) (fp : Bytes)
    (hz : ∀ e ∈ pack.objects, lib.compress2 e.2.data = some (deflate e.2.data)) :
    Pack.print lib pack fp =
      some ({ pack with
              sha := pack_header pack.objects.length ++ pack_records deflate pack.objects ++
                lib.digest (pack_header pack.objects.length ++ pack_records deflate pack.objects) },
            fp ++ (pack_header pack.objects.length ++ pack_records deflate pack.objects) ++
              lib.digest (pack_header pack.objects.length ++ pack_records deflate pack.objects)) := by
  simp [Pack.print, print_loop_eq lib deflate _ _ hz, Pack.write, SHA1_Update, SHA1_Init,
    SHA1_Final]

theorem ascending_eq_self (entries : List (Bytes × Object)) (hok : map_ok entries) :
    ascending entries = entries := by
  apply List.Sorted.insertionSort_eq
  unfold map_ok at hok
  rw [List.Sorted, List.pairwise_map] at hok
  exact hok.imp (fun h => le_of_lt h)

theorem htonl_bytes_spec (n : Nat) (hn : n < 2 ^ 32) :
    (htonl_bytes n).length = 4 ∧ (∀ b ∈ htonl_bytes n, b < 256) ∧ be_value (htonl_bytes n) = n := by
  simp only [htonl_bytes, Nat.mod_eq_of_lt hn, be_value]
  refine ⟨rfl, ?_, ?_⟩
  · intro b hb
    simp only [List.mem_cons, List.mem_singleton, List.not_mem_nil, or_false] at hb
    rcases hb with rfl | rfl | rfl | rfl <;> omega
  · simp only [List.foldl_cons, List.foldl_nil]
    omega

theorem trailing_digest (b d : Bytes) (hd : d.length = 20) :
    (b ++ d).drop ((b ++ d).length - 20) = d ∧ (b ++ d).take ((b ++ d).length - 20) = b := by
  have h : (b ++ d).length - 20 = b.length := by simp [hd]
  rw [h]; simp

/-- C3: for a store of fewer than `2^32` objects whose payloads zlib compresses
(to `deflate payload`), `Pack::print` writes `body ++ digest body` where `body`
is `PACK`, `00 00 00 02`, the object count as four big-endian bytes and, for
each entry in ascending hash order, the type+size word followed by the
compressed payload.  When digests are 20 bytes long the last 20 bytes written
are the digest of the bytes written before them.  The bytes written are the
same whatever digest state the pack held before the call. -/
theorem C3_print_layout (lib : Lib) (deflate : Bytes → Bytes) (pack : Pack) (fp : Bytes)
    (hok : map_ok pack.objects)
    (hcount : pack.objects.length < 2 ^ 32)
    (hz : ∀ e ∈ pack.objects, lib.compress2 e.2.data = some (deflate e.2.data))
    (hd : ∀ b, (lib.digest b).length = 20) :
    ∃ cnt body pack1,
      cnt.length = 4 ∧ (∀ b ∈ cnt, b < 256) ∧ be_value cnt = pack.objects.length ∧
      body = ascii "PACK" ++ [0, 0, 0, 2] ++ cnt ++
        (ascending pack.objects).flatMap
          (fun e => type_size_word e.2.type.code e.2.data.length ++ deflate e.2.data) ∧
      Pack.print lib pack fp = some (pack1, fp ++ (body ++ lib.digest body)) ∧
      pack1.objects = pack.objects ∧
      (body ++ lib.digest body).drop ((body ++ lib.digest body).length - 20) =
        lib.digest ((body ++ lib.digest body).take ((body ++ lib.digest body).length - 20)) ∧
      ∀ sha0, (Pack.print lib { pack with sha := sha0 } fp).map Prod.snd =
        some (fp ++ (body ++ lib.digest body)) := by
  obtain ⟨c1, c2, c3⟩ := htonl_bytes_spec _ hcount
  have hp := print_eq lib deflate pack fp hz
  refine ⟨htonl_bytes pack.objects.length, _, { pack with
      sha := pack_header pack.objects.length ++ pack_records deflate pack.objects ++
        lib.digest (pack_header pack.objects.length ++ pack_records deflate pack.objects) },
    c1, c2, c3, rfl, ?_, ?_, ?_, ?_⟩
  · rw [hp, ascending_eq_self _ hok]
    simp only [pack_header, pack_records, pack_record, List.append_assoc]
  · rfl
  · obtain ⟨t1, t2⟩ := trailing_digest
      (ascii "PACK" ++ [0, 0, 0, 2] ++ htonl_bytes pack.objects.length ++
        (ascending pack.objects).flatMap
          (fun e => type_size_word e.2.type.code e.2.data.length ++ deflate e.2.data))
      (lib.digest _) (hd _)
    rw [t1, t2]
  · intro sha0
    have hp2 := print_eq lib deflate { pack with sha := sha0 } fp hz
    rw [hp2, ascending_eq_self _ hok]
    simp only [pack_header, pack_records, pack_record, List.append_assoc, Option.map_some']

/-- C3 on the demo pack of two blobs, written to an empty stream. -/
theorem C3_print_layout_witness :
    (map_ok demo_pack.objects ∧ demo_pack.objects.length < 2 ^ 32 ∧
      (∀ e ∈ demo_pack.objects, demo_lib.compress2 e.2.data = some (id e.2.data)) ∧
      ∀ b, (demo_lib.digest b).length = 20) ∧
    ∃ cnt body pack1,
      cnt.length = 4 ∧ (∀ b ∈ cnt, b < 256) ∧ be_value cnt = demo_pack.objects.length ∧
      body = ascii "PACK" ++ [0, 0, 0, 2] ++ cnt ++
        (ascending demo_pack.objects).flatMap
          (fun e => type_size_word e.2.type.code e.2.data.length ++ id e.2.data) ∧
      Pack.print demo_lib demo_pack [] = some (pack1, [] ++ (body ++ demo_lib.digest body)) ∧
      pack1.objects = demo_pack.objects ∧
      (body ++ demo_lib.digest body).drop ((body ++ demo_lib.digest body).length - 20) =
        demo_lib.digest
          ((body ++ demo_lib.digest body).take ((body ++ demo_lib.digest body).length - 20)) ∧
      ∀ sha0, (Pack.print demo_lib { demo_pack with sha := sha0 } []).map Prod.snd =
        some ([] ++ (body ++ demo_lib.digest body)) :=
  ⟨⟨by unfold map_ok; decide, by decide, fun _ _ => rfl, fun b => by simp [demo_lib]⟩,
    C3_print_layout demo_lib id demo_pack [] (by unfold map_ok; decide) (by decide)
      (fun _ _ => rfl) (fun b => by simp [demo_lib])⟩

/-! ## C4: pkt-line framing -/

theorem digit_char_lower_hex (d : Nat) (hd : d < 16) : is_lower_hex_digit (digit_char d) := by
  unfold is_lower_hex_digit digit_char
  split <;> omega

theorem fmt_uint_pad_hex4 (m : Nat) (hm : m < 16 ^ 4) :
    (fmt_uint_pad 16 4 m).length = 4 ∧ (∀ c ∈ fmt_uint_pad 16 4 m, is_lower_hex_digit c) ∧
      numeral_value 16 (fmt_uint_pad 16 4 m) = m := by
  have hle := fmt_uint_length_le 16 (by norm_num) m 4 (by norm_num) hm
  refine ⟨?_, ?_, ?_⟩
  · simp only [fmt_uint_pad, List.length_append, List.length_replicate]; omega
  · intro c hc
    simp only [fmt_uint_pad, List.mem_append, List.mem_replicate] at hc
    rcases hc with ⟨_, rfl⟩ | hc
    · left; omega
    · obtain ⟨d, hd, rfl⟩ := fmt_uint_mem 16 (by norm_num) m c hc
      exact digit_char_lower_hex d hd
  · simp only [fmt_uint_pad]
    rw [numeral_value_zeros, numeral_value_fmt_uint 16 (by norm_num) (by norm_num)]

/-- C4: `pktline` succeeds exactly for payloads of at most 65516 bytes; on
success it writes four lowercase hexadecimal digits whose value is the payload
length plus 4, followed by the payload, and that value is the length of the
frame.  The ref update line of `0`*40, `1`*40, `refs/heads/main` and
`report-status` gets the prefix `0074`. -/
theorem C4_pktline_frame :
    (∀ payload : Bytes, (pktline payload).isSome ↔ payload.length ≤ 65516) ∧
    (∀ payload : Bytes, payload.length ≤ 65516 →
      ∃ pre, pktline payload = some (pre ++ payload) ∧ pre.length = 4 ∧
        (∀ c ∈ pre, is_lower_hex_digit c) ∧
        numeral_value 16 pre = payload.length + 4 ∧
        (pre ++ payload).length = payload.length + 4) ∧
    (ref_update_payload (List.replicate 40 48) (List.replicate 40 49)
        (ascii "refs/heads/main") (ascii "report-status")).length = 112 ∧
    pktline (ref_update_payload (List.replicate 40 48) (List.replicate 40 49)
        (ascii "refs/heads/main") (ascii "report-status")) =
      some (ascii "0074" ++ ref_update_payload (List.replicate 40 48) (List.replicate 40 49)
        (ascii "refs/heads/main") (ascii "report-status")) := by
  refine ⟨?_, ?_, by decide, by decide⟩
  · intro payload
    unfold pktline
    split
    · simp; omega
    · simp; omega
  · intro payload hlen
    obtain ⟨h1, h2, h3⟩ := fmt_uint_pad_hex4 (payload.length + 4) (by norm_num; omega)
    refine ⟨fmt_uint_pad 16 4 (payload.length + 4), ?_, h1, h2, h3, ?_⟩
    · simp [pktline]; omega
    · simp [h1]; omega

/-- C4 at the payload `hello`. -/
theorem C4_pktline_frame_witness :
    (ascii "hello").length ≤ 65516 ∧
      ∃ pre, pktline (ascii "hello") = some (pre ++ ascii "hello") ∧
        pre.length = 4 ∧ (∀ c ∈ pre, is_lower_hex_digit c) ∧
        numeral_value 16 pre = (ascii "hello").length + 4 ∧
        (pre ++ ascii "hello").length = (ascii "hello").length + 4 :=
  ⟨by decide, C4_pktline_frame.2.1 (ascii "hello") (by decide)⟩

/-! ## C5: the object header -/

theorem gittype_name_length (kind : GitType) : (gittype_name kind).length ≤ 6 := by
  cases kind <;> decide

theorem gittype_name_ne_zero (kind : GitType) : ∀ c ∈ gittype_name kind, c ≠ 0 := by
  cases kind <;> decide

theorem digit_char_dec (d : Nat) (hd : d < 10) : is_dec_digit (digit_char d) := by
  unfold is_dec_digit digit_char
  split <;> omega

theorem fmt_uint_dec_digit (n c : Nat) (hc : c ∈ fmt_uint 10 n) : is_dec_digit c := by
  obtain ⟨d, hd, rfl⟩ := fmt_uint_mem 10 (by norm_num) n c hc
  exact digit_char_dec d hd

theorem git_header_eq (kind : GitType) (n : Nat) (hn : n < 2 ^ 64) :
    git_header kind n = gittype_name kind ++ ascii " " ++ fmt_uint 10 n ++ [0] := by
  have hl := fmt_uint_length_le 10 (by norm_num) n 20 (by norm_num)
    (lt_trans hn (by norm_num))
  have hk := gittype_name_length kind
  have hsp : (ascii " ").length = 1 := by decide
  unfold git_header snprintf_buf c_str
  have htake : List.take (32 - 1) (gittype_name kind ++ ascii " " ++ fmt_uint 10 n) =
      gittype_name kind ++ ascii " " ++ fmt_uint 10 n := by
    apply List.take_of_length_le
    simp only [List.length_append, hsp]; omega
  simp only [htake]
  congr 1
  rw [List.takeWhile_eq_self_iff]
  intro c hc
  simp only [List.mem_append] at hc
  simp only [ne_eq, decide_eq_true_eq]
  rcases hc with (hc | hc) | hc
  · exact gittype_name_ne_zero kind c hc
  · have : c = 32 := by simpa [ascii] using hc
    omega
  · have := fmt_uint_dec_digit n c hc
    unfold is_dec_digit at this; omega

/-- C5: for a length below `2^64` the header is the kind's name, one space, the
decimal numeral of the length (decimal digits only, of value `n`, without
leading zero, `0` for zero) and one NUL, untruncated; the hash `Pack::hash_add`
computes is the digest of the header followed by the payload. -/
theorem C5_git_header_format (lib : Lib) (kind : GitType) (n : Nat) (hn : n < 2 ^ 64) :
    git_header kind n = gittype_name kind ++ ascii " " ++ fmt_uint 10 n ++ [0] ∧
    gittype_name kind =
      (match kind with
       | .OBJ_COMMIT => ascii "commit"
       | .OBJ_TREE => ascii "tree"
       | .OBJ_BLOB => ascii "blob") ∧
    (∀ c ∈ fmt_uint 10 n, is_dec_digit c) ∧
    numeral_value 10 (fmt_uint 10 n) = n ∧
    (n = 0 → fmt_uint 10 n = ascii "0") ∧
    (n ≠ 0 → (fmt_uint 10 n).head? ≠ some 48) ∧
    (∀ c ∈ gittype_name kind ++ ascii " " ++ fmt_uint 10 n, c ≠ 0) ∧
    ∀ (pack : Pack) (payload : Bytes), payload.length = n →
      (Pack.hash_add lib pack { type := kind, data := payload }).1 =
        lib.digest (gittype_name kind ++ ascii " " ++ fmt_uint 10 n ++ [0] ++ payload) := by
  have hh := git_header_eq kind n hn
  have hz := fmt_uint_no_leading_zero 10 (by norm_num) n
  refine ⟨hh, ?_, fun c hc => fmt_uint_dec_digit n c hc,
    numeral_value_fmt_uint 10 (by norm_num) (by norm_num) n, hz.1, hz.2, ?_, ?_⟩
  · cases kind <;> rfl
  · intro c hc
    simp only [List.mem_append] at hc
    rcases hc with (hc | hc) | hc
    · exact gittype_name_ne_zero kind c hc
    · have : c = 32 := by simpa [ascii] using hc
      omega
    · have := fmt_uint_dec_digit n c hc
      unfold is_dec_digit at this; omega
  · intro pack payload hlen
    simp only [Pack.hash_add, sha1, SHA1_Final, SHA1_Update, SHA1_Init, hlen, hh,
      List.nil_append]

/-- C5 for a blob of 12 bytes. -/
theorem C5_git_header_format_witness :
    12 < 2 ^ 64 ∧
    (git_header .OBJ_BLOB 12 = gittype_name .OBJ_BLOB ++ ascii " " ++ fmt_uint 10 12 ++ [0] ∧
    gittype_name .OBJ_BLOB =
      (match GitType.OBJ_BLOB with
       | .OBJ_COMMIT => ascii "commit"
       | .OBJ_TREE => ascii "tree"
       | .OBJ_BLOB => ascii "blob") ∧
    (∀ c ∈ fmt_uint 10 12, is_dec_digit c) ∧
    numeral_value 10 (fmt_uint 10 12) = 12 ∧
    (12 = 0 → fmt_uint 10 12 = ascii "0") ∧
    (12 ≠ 0 → (fmt_uint 10 12).head? ≠ some 48) ∧
    (∀ c ∈ gittype_name .OBJ_BLOB ++ ascii " " ++ fmt_uint 10 12, c ≠ 0) ∧
    ∀ (pack : Pack) (payload : Bytes), payload.length = 12 →
      (Pack.hash_add demo_lib pack { type := .OBJ_BLOB, data := payload }).1 =
        demo_lib.digest
          (gittype_name .OBJ_BLOB ++ ascii " " ++ fmt_uint 10 12 ++ [0] ++ payload)) :=
  ⟨by decide, C5_git_header_format demo_lib .OBJ_BLOB 12 (by decide)⟩

/-! ## std::map -/

theorem map_find_map_set_self {V : Type} (m : List (Bytes × V)) (k : Bytes) (v : V) :
    map_find (map_set m k v) k = some v := by
  induction m with
  | nil => simp [map_set, map_find]
  | cons e rest ih =>
    obtain ⟨k1, v1⟩ := e
    simp only [map_set]
    split
    · simp [map_find]
    · split
      · rename_i h; subst h; simp [map_find]
      · rename_i h; simp [map_find, h, ih]

theorem map_find_eq_none_iff {V : Type} (m : List (Bytes × V)) (k : Bytes) :
    map_find m k = none ↔ k ∉ m.map Prod.fst := by
  induction m with
  | nil => simp [map_find]
  | cons e rest ih =>
    obtain ⟨k1, v1⟩ := e
    simp only [map_find, List.map_cons, List.mem_cons, not_or]
    split
    · rename_i h; simp [h]
    · rename_i h; simp [h, ih]

theorem map_find_eq_some_mem {V : Type} (m : List (Bytes × V)) (k : Bytes) (v : V)
    (h : map_find m k = some v) : (k, v) ∈ m := by
  induction m with
  | nil => simp [map_find] at h
  | cons e rest ih =>
    obtain ⟨k1, v1⟩ := e
    simp only [map_find] at h
    split at h
    · rename_i hk; subst hk; simp at h; subst h; simp
    · exact List.mem_cons_of_mem _ (ih h)

theorem map_set_perm {V : Type} (m : List (Bytes × V)) (k : Bytes) (v : V)
    (hk : k ∉ m.map Prod.fst) : (map_set m k v).Perm ((k, v) :: m) := by
  induction m with
  | nil => simp [map_set]
  | cons e rest ih =>
    obtain ⟨k1, v1⟩ := e
    simp only [List.map_cons, List.mem_cons, not_or] at hk
    simp only [map_set]
    split
    · exact List.Perm.refl _
    · simp only [hk.1, if_false]
      exact ((ih hk.2).cons (k1, v1)).trans (List.Perm.swap _ _ _)

theorem map_set_keys_subset {V : Type} (m : List (Bytes × V)) (k : Bytes) (v : V) (x : Bytes)
    (hx : x ∈ (map_set m k v).map Prod.fst) : x = k ∨ x ∈ m.map Prod.fst := by
  induction m with
  | nil => simpa [map_set] using hx
  | cons e rest ih =>
    obtain ⟨k1, v1⟩ := e
    simp only [map_set] at hx
    split at hx
    · simpa using hx
    · split at hx
      · right; simpa using hx
      · simp only [List.map_cons, List.mem_cons] at hx ⊢
        rcases hx with h | h
        · right; left; exact h
        · rcases ih h with h | h
          · left; exact h
          · right; right; exact h

theorem map_set_ok {V : Type} (m : List (Bytes × V)) (k : Bytes) (v : V) (hm : map_ok m) :
    map_ok (map_set m k v) := by
  induction m with
  | nil => simp [map_set, map_ok]
  | cons e rest ih =>
    obtain ⟨k1, v1⟩ := e
    unfold map_ok at hm ih ⊢
    simp only [List.map_cons, List.sorted_cons] at hm
    simp only [map_set]
    split
    · rename_i hlt
      simp only [List.map_cons, List.sorted_cons, List.mem_cons]
      refine ⟨?_, hm.1, hm.2⟩
      rintro b (rfl | hb)
      · exact hlt
      · exact lt_trans hlt (hm.1 b hb)
    · split
      · simp only [List.map_cons, List.sorted_cons]
        exact hm
      · rename_i hnlt hne
        simp only [List.map_cons, List.sorted_cons]
        refine ⟨?_, ih hm.2⟩
        intro b hb
        rcases map_set_keys_subset rest k v b hb with rfl | hb
        · exact lt_of_le_of_ne (not_lt.mp hnlt) (Ne.symm hne)
        · exact hm.1 b hb

theorem map_ok_nodup {V : Type} (m : List (Bytes × V)) (hm : map_ok m) :
    (m.map Prod.fst).Nodup :=
  List.Sorted.nodup hm

theorem filter_key_length_zero {V : Type} (m : List (Bytes × V)) (k : Bytes)
    (hk : k ∉ m.map Prod.fst) : (m.filter (fun e => e.1 = k)).length = 0 := by
  induction m with
  | nil => simp
  | cons e rest ih =>
    simp only [List.map_cons, List.mem_cons, not_or] at hk
    have hne : ¬ e.1 = k := fun h => hk.1 h.symm
    simp [List.filter_cons, hne]
    intro a b hab
    intro h; subst h
    exact hk.2 (List.mem_map.mpr ⟨(a, b), hab, rfl⟩)

theorem filter_key_length_one {V : Type} (m : List (Bytes × V)) (k : Bytes)
    (hnd : (m.map Prod.fst).Nodup) (hk : k ∈ m.map Prod.fst) :
    (m.filter (fun e => e.1 = k)).length = 1 := by
  induction m with
  | nil => simp at hk
  | cons e rest ih =>
    simp only [List.map_cons, List.nodup_cons] at hnd
    simp only [List.map_cons, List.mem_cons] at hk
    by_cases he : e.1 = k
    · have h0 := filter_key_length_zero rest k (he ▸ hnd.1)
      simp only [List.filter_cons, he, decide_True, if_true, List.length_cons, h0]
    · have hk2 : k ∈ rest.map Prod.fst := by
        rcases hk with h | h
        · exact absurd h.symm he
        · exact h
      simp only [List.filter_cons, he, decide_False, Bool.false_eq_true, if_false]
      exact ih hnd.2 hk2

/-! ## C7: first write wins -/

theorem Pack.add_present (pack : Pack) (hash : Bytes) (obj : Object)
    (h : map_find pack.objects hash ≠ none) : pack.add hash obj = pack := by
  simp [Pack.add, h]

theorem Pack.add_find (pack : Pack) (hash : Bytes) (obj : Object) :
    map_find (pack.add hash obj).objects hash ≠ none := by
  unfold Pack.add
  split
  · simp [map_find_map_set_self]
  · assumption

theorem Pack.add_ok (pack : Pack) (hash : Bytes) (obj : Object) (h : map_ok pack.objects) :
    map_ok (pack.add hash obj).objects := by
  unfold Pack.add
  split
  · exact map_set_ok _ _ _ h
  · exact h

theorem Pack.add_unique_entry (pack : Pack) (hash : Bytes) (obj : Object)
    (hok : map_ok pack.objects) :
    ((pack.add hash obj).objects.filter (fun e => e.1 = hash)).length = 1 := by
  have hfind := Pack.add_find pack hash obj
  have hok2 := Pack.add_ok pack hash obj hok
  generalize (pack.add hash obj).objects = m at hfind hok2
  have hnd := map_ok_nodup m hok2
  have hmem : hash ∈ m.map Prod.fst := by
    by_contra hc
    exact hfind ((map_find_eq_none_iff m hash).mpr hc)
  exact filter_key_length_one m hash hnd hmem

/-- C7: `Pack::add` with a hash already present leaves the pack unchanged, the
entry keeping its object; `Pack::hash_add` called twice with the same object
returns the same hash both times, the second call changes nothing, and the
store holds exactly one entry under that hash. -/
theorem C7_add_first_write_wins (lib : Lib) (pack : Pack) (hok : map_ok pack.objects) :
    (∀ (h : Bytes) (old o : Object), map_find pack.objects h = some old →
      pack.add h o = pack ∧ map_find (pack.add h o).objects h = some old) ∧
    (∀ obj : Object,
      (Pack.hash_add lib (Pack.hash_add lib pack obj).2 obj).1 = (Pack.hash_add lib pack obj).1 ∧
      (Pack.hash_add lib (Pack.hash_add lib pack obj).2 obj).2 = (Pack.hash_add lib pack obj).2 ∧
      ((Pack.hash_add lib pack obj).2.objects.filter
        (fun e => e.1 = (Pack.hash_add lib pack obj).1)).length = 1) := by
  constructor
  · intro h old o hf
    have hp : pack.add h o = pack := Pack.add_present pack h o (by simp [hf])
    exact ⟨hp, by rw [hp]; exact hf⟩
  · intro obj
    refine ⟨rfl, ?_, ?_⟩
    · simp only [Pack.hash_add]
      exact Pack.add_present _ _ _ (Pack.add_find _ _ _)
    · simp only [Pack.hash_add]
      exact Pack.add_unique_entry pack _ obj hok

/-- C7 on the demo pack of two blobs. -/
theorem C7_add_first_write_wins_witness :
    map_ok demo_pack.objects ∧
    ((∀ (h : Bytes) (old o : Object), map_find demo_pack.objects h = some old →
      demo_pack.add h o = demo_pack ∧ map_find (demo_pack.add h o).objects h = some old) ∧
    (∀ obj : Object,
      (Pack.hash_add demo_lib (Pack.hash_add demo_lib demo_pack obj).2 obj).1 =
        (Pack.hash_add demo_lib demo_pack obj).1 ∧
      (Pack.hash_add demo_lib (Pack.hash_add demo_lib demo_pack obj).2 obj).2 =
        (Pack.hash_add demo_lib demo_pack obj).2 ∧
      ((Pack.hash_add demo_lib demo_pack obj).2.objects.filter
        (fun e => e.1 = (Pack.hash_add demo_lib demo_pack obj).1)).length = 1)) :=
  ⟨by unfold map_ok; decide,
    C7_add_first_write_wins demo_lib demo_pack (by unfold map_ok; decide)⟩

/-! ## C8: the pack does not depend on the insertion order -/

theorem Pack.add_all_ok (calls : List (Bytes × Object)) (pack : Pack) (h : map_ok pack.objects) :
    map_ok (pack.add_all calls).objects := by
  induction calls generalizing pack with
  | nil => exact h
  | cons e rest ih =>
    simp only [Pack.add_all, List.foldl_cons]
    exact ih _ (Pack.add_ok pack e.1 e.2 h)

theorem Pack.add_absent_perm (pack : Pack) (hash : Bytes) (obj : Object)
    (h : hash ∉ pack.objects.map Prod.fst) :
    (pack.add hash obj).objects.Perm ((hash, obj) :: pack.objects) := by
  have hf := (map_find_eq_none_iff pack.objects hash).mpr h
  simp only [Pack.add, hf, if_true]
  exact map_set_perm _ _ _ h

theorem Pack.add_all_perm (calls : List (Bytes × Object)) (pack : Pack)
    (hnd : (calls.map Prod.fst).Nodup)
    (hdis : ∀ k ∈ calls.map Prod.fst, k ∉ pack.objects.map Prod.fst) :
    (pack.add_all calls).objects.Perm (pack.objects ++ calls) := by
  induction calls generalizing pack with
  | nil => simp [Pack.add_all]
  | cons e rest ih =>
    simp only [List.map_cons, List.nodup_cons] at hnd
    have he : e.1 ∉ pack.objects.map Prod.fst := hdis e.1 (by simp)
    have hp := Pack.add_absent_perm pack e.1 e.2 he
    simp only [Pack.add_all, List.foldl_cons]
    have hdis2 : ∀ k ∈ rest.map Prod.fst, k ∉ (pack.add e.1 e.2).objects.map Prod.fst := by
      intro k hk hmem
      have := (hp.map Prod.fst).subset hmem
      simp only [List.map_cons, List.mem_cons] at this
      rcases this with h | h
      · exact hnd.1 (h ▸ hk)
      · exact hdis k (by simp [hk]) h
    have h1 := ih (pack.add e.1 e.2) hnd.2 hdis2
    refine h1.trans ?_
    refine (hp.append_right rest).trans ?_
    simp only [List.cons_append]
    exact List.perm_middle.symm

theorem entries_eq_of_perm (m1 m2 : List (Bytes × Object)) (h1 : map_ok m1) (h2 : map_ok m2)
    (hp : m1.Perm m2) : m1 = m2 := by
  haveI : IsAntisymm (Bytes × Object) (fun a b => a.1 < b.1) :=
    ⟨fun a b hab hba => absurd hab (lt_asymm hba)⟩
  unfold map_ok at h1 h2
  rw [List.Sorted, List.pairwise_map] at h1 h2
  exact List.eq_of_perm_of_sorted hp h1 h2

/-- C8: two sequences of `Pack::add` calls on an empty store that insert the
same (hash, object) pairs with pairwise distinct hashes, in any order, build
the same store; `Pack::print` then writes the same bytes; the store holds
exactly the inserted pairs with strictly ascending hashes, and the records are
written in that order. -/
theorem C8_print_order_independent (lib : Lib) (deflate : Bytes → Bytes)
    (calls1 calls2 : List (Bytes × Object)) (sha_a sha_b : SHA_CTX) (fp : Bytes)
    (hperm : calls1.Perm calls2) (hnd : (calls1.map Prod.fst).Nodup)
    (hz : ∀ e ∈ calls1, lib.compress2 e.2.data = some (deflate e.2.data)) :
    (Pack.add_all { objects := [], sha := sha_a } calls1).objects =
      (Pack.add_all { objects := [], sha := sha_b } calls2).objects ∧
    (Pack.print lib (Pack.add_all { objects := [], sha := sha_a } calls1) fp).map Prod.snd =
      (Pack.print lib (Pack.add_all { objects := [], sha := sha_b } calls2) fp).map Prod.snd ∧
    (Pack.add_all { objects := [], sha := sha_a } calls1).objects.Perm calls1 ∧
    ((Pack.add_all { objects := [], sha := sha_a } calls1).objects.map Prod.fst).Sorted (· < ·) ∧
    ∃ body,
      body = pack_header calls1.length ++
        (Pack.add_all { objects := [], sha := sha_a } calls1).objects.flatMap
          (fun e => type_size_word e.2.type.code e.2.data.length ++ deflate e.2.data) ∧
      (Pack.print lib (Pack.add_all { objects := [], sha := sha_a } calls1) fp).map Prod.snd =
        some (fp ++ (body ++ lib.digest body)) := by
  have hnd2 : (calls2.map Prod.fst).Nodup := (hperm.map Prod.fst).nodup_iff.mp hnd
  have hp1 := Pack.add_all_perm calls1 { objects := [], sha := sha_a } hnd (by simp)
  have hp2 := Pack.add_all_perm calls2 { objects := [], sha := sha_b } hnd2 (by simp)
  simp only [List.nil_append] at hp1 hp2
  have ho1 := Pack.add_all_ok calls1 { objects := [], sha := sha_a } (by simp [map_ok])
  have ho2 := Pack.add_all_ok calls2 { objects := [], sha := sha_b } (by simp [map_ok])
  have heq := entries_eq_of_perm _ _ ho1 ho2 (hp1.trans (hperm.trans hp2.symm))
  have hz1 : ∀ e ∈ (Pack.add_all { objects := [], sha := sha_a } calls1).objects,
      lib.compress2 e.2.data = some (deflate e.2.data) := fun e he => hz e (hp1.subset he)
  have hz2 : ∀ e ∈ (Pack.add_all { objects := [], sha := sha_b } calls2).objects,
      lib.compress2 e.2.data = some (deflate e.2.data) := by
    rw [← heq]; exact hz1
  have e1 := print_eq lib deflate _ fp hz1
  have e2 := print_eq lib deflate _ fp hz2
  refine ⟨heq, ?_, hp1, ho1, _, rfl, ?_⟩
  · rw [e1, e2, heq]
  · rw [e1, hp1.length_eq]
    simp only [Option.map_some', pack_records, pack_record, List.append_assoc]

/-- C8 on the two demo blobs, added in either order. -/
theorem C8_print_order_independent_witness :
    (demo_calls_b_a.Perm demo_calls_a_b ∧ (demo_calls_b_a.map Prod.fst).Nodup ∧
      ∀ e ∈ demo_calls_b_a, demo_lib.compress2 e.2.data = some (id e.2.data)) ∧
    ((Pack.add_all { objects := [], sha := [] } demo_calls_b_a).objects =
      (Pack.add_all { objects := [], sha := [7] } demo_calls_a_b).objects ∧
    (Pack.print demo_lib (Pack.add_all { objects := [], sha := [] } demo_calls_b_a) []).map
        Prod.snd =
      (Pack.print demo_lib (Pack.add_all { objects := [], sha := [7] } demo_calls_a_b) []).map
        Prod.snd ∧
    (Pack.add_all { objects := [], sha := [] } demo_calls_b_a).objects.Perm demo_calls_b_a ∧
    ((Pack.add_all { objects := [], sha := [] } demo_calls_b_a).objects.map Prod.fst).Sorted
      (· < ·) ∧
    ∃ body,
      body = pack_header demo_calls_b_a.length ++
        (Pack.add_all { objects := [], sha := [] } demo_calls_b_a).objects.flatMap
          (fun e => type_size_word e.2.type.code e.2.data.length ++ id e.2.data) ∧
      (Pack.print demo_lib (Pack.add_all { objects := [], sha := [] } demo_calls_b_a) []).map
          Prod.snd =
        some ([] ++ (body ++ demo_lib.digest body))) :=
  ⟨⟨List.Perm.swap _ _ _, by decide, fun _ _ => rfl⟩,
    C8_print_order_independent demo_lib id demo_calls_b_a demo_calls_a_b [] [7] []
      (List.Perm.swap _ _ _) (by decide) (fun _ _ => rfl)⟩

/-! ## Tree::data and Tree::hash -/

theorem git_mode_lt (t : Tree) (mode : Nat) (h : t.git_mode = some mode) : mode < 2 ^ 16 := by
  unfold Tree.git_mode at h
  simp only at h
  split at h
  · exact absurd h (by simp)
  · simp only [Option.some.injEq] at h
    rw [← h]
    apply Nat.or_lt_two_pow
    · apply Nat.or_lt_two_pow
      · exact Nat.and_lt_two_pow _ (by decide)
      · decide
    · split <;> decide

theorem tree_entry_eq (mode : Nat) (name hash : Bytes) (hm : mode < 2 ^ 16) :
    tree_entry mode name hash = fmt_uint 8 mode ++ ascii " " ++ name ++ [0] ++ hash := by
  have hl := fmt_uint_length_le 8 (by norm_num) mode 6 (by norm_num)
    (lt_trans hm (by norm_num))
  have hsp : (ascii " ").length = 1 := by decide
  unfold tree_entry snprintf_buf c_str NUL
  have htake : List.take (12 - 1) (fmt_uint 8 mode ++ ascii " ") = fmt_uint 8 mode ++ ascii " " := by
    apply List.take_of_length_le
    simp only [List.length_append, hsp]; omega
  rw [htake]
  congr 3
  rw [List.takeWhile_eq_self_iff]
  intro c hc
  simp only [List.mem_append] at hc
  simp only [ne_eq, decide_eq_true_eq]
  rcases hc with hc | hc
  · obtain ⟨d, hd, rfl⟩ := fmt_uint_mem 8 (by norm_num) mode c hc
    unfold digit_char; split <;> omega
  · have : c = 32 := by simpa [ascii] using hc
    omega

theorem tree_entry_ne_nil (mode : Nat) (name hash : Bytes) : tree_entry mode name hash ≠ [] := by
  simp [tree_entry, NUL]

theorem data_loop_spec (ch : Tree → World → Res (Bytes × Tree × World)) (hch : hash_fn_ok ch) :
    ∀ (fs : List (Bytes × Tree)) (acc : Bytes) (w : World) fs1 d1 w1,
      data_loop ch fs acc w = .ok (fs1, d1, w1) →
      fs1.map Prod.fst = fs.map Prod.fst ∧
      fs1.map (fun e => e.2.st_mode) = fs.map (fun e => e.2.st_mode) ∧
      (∀ e ∈ fs1, e.2.git_mode ≠ none) ∧
      d1 = acc ++ fs1.flatMap dir_entry := by
  intro fs
  induction fs with
  | nil =>
    intro acc w fs1 d1 w1 h
    simp only [data_loop, Res.ok.injEq, Prod.mk.injEq] at h
    obtain ⟨rfl, rfl, rfl⟩ := h
    simp
  | cons e rest ih =>
    intro acc w fs1 d1 w1 h
    obtain ⟨name, child⟩ := e
    simp only [data_loop] at h
    cases hr : ch child w with
    | abort => simp [hr] at h
    | out_of_fuel => simp [hr] at h
    | ok r =>
      obtain ⟨hash, child1, w2⟩ := r
      obtain ⟨hh, hm, _⟩ := hch child w hash child1 w2 hr
      simp only [hr] at h
      cases hg : child1.git_mode with
      | none => simp [hg] at h
      | some mode =>
        simp only [hg] at h
        cases hl : data_loop ch rest (acc ++ tree_entry mode name hash) w2 with
        | abort => simp [hl] at h
        | out_of_fuel => simp [hl] at h
        | ok r2 =>
          obtain ⟨rest1, data1, w3⟩ := r2
          simp only [hl, Res.ok.injEq, Prod.mk.injEq] at h
          obtain ⟨rfl, rfl, rfl⟩ := h
          obtain ⟨i1, i2, i3, i4⟩ := ih _ _ _ _ _ hl
          refine ⟨by simp [i1], by simp [i2, hm], ?_, ?_⟩
          · intro e he
            simp only [List.mem_cons] at he
            rcases he with rfl | he
            · simp [hg]
            · exact i3 e he
          · rw [i4, List.flatMap_cons]
            simp only [dir_entry, hg, Option.getD_some, hh,
              tree_entry_eq mode name hash (git_mode_lt child1 mode hg), List.append_assoc]

theorem data_step_spec (lib : Lib) (ch : Tree → World → Res (Bytes × Tree × World))
    (hch : hash_fn_ok ch) (t : Tree) (w : World) (d : Bytes) (t1 : Tree) (w1 : World)
    (h : data_step lib ch t w = .ok (d, t1, w1)) :
    t1.data_ = d ∧ t1.st_mode = t.st_mode ∧ t1.path_ = t.path_ ∧ t1.hash_ = t.hash_ ∧
      t1.files_.map Prod.fst = t.files_.map Prod.fst := by
  obtain ⟨p, d0, h0, m, fs⟩ := t
  simp only [data_step] at h
  split at h
  · split at h
    · cases hl : data_loop ch fs d0 w with
      | abort => simp [hl] at h
      | out_of_fuel => simp [hl] at h
      | ok r =>
        obtain ⟨fs1, d1, w2⟩ := r
        simp only [hl, Res.ok.injEq, Prod.mk.injEq] at h
        obtain ⟨rfl, rfl, rfl⟩ := h
        obtain ⟨i1, _, _, _⟩ := data_loop_spec ch hch _ _ _ _ _ _ hl
        simp [Tree.data_, Tree.st_mode, Tree.path_, Tree.hash_, Tree.files_, i1]
    · split at h
      · cases hl : read_file lib p w with
        | abort => simp [hl] at h
        | out_of_fuel => simp [hl] at h
        | ok r =>
          obtain ⟨content, w2⟩ := r
          simp only [hl, Res.ok.injEq, Prod.mk.injEq] at h
          obtain ⟨rfl, rfl, rfl⟩ := h
          simp [Tree.data_, Tree.st_mode, Tree.path_, Tree.hash_, Tree.files_]
      · simp at h
  · simp only [Res.ok.injEq, Prod.mk.injEq] at h
    obtain ⟨rfl, rfl, rfl⟩ := h
    simp [Tree.data_, Tree.st_mode, Tree.path_, Tree.hash_, Tree.files_]

theorem dir_entry_ne_nil (e : Bytes × Tree) : dir_entry e ≠ [] := by
  simp [dir_entry]

theorem Tree.set_hash_fields (t : Tree) (hs : Bytes) :
    (t.set_hash hs).hash_ = hs ∧ (t.set_hash hs).data_ = t.data_ ∧
      (t.set_hash hs).st_mode = t.st_mode ∧ (t.set_hash hs).path_ = t.path_ ∧
      (t.set_hash hs).files_ = t.files_ := by
  obtain ⟨p, d, h, m, fs⟩ := t
  simp [Tree.set_hash, Tree.hash_, Tree.data_, Tree.st_mode, Tree.path_, Tree.files_]

theorem Tree.set_hash_self (t : Tree) : t.set_hash t.hash_ = t := by
  obtain ⟨p, d, h, m, fs⟩ := t
  simp [Tree.set_hash, Tree.hash_]

theorem Tree.gittype_congr (t t1 : Tree) (h : t1.st_mode = t.st_mode) :
    t1.gittype = t.gittype := by
  simp [Tree.gittype, h]

/-- A second `data()` on the node a first `data()` left behind returns the same
payload, leaves the node as it is and does not touch the pack. -/
theorem data_step_again (lib : Lib) (ch : Tree → World → Res (Bytes × Tree × World))
    (hch : hash_fn_ok ch) (t : Tree) (w : World) (d : Bytes) (t1 : Tree) (w1 : World)
    (h : data_step lib ch t w = .ok (d, t1, w1)) (hs : Bytes) (w2 : World) :
    ∃ w3, data_step lib ch (t1.set_hash hs) w2 = .ok (d, t1.set_hash hs, w3) ∧
      w3.pack = w2.pack := by
  obtain ⟨p, d0, h0, m, fs⟩ := t
  simp only [data_step] at h
  split at h
  · rename_i hd0
    split at h
    · rename_i hdir
      cases hl : data_loop ch fs d0 w with
      | abort => simp [hl] at h
      | out_of_fuel => simp [hl] at h
      | ok r =>
        obtain ⟨fs1, d1, w3⟩ := r
        simp only [hl, Res.ok.injEq, Prod.mk.injEq] at h
        obtain ⟨rfl, rfl, rfl⟩ := h
        obtain ⟨_, _, _, i4⟩ := data_loop_spec ch hch _ _ _ _ _ _ hl
        by_cases hd1 : d1.length = 0
        · have hfs1 : fs1 = [] := by
            cases fs1 with
            | nil => rfl
            | cons e r =>
              exfalso
              have hd1nil : d1 = [] := List.length_eq_zero.mp hd1
              rw [hd1nil, List.flatMap_cons] at i4
              have := dir_entry_ne_nil e
              simp at i4
              exact this i4.2.1
          have hd1nil : d1 = [] := List.length_eq_zero.mp hd1
          subst hfs1; subst hd1nil
          exact ⟨w2, by simp [data_step, Tree.set_hash, hdir, data_loop], rfl⟩
        · exact ⟨w2, by simp [data_step, Tree.set_hash, hd1], rfl⟩
    · rename_i hdir
      split at h
      · rename_i hreg
        simp only [read_file] at h
        cases hc : lib.read_file_content p with
        | none => simp [hc] at h
        | some content =>
          simp only [hc, Res.ok.injEq, Prod.mk.injEq] at h
          obtain ⟨rfl, rfl, rfl⟩ := h
          by_cases hd1 : content.length = 0
          · have hcn : content = [] := List.length_eq_zero.mp hd1
            subst hcn
            exact ⟨{ w2 with reads := w2.reads ++ [p] },
              by simp [data_step, Tree.set_hash, hdir, hreg, read_file, hc], rfl⟩
          · exact ⟨w2, by simp [data_step, Tree.set_hash, hd1], rfl⟩
      · simp at h
  · rename_i hd0
    simp only [Res.ok.injEq, Prod.mk.injEq] at h
    obtain ⟨rfl, rfl, rfl⟩ := h
    exact ⟨w2, by simp [data_step, Tree.set_hash, hd0], rfl⟩

/-- What a returning `Tree::hash` has done: a memoized hash is returned as it
is; otherwise the node's payload was computed (`w2` is the world after the
first `data()`), the hash is the digest of header and payload, and the object
went into the pack through `add`. -/
theorem hash_step_spec (lib : Lib) (ch : Tree → World → Res (Bytes × Tree × World))
    (hch : hash_fn_ok ch) (t : Tree) (w : World) (h : Bytes) (t1 : Tree) (w1 : World)
    (hrun : hash_step lib ch t w = .ok (h, t1, w1)) :
    t1.hash_ = h ∧ t1.st_mode = t.st_mode ∧ t1.path_ = t.path_ ∧
    (t.hash_ ≠ [] → t1 = t ∧ w1 = w) ∧
    (t.hash_ = [] → ∃ t0 w2,
      data_step lib ch t w = .ok (t1.data_, t0, w2) ∧ t1 = t0.set_hash h ∧
      h = sha1 lib (git_header t1.gittype t1.data_.length) t1.data_ ∧
      w1.pack = w2.pack.add h { type := t1.gittype, data := t1.data_ }) := by
  unfold hash_step at hrun
  split at hrun
  · rename_i hempty
    cases hd1 : data_step lib ch t w with
    | abort => simp [hd1] at hrun
    | out_of_fuel => simp [hd1] at hrun
    | ok r1 =>
      obtain ⟨d1, ta, wa⟩ := r1
      obtain ⟨a1, a2, a3, a4, a5⟩ := data_step_spec lib ch hch _ _ _ _ _ hd1
      obtain ⟨wb, hb, hbp⟩ := data_step_again lib ch hch _ _ _ _ _ hd1 ta.hash_ wa
      rw [Tree.set_hash_self] at hb
      simp only [hd1, hb] at hrun
      obtain ⟨wc, hc, hcp⟩ := data_step_again lib ch hch _ _ _ _ _ hd1
        (sha1 lib (git_header ta.gittype d1.length) d1) wb
      simp only [hc, Res.ok.injEq, Prod.mk.injEq] at hrun
      obtain ⟨rfl, rfl, rfl⟩ := hrun
      obtain ⟨s1, s2, s3, s4, s5⟩ := Tree.set_hash_fields ta
        (sha1 lib (git_header ta.gittype d1.length) d1)
      have hg : (ta.set_hash (sha1 lib (git_header ta.gittype d1.length) d1)).gittype =
          ta.gittype := Tree.gittype_congr _ _ s3
      refine ⟨rfl, by rw [s3, a2], by rw [s4, a3], fun hne => absurd hempty hne, fun _ => ?_⟩
      refine ⟨ta, wa, ?g1, ?g2, ?g3, ?g4⟩
      case g1 => rw [s2, a1]
      case g2 => rw [s1]
      case g3 => rw [s1, hg, s2, a1]
      case g4 => simp only [hcp, hbp, s2, a1]
  · rename_i hne
    simp only [Res.ok.injEq, Prod.mk.injEq] at hrun
    obtain ⟨rfl, rfl, rfl⟩ := hrun
    exact ⟨rfl, rfl, rfl, fun _ => ⟨rfl, rfl⟩, fun he => absurd he hne⟩

theorem hash_step_ok (lib : Lib) (ch : Tree → World → Res (Bytes × Tree × World))
    (hch : hash_fn_ok ch) : hash_fn_ok (hash_step lib ch) := by
  intro c w h c1 w1 hrun
  obtain ⟨a, b, c', _, _⟩ := hash_step_spec lib ch hch c w h c1 w1 hrun
  exact ⟨a, b, c'⟩

theorem hash_fuel_ok (lib : Lib) (fuel : Nat) : hash_fn_ok (Tree.hash_fuel lib fuel) := by
  induction fuel with
  | zero => intro c w h c1 w1 hrun; simp [Tree.hash_fuel] at hrun
  | succ n ih => exact hash_step_ok lib _ ih

theorem hash_step_total (lib : Lib) (ch : Tree → World → Res (Bytes × Tree × World))
    (hch : hash_fn_ok ch) (t : Tree) (w : World)
    (h : t.hash_ = [] → ∃ r, data_step lib ch t w = .ok r) :
    ∃ r, hash_step lib ch t w = .ok r := by
  unfold hash_step
  split
  · rename_i he
    obtain ⟨⟨d1, ta, wa⟩, hd1⟩ := h he
    obtain ⟨wb, hb, _⟩ := data_step_again lib ch hch _ _ _ _ _ hd1 ta.hash_ wa
    rw [Tree.set_hash_self] at hb
    obtain ⟨wc, hc, _⟩ := data_step_again lib ch hch _ _ _ _ _ hd1
      (sha1 lib (git_header ta.gittype d1.length) d1) wb
    simp only [hd1, hb, hc]
    exact ⟨_, rfl⟩
  · exact ⟨_, rfl⟩

/-! ## The recursion fuel is enough -/

theorem height_list_le (fs : List (Bytes × Tree)) (e : Bytes × Tree) (he : e ∈ fs) :
    e.2.height ≤ height_list fs := by
  induction fs with
  | nil => simp at he
  | cons x rest ih =>
    simp only [height_list]
    simp only [List.mem_cons] at he
    rcases he with rfl | he
    · exact le_max_left _ _
    · exact le_trans (ih he) (le_max_right _ _)

theorem data_loop_fuel_enough (ch : Tree → World → Res (Bytes × Tree × World)) :
    ∀ (fs : List (Bytes × Tree)),
      (∀ e ∈ fs, ∀ w, ch e.2 w ≠ .out_of_fuel) →
      ∀ (acc : Bytes) (w : World), data_loop ch fs acc w ≠ .out_of_fuel := by
  intro fs
  induction fs with
  | nil => intro _ acc w; simp [data_loop]
  | cons e rest ih =>
    intro h acc w
    obtain ⟨name, child⟩ := e
    have h1 := h (name, child) (by simp) w
    simp only [data_loop]
    cases hr : ch child w with
    | abort => simp
    | out_of_fuel => exact absurd hr h1
    | ok r =>
      obtain ⟨hash, child1, w2⟩ := r
      simp only
      cases hg : child1.git_mode with
      | none => simp
      | some mode =>
        simp only
        have h2 := ih (fun e he => h e (by simp [he])) (acc ++ tree_entry mode name hash) w2
        cases hl : data_loop ch rest (acc ++ tree_entry mode name hash) w2 with
        | abort => simp
        | out_of_fuel => exact absurd hl h2
        | ok r2 => simp

theorem data_step_fuel_enough (lib : Lib) (ch : Tree → World → Res (Bytes × Tree × World))
    (t : Tree) (w : World) (h : ∀ e ∈ t.files_, ∀ w, ch e.2 w ≠ .out_of_fuel) :
    data_step lib ch t w ≠ .out_of_fuel := by
  obtain ⟨p, d0, h0, m, fs⟩ := t
  simp only [data_step]
  split
  · split
    · have := data_loop_fuel_enough ch fs h d0 w
      cases hl : data_loop ch fs d0 w with
      | abort => simp
      | out_of_fuel => exact absurd hl this
      | ok r => simp
    · split
      · simp only [read_file]
        cases lib.read_file_content p <;> simp
      · simp
  · simp

theorem hash_step_fuel_enough (lib : Lib) (ch : Tree → World → Res (Bytes × Tree × World))
    (hch : hash_fn_ok ch) (t : Tree) (w : World)
    (h : ∀ e ∈ t.files_, ∀ w, ch e.2 w ≠ .out_of_fuel) :
    hash_step lib ch t w ≠ .out_of_fuel := by
  have h1 := data_step_fuel_enough lib ch t w h
  cases hd : data_step lib ch t w with
  | out_of_fuel => exact absurd hd h1
  | abort =>
    unfold hash_step
    split
    · simp [hd]
    · simp
  | ok r =>
    obtain ⟨r2, hr2⟩ := hash_step_total lib ch hch t w (fun _ => ⟨r, hd⟩)
    simp [hr2]

/-- With fuel for as many levels as the node has, `Tree::hash` never runs out
of fuel. -/
theorem hash_fuel_enough (lib : Lib) (n : Nat) :
    ∀ (t : Tree) (w : World), t.height ≤ n → Tree.hash_fuel lib n t w ≠ .out_of_fuel := by
  induction n with
  | zero =>
    intro t w h
    obtain ⟨p, d0, h0, m, fs⟩ := t
    simp [Tree.height] at h
  | succ n ih =>
    intro t w h
    simp only [Tree.hash_fuel]
    apply hash_step_fuel_enough lib _ (hash_fuel_ok lib n)
    intro e he w2
    apply ih
    obtain ⟨p, d0, h0, m, fs⟩ := t
    have := height_list_le fs e he
    simp only [Tree.height] at h
    omega

/-- `Tree::hash` returns or aborts. -/
theorem Tree.hash_returns_or_aborts (lib : Lib) (t : Tree) (w : World) :
    (∃ r, Tree.hash lib t w = .ok r) ∨ Tree.hash lib t w = .abort := by
  have := hash_fuel_enough lib t.height t w (le_refl _)
  unfold Tree.hash
  cases h : Tree.hash_fuel lib t.height t w with
  | ok r => exact Or.inl ⟨r, rfl⟩
  | abort => exact Or.inr rfl
  | out_of_fuel => exact absurd h this

/-- `Tree::data` returns or aborts. -/
theorem Tree.data_returns_or_aborts (lib : Lib) (t : Tree) (w : World) :
    (∃ r, Tree.data lib t w = .ok r) ∨ Tree.data lib t w = .abort := by
  have : Tree.data lib t w ≠ .out_of_fuel := by
    unfold Tree.data Tree.data_fuel
    apply data_step_fuel_enough
    intro e he w2
    apply hash_fuel_enough
    obtain ⟨p, d0, h0, m, fs⟩ := t
    have := height_list_le fs e he
    simp only [Tree.height, Nat.add_sub_cancel]
    exact this
  cases h : Tree.data lib t w with
  | ok r => exact Or.inl ⟨r, rfl⟩
  | abort => exact Or.inr rfl
  | out_of_fuel => exact absurd h this

/-! ## C6: content addressing -/

theorem map_set_mem {V : Type} (m : List (Bytes × V)) (k : Bytes) (v : V) (e : Bytes × V)
    (he : e ∈ map_set m k v) : e = (k, v) ∨ e ∈ m := by
  induction m with
  | nil => left; simpa [map_set] using he
  | cons e1 rest ih =>
    obtain ⟨k1, v1⟩ := e1
    simp only [map_set] at he
    split at he
    · simpa using he
    · split at he
      · rename_i hk
        simp only [List.mem_cons] at he ⊢
        rcases he with h | h
        · left; rw [h, hk]
        · right; right; exact h
      · simp only [List.mem_cons] at he ⊢
        rcases he with h | h
        · right; left; exact h
        · rcases ih h with h | h
          · left; exact h
          · right; right; exact h

theorem sha1_eq (lib : Lib) (header data : Bytes) :
    sha1 lib header data = lib.digest (header ++ data) := by
  simp [sha1, SHA1_Final, SHA1_Update, SHA1_Init]

theorem Pack.add_store_ok (lib : Lib) (pack : Pack) (obj : Object)
    (h : store_ok lib pack.objects) :
    store_ok lib (pack.add (sha1 lib (git_header obj.type obj.data.length) obj.data) obj).objects := by
  unfold Pack.add
  split
  · intro e he
    rcases map_set_mem _ _ _ e he with rfl | he
    · exact sha1_eq lib _ _
    · exact h e he
  · exact h

theorem data_loop_keeps (lib : Lib) (ch : Tree → World → Res (Bytes × Tree × World))
    (hk : hash_fn_keeps lib ch) :
    ∀ (fs : List (Bytes × Tree)) (acc : Bytes) (w : World) fs1 d1 w1,
      data_loop ch fs acc w = .ok (fs1, d1, w1) →
      store_ok lib w.pack.objects → store_ok lib w1.pack.objects := by
  intro fs
  induction fs with
  | nil =>
    intro acc w fs1 d1 w1 h hs
    simp only [data_loop, Res.ok.injEq, Prod.mk.injEq] at h
    obtain ⟨rfl, rfl, rfl⟩ := h
    exact hs
  | cons e rest ih =>
    intro acc w fs1 d1 w1 h hs
    obtain ⟨name, child⟩ := e
    simp only [data_loop] at h
    cases hr : ch child w with
    | abort => simp [hr] at h
    | out_of_fuel => simp [hr] at h
    | ok r =>
      obtain ⟨hash, child1, w2⟩ := r
      have hs2 := hk child w hash child1 w2 hr hs
      simp only [hr] at h
      cases hg : child1.git_mode with
      | none => simp [hg] at h
      | some mode =>
        simp only [hg] at h
        cases hl : data_loop ch rest (acc ++ tree_entry mode name hash) w2 with
        | abort => simp [hl] at h
        | out_of_fuel => simp [hl] at h
        | ok r2 =>
          obtain ⟨rest1, data1, w3⟩ := r2
          simp only [hl, Res.ok.injEq, Prod.mk.injEq] at h
          obtain ⟨rfl, rfl, rfl⟩ := h
          exact ih _ _ _ _ _ hl hs2

theorem data_step_keeps (lib : Lib) (ch : Tree → World → Res (Bytes × Tree × World))
    (hk : hash_fn_keeps lib ch) (t : Tree) (w : World) (d : Bytes) (t1 : Tree) (w1 : World)
    (h : data_step lib ch t w = .ok (d, t1, w1)) (hs : store_ok lib w.pack.objects) :
    store_ok lib w1.pack.objects := by
  obtain ⟨p, d0, h0, m, fs⟩ := t
  simp only [data_step] at h
  split at h
  · split at h
    · cases hl : data_loop ch fs d0 w with
      | abort => simp [hl] at h
      | out_of_fuel => simp [hl] at h
      | ok r =>
        obtain ⟨fs1, d1, w2⟩ := r
        simp only [hl, Res.ok.injEq, Prod.mk.injEq] at h
        obtain ⟨rfl, rfl, rfl⟩ := h
        exact data_loop_keeps lib ch hk _ _ _ _ _ _ hl hs
    · split at h
      · simp only [read_file] at h
        cases hc : lib.read_file_content p with
        | none => simp [hc] at h
        | some content =>
          simp only [hc, Res.ok.injEq, Prod.mk.injEq] at h
          obtain ⟨rfl, rfl, rfl⟩ := h
          exact hs
      · simp at h
  · simp only [Res.ok.injEq, Prod.mk.injEq] at h
    obtain ⟨rfl, rfl, rfl⟩ := h
    exact hs

theorem hash_step_keeps (lib : Lib) (ch : Tree → World → Res (Bytes × Tree × World))
    (hch : hash_fn_ok ch) (hk : hash_fn_keeps lib ch) : hash_fn_keeps lib (hash_step lib ch) := by
  intro t w h t1 w1 hrun hs
  obtain ⟨_, _, _, hmemo, hfresh⟩ := hash_step_spec lib ch hch t w h t1 w1 hrun
  by_cases he : t.hash_ = []
  · obtain ⟨t0, w2, hd, _, hh, hp⟩ := hfresh he
    have hs2 := data_step_keeps lib ch hk _ _ _ _ _ hd hs
    rw [hp, hh]
    exact Pack.add_store_ok lib w2.pack { type := t1.gittype, data := t1.data_ } hs2
  · obtain ⟨_, rfl⟩ := hmemo he
    exact hs

theorem hash_fuel_keeps (lib : Lib) (fuel : Nat) : hash_fn_keeps lib (Tree.hash_fuel lib fuel) := by
  induction fuel with
  | zero => intro c w h c1 w1 hrun; simp [Tree.hash_fuel] at hrun
  | succ n ih => exact hash_step_keeps lib _ (hash_fuel_ok lib n) ih

theorem Reachable.store_ok (lib : Lib) (pack : Pack) (hr : Reachable lib pack) :
    store_ok lib pack.objects := by
  induction hr with
  | empty sha => intro e he; simp at he
  | hash_add pack obj _ ih => exact Pack.add_store_ok lib pack obj ih
  | tree_hash fuel t w h t1 w1 _ hrun ih => exact hash_fuel_keeps lib fuel t w h t1 w1 hrun ih

/-- C6: in every pack reached from the empty store by `Pack::hash_add` calls and
returning `Tree::hash` calls, each entry is filed under the digest of its
header followed by its payload; and a `Tree::hash` that computes a hash
memoizes in the node the very hash `Pack::hash_add` computes for the object
the node stores (its type and payload), with the same effect on the pack. -/
theorem C6_content_addressing (lib : Lib) (pack : Pack) (hr : Reachable lib pack) :
    (∀ e ∈ pack.objects,
      e.1 = lib.digest (git_header e.2.type e.2.data.length ++ e.2.data)) ∧
    (∀ fuel t w h t1 w1, t.hash_ = [] → Tree.hash_fuel lib fuel t w = .ok (h, t1, w1) →
      t1.hash_ = h ∧
      (∀ pk, (Pack.hash_add lib pk { type := t1.gittype, data := t1.data_ }).1 = h) ∧
      ∃ pk, w1.pack = (Pack.hash_add lib pk { type := t1.gittype, data := t1.data_ }).2) := by
  refine ⟨Reachable.store_ok lib pack hr, ?_⟩
  intro fuel t w h t1 w1 he hrun
  cases fuel with
  | zero => simp [Tree.hash_fuel] at hrun
  | succ n =>
    simp only [Tree.hash_fuel] at hrun
    obtain ⟨a, _, _, _, hfresh⟩ := hash_step_spec lib _ (hash_fuel_ok lib n) t w h t1 w1 hrun
    obtain ⟨t0, w2, _, _, hh, hp⟩ := hfresh he
    refine ⟨a, fun pk => ?_, w2.pack, ?_⟩
    · simp only [Pack.hash_add]; exact hh.symm
    · simp only [Pack.hash_add]; rw [hp, hh]

/-- C6 on the pack left by `Tree::hash` on the demo directory. -/
theorem C6_content_addressing_witness :
    ∃ h t1 w1, Tree.hash_fuel demo_lib 2 demo_dir_b_a demo_world = .ok (h, t1, w1) ∧
      Reachable demo_lib w1.pack ∧
      w1.pack.objects.length = 3 ∧
      (∀ e ∈ w1.pack.objects,
        e.1 = demo_lib.digest (git_header e.2.type e.2.data.length ++ e.2.data)) ∧
      (∀ fuel t w h t1 w1, t.hash_ = [] → Tree.hash_fuel demo_lib fuel t w = .ok (h, t1, w1) →
        t1.hash_ = h ∧
        (∀ pk, (Pack.hash_add demo_lib pk { type := t1.gittype, data := t1.data_ }).1 = h) ∧
        ∃ pk, w1.pack =
          (Pack.hash_add demo_lib pk { type := t1.gittype, data := t1.data_ }).2) :=
  ⟨_, _, _, rfl, Reachable.tree_hash 2 demo_dir_b_a demo_world _ _ _ (Reachable.empty []) rfl,
    by decide,
    C6_content_addressing demo_lib _
      (Reachable.tree_hash 2 demo_dir_b_a demo_world _ _ _ (Reachable.empty []) rfl)⟩

/-! ## C10: the directory payload -/

theorem data_loop_children (ch : Tree → World → Res (Bytes × Tree × World)) :
    ∀ (fs : List (Bytes × Tree)) (acc : Bytes) (w : World) fs1 d1 w1,
      data_loop ch fs acc w = .ok (fs1, d1, w1) →
      ∀ e1 ∈ fs1, ∃ e ∈ fs, ∃ wa wb h, e1.1 = e.1 ∧ ch e.2 wa = .ok (h, e1.2, wb) := by
  intro fs
  induction fs with
  | nil =>
    intro acc w fs1 d1 w1 h
    simp only [data_loop, Res.ok.injEq, Prod.mk.injEq] at h
    obtain ⟨rfl, rfl, rfl⟩ := h
    simp
  | cons e rest ih =>
    intro acc w fs1 d1 w1 h
    obtain ⟨name, child⟩ := e
    simp only [data_loop] at h
    cases hr : ch child w with
    | abort => simp [hr] at h
    | out_of_fuel => simp [hr] at h
    | ok r =>
      obtain ⟨hash, child1, w2⟩ := r
      simp only [hr] at h
      cases hg : child1.git_mode with
      | none => simp [hg] at h
      | some mode =>
        simp only [hg] at h
        cases hl : data_loop ch rest (acc ++ tree_entry mode name hash) w2 with
        | abort => simp [hl] at h
        | out_of_fuel => simp [hl] at h
        | ok r2 =>
          obtain ⟨rest1, data1, w3⟩ := r2
          simp only [hl, Res.ok.injEq, Prod.mk.injEq] at h
          obtain ⟨rfl, rfl, rfl⟩ := h
          intro e1 he1
          simp only [List.mem_cons] at he1
          rcases he1 with rfl | he1
          · exact ⟨(name, child), by simp, w, w2, hash, rfl, hr⟩
          · obtain ⟨e, he, wa, wb, h', h2⟩ := ih _ _ _ _ _ hl e1 he1
            exact ⟨e, by simp [he], wa, wb, h', h2⟩

theorem hash_fuel_length (lib : Lib) (hd : ∀ b, (lib.digest b).length = 20) (fuel : Nat)
    (c : Tree) (w : World) (h : Bytes) (c1 : Tree) (w1 : World)
    (hc : c.hash_ = [] ∨ c.hash_.length = 20)
    (hrun : Tree.hash_fuel lib fuel c w = .ok (h, c1, w1)) : c1.hash_.length = 20 := by
  cases fuel with
  | zero => simp [Tree.hash_fuel] at hrun
  | succ n =>
    simp only [Tree.hash_fuel] at hrun
    obtain ⟨a, _, _, hmemo, hfresh⟩ := hash_step_spec lib _ (hash_fuel_ok lib n) c w h c1 w1 hrun
    by_cases he : c.hash_ = []
    · obtain ⟨_, _, _, _, hh, _⟩ := hfresh he
      rw [a, hh, sha1_eq]; exact hd _
    · obtain ⟨rfl, _⟩ := hmemo he
      rcases hc with hc | hc
      · exact absurd hc he
      · exact hc

theorem Tree.git_mode_congr (t t1 : Tree) (h : t1.st_mode = t.st_mode) :
    t1.git_mode = t.git_mode := by
  simp [Tree.git_mode, h]

theorem and_type_mask (m : Nat) :
    m &&& (S_IFDIR ||| S_IFREG ||| S_IFLNK) = (m &&& S_IFMT) &&& (S_IFDIR ||| S_IFREG ||| S_IFLNK) := by
  rw [Nat.and_assoc]
  have : S_IFMT &&& (S_IFDIR ||| S_IFREG ||| S_IFLNK) = S_IFDIR ||| S_IFREG ||| S_IFLNK := by
    decide
  rw [this]

theorem git_mode_of_reg_or_dir (t : Tree)
    (h : S_ISREG t.st_mode = true ∨ S_ISDIR t.st_mode = true) : t.git_mode ≠ none := by
  have hm := and_type_mask t.st_mode
  unfold Tree.git_mode
  simp only
  rcases h with h | h
  · simp only [S_ISREG, beq_iff_eq] at h
    rw [h] at hm
    have : S_IFREG &&& (S_IFDIR ||| S_IFREG ||| S_IFLNK) = S_IFREG := by decide
    rw [this] at hm
    simp [h, hm]
  · simp only [S_ISDIR, beq_iff_eq] at h
    rw [h] at hm
    have : S_IFDIR &&& (S_IFDIR ||| S_IFREG ||| S_IFLNK) = S_IFDIR := by decide
    rw [this] at hm
    simp [h, hm]

theorem data_loop_total (ch : Tree → World → Res (Bytes × Tree × World)) (hch : hash_fn_ok ch) :
    ∀ (fs : List (Bytes × Tree)),
      (∀ e ∈ fs, ∀ w, ∃ r, ch e.2 w = .ok r) →
      (∀ e ∈ fs, e.2.git_mode ≠ none) →
      ∀ (acc : Bytes) (w : World), ∃ r, data_loop ch fs acc w = .ok r := by
  intro fs
  induction fs with
  | nil => intro _ _ acc w; exact ⟨_, rfl⟩
  | cons e rest ih =>
    intro h1 h2 acc w
    obtain ⟨name, child⟩ := e
    obtain ⟨⟨hash, child1, w2⟩, hr⟩ := h1 (name, child) (by simp) w
    obtain ⟨_, hm, _⟩ := hch child w hash child1 w2 hr
    have hg : child1.git_mode ≠ none := by
      rw [Tree.git_mode_congr child child1 hm]; exact h2 (name, child) (by simp)
    obtain ⟨mode, hmode⟩ := Option.ne_none_iff_exists'.mp hg
    obtain ⟨⟨rest1, data1, w3⟩, hl⟩ := ih (fun e he => h1 e (by simp [he]))
      (fun e he => h2 e (by simp [he])) (acc ++ tree_entry mode name hash) w2
    have hres : data_loop ch ((name, child) :: rest) acc w =
        .ok ((name, child1) :: rest1, data1, w3) := by
      simp only [data_loop, hr, hmode, hl]
    exact ⟨_, hres⟩

theorem finalizable_total (lib : Lib) (n : Nat) :
    ∀ t, Finalizable lib n t → ∀ w, ∃ r, Tree.hash_fuel lib n t w = .ok r := by
  induction n with
  | zero => intro t ht; cases ht
  | succ n ih =>
    intro t ht w
    simp only [Tree.hash_fuel]
    apply hash_step_total lib _ (hash_fuel_ok lib n)
    intro he
    cases ht with
    | memo _ p d h m fs hne => exact absurd he hne
    | cached _ p d h m fs hne =>
      have : d.length ≠ 0 := fun hl => hne (List.length_eq_zero.mp hl)
      exact ⟨(d, .mk p d h m fs, w), by simp [data_step, this]⟩
    | file _ p h m fs hnd hreg hread =>
      obtain ⟨content, hc⟩ := Option.ne_none_iff_exists'.mp hread
      exact ⟨(content, .mk p content h m fs, { w with reads := w.reads ++ [p] }),
        by simp [data_step, hnd, hreg, read_file, hc]⟩
    | dir _ p h m fs hdir hkids hmodes =>
      obtain ⟨⟨fs1, d1, w1⟩, hl⟩ := data_loop_total _ (hash_fuel_ok lib n) fs
        (fun e he w => ih e.2 (hkids e he) w)
        (fun e he => git_mode_of_reg_or_dir e.2 (hmodes e he)) [] w
      exact ⟨(d1, .mk p d1 h m fs1, w1), by simp [data_step, hdir, hl]⟩

/-- The payload `Tree::data` computes for a directory whose payload is not yet
memoized: the entries of the children in iteration order. -/
theorem data_step_dir_payload (lib : Lib) (ch : Tree → World → Res (Bytes × Tree × World))
    (hch : hash_fn_ok ch) (p h : Bytes) (m : Nat) (fs : List (Bytes × Tree)) (w : World)
    (hdir : S_ISDIR m = true) (d : Bytes) (t1 : Tree) (w1 : World)
    (hrun : data_step lib ch (.mk p [] h m fs) w = .ok (d, t1, w1)) :
    t1.files_.map Prod.fst = fs.map Prod.fst ∧
    (∀ e ∈ t1.files_, e.2.git_mode ≠ none) ∧
    d = t1.files_.flatMap dir_entry ∧
    ∀ e1 ∈ t1.files_, ∃ e ∈ fs, ∃ wa wb hs, e1.1 = e.1 ∧ ch e.2 wa = .ok (hs, e1.2, wb) := by
  simp only [data_step, List.length_nil, if_true, hdir] at hrun
  cases hl : data_loop ch fs [] w with
  | abort => simp [hl] at hrun
  | out_of_fuel => simp [hl] at hrun
  | ok r =>
    obtain ⟨fs1, d1, w2⟩ := r
    simp only [hl, Res.ok.injEq, Prod.mk.injEq] at hrun
    obtain ⟨rfl, rfl, rfl⟩ := hrun
    obtain ⟨i1, _, i3, i4⟩ := data_loop_spec ch hch _ _ _ _ _ _ hl
    exact ⟨i1, i3, by simpa using i4, data_loop_children ch _ _ _ _ _ _ hl⟩

theorem dir_entry_length (e : Bytes × Tree) (hh : e.2.hash_.length = 20) :
    (dir_entry e).length = (fmt_uint 8 (e.2.git_mode.getD 0)).length + e.1.length + 22 := by
  have hsp : (ascii " ").length = 1 := by decide
  simp only [dir_entry, List.length_append, hsp, hh, List.length_singleton]
  omega

theorem flatMap_dir_entry_length (fs : List (Bytes × Tree))
    (hh : ∀ e ∈ fs, e.2.hash_.length = 20) :
    (fs.flatMap dir_entry).length =
      (fs.map (fun e => (fmt_uint 8 (e.2.git_mode.getD 0)).length + e.1.length + 22)).sum := by
  induction fs with
  | nil => simp
  | cons e rest ih =>
    rw [List.flatMap_cons, List.length_append, dir_entry_length e (hh e (by simp)),
      ih (fun x hx => hh x (by simp [hx]))]
    simp

/-- C10: for a directory node with at least one child, all children regular
files or directories, the payload `Tree::data` computes is the concatenation,
over the children in iteration order, of the child's `git_mode` in octal
without leading zero, a space, the child's name, a NUL and the child's 20-byte
hash; its length is the sum of `len(octal mode) + len(name) + 22`.  And
`Tree::data` does return when every child can be finalized. -/
theorem C10_directory_payload (lib : Lib) (fuel : Nat) (p h : Bytes) (m : Nat)
    (fs : List (Bytes × Tree)) (w : World)
    (hd : ∀ b, (lib.digest b).length = 20)
    (hdir : S_ISDIR m = true) (hne : fs ≠ [])
    (hkids : ∀ e ∈ fs, S_ISREG e.2.st_mode = true ∨ S_ISDIR e.2.st_mode = true)
    (hh : ∀ e ∈ fs, e.2.hash_ = [] ∨ e.2.hash_.length = 20) :
    (∀ d t1 w1, Tree.data_fuel lib fuel (.mk p [] h m fs) w = .ok (d, t1, w1) →
      t1.files_.map Prod.fst = fs.map Prod.fst ∧
      (∀ e ∈ t1.files_, ∃ mode, e.2.git_mode = some mode ∧
        (∀ c ∈ fmt_uint 8 mode, is_oct_digit c) ∧ numeral_value 8 (fmt_uint 8 mode) = mode ∧
        (fmt_uint 8 mode).head? ≠ some 48 ∧ e.2.hash_.length = 20) ∧
      d = t1.files_.flatMap
        (fun e => fmt_uint 8 (e.2.git_mode.getD 0) ++ ascii " " ++ e.1 ++ [0] ++ e.2.hash_) ∧
      d.length = (t1.files_.map
        (fun e => (fmt_uint 8 (e.2.git_mode.getD 0)).length + e.1.length + 22)).sum ∧
      d ≠ []) ∧
    ((∀ e ∈ fs, Finalizable lib fuel e.2) →
      ∃ d t1 w1, Tree.data_fuel lib fuel (.mk p [] h m fs) w = .ok (d, t1, w1)) := by
  constructor
  · intro d t1 w1 hrun
    obtain ⟨i1, i2, i3, i4⟩ := data_step_dir_payload lib _ (hash_fuel_ok lib fuel) p h m fs w
      hdir d t1 w1 hrun
    have hlen : ∀ e ∈ t1.files_, e.2.hash_.length = 20 := by
      intro e1 he1
      obtain ⟨e, he, wa, wb, hs, _, hr⟩ := i4 e1 he1
      exact hash_fuel_length lib hd fuel e.2 wa hs e1.2 wb (hh e he) hr
    refine ⟨i1, ?_, i3, ?_, ?_⟩
    · intro e he
      obtain ⟨mode, hmode⟩ := Option.ne_none_iff_exists'.mp (i2 e he)
      have hmode0 : mode ≠ 0 := by
        intro h0
        have hg := hmode
        unfold Tree.git_mode at hg
        simp only at hg
        split at hg
        · simp at hg
        · simp only [Option.some.injEq] at hg
          have hbit : mode.testBit 2 = true := by
            rw [← hg]
            simp only [Nat.testBit_or]
            have : Nat.testBit 0o644 2 = true := by decide
            simp [this]
          rw [h0] at hbit
          simp at hbit
      refine ⟨mode, hmode, ?_, numeral_value_fmt_uint 8 (by norm_num) (by norm_num) mode,
        (fmt_uint_no_leading_zero 8 (by norm_num) mode).2 hmode0, hlen e he⟩
      intro c hc
      obtain ⟨dg, hdg, rfl⟩ := fmt_uint_mem 8 (by norm_num) mode c hc
      unfold is_oct_digit digit_char
      split <;> omega
    · rw [i3]; exact flatMap_dir_entry_length _ hlen
    · rw [i3]
      cases hf : t1.files_ with
      | nil =>
        rw [hf] at i1
        simp at i1
        exact absurd i1 hne
      | cons e r =>
        rw [List.flatMap_cons]
        have := dir_entry_ne_nil e
        simp [this]
  · intro hfin
    obtain ⟨⟨fs1, d1, w1⟩, hl⟩ := data_loop_total _ (hash_fuel_ok lib fuel) fs
      (fun e he w => finalizable_total lib fuel e.2 (hfin e he) w)
      (fun e he => git_mode_of_reg_or_dir e.2 (hkids e he)) [] w
    exact ⟨d1, .mk p d1 h m fs1, w1, by simp [Tree.data_fuel, data_step, hdir, hl]⟩

/-- C10 on the demo directory with its two regular files. -/
theorem C10_directory_payload_witness :
    ((∀ b, (demo_lib.digest b).length = 20) ∧ S_ISDIR 0o040755 = true ∧
      demo_dir_b_a.files_ ≠ [] ∧
      (∀ e ∈ demo_dir_b_a.files_, S_ISREG e.2.st_mode = true ∨ S_ISDIR e.2.st_mode = true) ∧
      (∀ e ∈ demo_dir_b_a.files_, e.2.hash_ = [] ∨ e.2.hash_.length = 20) ∧
      (Tree.data_fuel demo_lib 1 (.mk (ascii ".") [] [] 0o040755 demo_dir_b_a.files_)
        demo_world).bytes = some (demo_entry_a ++ demo_entry_b)) ∧
    ((∀ d t1 w1,
      Tree.data_fuel demo_lib 1 (.mk (ascii ".") [] [] 0o040755 demo_dir_b_a.files_) demo_world =
        .ok (d, t1, w1) →
      t1.files_.map Prod.fst = demo_dir_b_a.files_.map Prod.fst ∧
      (∀ e ∈ t1.files_, ∃ mode, e.2.git_mode = some mode ∧
        (∀ c ∈ fmt_uint 8 mode, is_oct_digit c) ∧ numeral_value 8 (fmt_uint 8 mode) = mode ∧
        (fmt_uint 8 mode).head? ≠ some 48 ∧ e.2.hash_.length = 20) ∧
      d = t1.files_.flatMap
        (fun e => fmt_uint 8 (e.2.git_mode.getD 0) ++ ascii " " ++ e.1 ++ [0] ++ e.2.hash_) ∧
      d.length = (t1.files_.map
        (fun e => (fmt_uint 8 (e.2.git_mode.getD 0)).length + e.1.length + 22)).sum ∧
      d ≠ []) ∧
    ((∀ e ∈ demo_dir_b_a.files_, Finalizable demo_lib 1 e.2) →
      ∃ d t1 w1,
        Tree.data_fuel demo_lib 1 (.mk (ascii ".") [] [] 0o040755 demo_dir_b_a.files_)
          demo_world = .ok (d, t1, w1))) :=
  ⟨⟨fun b => by simp [demo_lib], by decide,
      fun h => absurd (congrArg List.length h) (by decide), by decide, by decide, by decide⟩,
    C10_directory_payload demo_lib 1 (ascii ".") [] 0o040755 demo_dir_b_a.files_ demo_world
      (fun b => by simp [demo_lib]) (by decide)
      (fun h => absurd (congrArg List.length h) (by decide)) (by decide) (by decide)⟩

/-! ## C9: the order of the entries of a directory -/

theorem Tree.addfile_all_mk (lib : Lib) (calls : List (Bytes × Bytes)) (p d h : Bytes) (m : Nat)
    (fs : List (Bytes × Tree)) :
    Tree.addfile_all lib (.mk p d h m fs) calls = .mk p d h m (calls.foldl (files_add lib) fs) := by
  induction calls generalizing fs with
  | nil => rfl
  | cons c rest ih =>
    simp only [Tree.addfile_all, List.foldl_cons] at ih ⊢
    have h1 : (Tree.mk p d h m fs).addfile lib c.1 c.2 = .mk p d h m (files_add lib fs c) := by
      simp only [Tree.addfile, files_add]
      split <;> rfl
    rw [h1, ih]

theorem files_add_ok (lib : Lib) (calls : List (Bytes × Bytes)) (fs : List (Bytes × Tree))
    (h : map_ok fs) : map_ok (calls.foldl (files_add lib) fs) := by
  induction calls generalizing fs with
  | nil => exact h
  | cons c rest ih =>
    simp only [List.foldl_cons]
    apply ih
    unfold files_add
    split
    · exact map_set_ok _ _ _ h
    · exact h

theorem files_add_perm (lib : Lib) (calls : List (Bytes × Bytes)) (fs : List (Bytes × Tree))
    (hnd : (calls.map Prod.fst).Nodup)
    (hdis : ∀ k ∈ calls.map Prod.fst, k ∉ fs.map Prod.fst) :
    (calls.foldl (files_add lib) fs).Perm
      (fs ++ calls.map (fun c => (c.1, Tree.new lib c.2))) := by
  induction calls generalizing fs with
  | nil => simp
  | cons c rest ih =>
    simp only [List.map_cons, List.nodup_cons] at hnd
    have hc : c.1 ∉ fs.map Prod.fst := hdis c.1 (by simp)
    have hf := (map_find_eq_none_iff fs c.1).mpr hc
    have hp : (files_add lib fs c).Perm ((c.1, Tree.new lib c.2) :: fs) := by
      simp only [files_add, hf, Option.isNone_none, if_true]
      exact map_set_perm _ _ _ hc
    simp only [List.foldl_cons]
    have hdis2 : ∀ k ∈ rest.map Prod.fst, k ∉ (files_add lib fs c).map Prod.fst := by
      intro k hk hmem
      have := (hp.map Prod.fst).subset hmem
      simp only [List.map_cons, List.mem_cons] at this
      rcases this with h | h
      · exact hnd.1 (h ▸ hk)
      · exact hdis k (by simp [hk]) h
    refine (ih _ hnd.2 hdis2).trans ?_
    refine (hp.append_right _).trans ?_
    simp only [List.cons_append, List.map_cons]
    exact List.perm_middle.symm

theorem files_eq_of_perm (m1 m2 : List (Bytes × Tree)) (h1 : map_ok m1) (h2 : map_ok m2)
    (hp : m1.Perm m2) : m1 = m2 := by
  haveI : IsAntisymm (Bytes × Tree) (fun a b => a.1 < b.1) :=
    ⟨fun a b hab hba => absurd hab (lt_asymm hba)⟩
  unfold map_ok at h1 h2
  rw [List.Sorted, List.pairwise_map] at h1 h2
  exact List.eq_of_perm_of_sorted hp h1 h2

/-- C9, refuted as stated: in the demo directory, where `b` was inserted before
`a`, the payload `Tree::data` computes is the entry of `a` followed by the
entry of `b`; the entry of `b` does not precede the entry of `a`. -/
theorem C9_insertion_order_refuted :
    (Tree.data demo_lib demo_dir_b_a demo_world).bytes =
      some (demo_entry_a ++ demo_entry_b) ∧
    ¬ ∃ pre mid post,
      (Tree.data demo_lib demo_dir_b_a demo_world).bytes =
        some (pre ++ demo_entry_b ++ mid ++ demo_entry_a ++ post) := by
  have hrun : (Tree.data demo_lib demo_dir_b_a demo_world).bytes =
      some (demo_entry_a ++ demo_entry_b) := by decide
  refine ⟨hrun, ?_⟩
  rintro ⟨pre, mid, post, h⟩
  rw [hrun, Option.some.injEq] at h
  have hlen := congrArg List.length h
  have la : demo_entry_a.length = 29 := by decide
  have lb : demo_entry_b.length = 29 := by decide
  simp only [List.length_append, la, lb] at hlen
  have hpre : pre = [] := List.length_eq_zero.mp (by omega)
  have hmid : mid = [] := List.length_eq_zero.mp (by omega)
  have hpost : post = [] := List.length_eq_zero.mp (by omega)
  subst hpre hmid hpost
  revert h
  decide

/-- C9, amended: children inserted by `Tree::addfile` under pairwise distinct
names, in any order, give the same node; its children are held in strictly
ascending order of name, and the payload `Tree::data` computes for the
directory lists the entries in that order. -/
theorem C9_payload_in_name_order (lib : Lib) (p h : Bytes) (m : Nat)
    (calls1 calls2 : List (Bytes × Bytes))
    (hperm : calls1.Perm calls2) (hnd : (calls1.map Prod.fst).Nodup)
    (hdir : S_ISDIR m = true) :
    Tree.addfile_all lib (.mk p [] h m []) calls1 = Tree.addfile_all lib (.mk p [] h m []) calls2 ∧
    ((Tree.addfile_all lib (.mk p [] h m []) calls1).files_.map Prod.fst).Sorted (· < ·) ∧
    ((Tree.addfile_all lib (.mk p [] h m []) calls1).files_.map Prod.fst).Perm
      (calls1.map Prod.fst) ∧
    ∀ fuel w d t1 w1,
      Tree.data_fuel lib fuel (Tree.addfile_all lib (.mk p [] h m []) calls1) w = .ok (d, t1, w1) →
      t1.files_.map Prod.fst =
        (Tree.addfile_all lib (.mk p [] h m []) calls1).files_.map Prod.fst ∧
      d = t1.files_.flatMap
        (fun e => fmt_uint 8 (e.2.git_mode.getD 0) ++ ascii " " ++ e.1 ++ [0] ++ e.2.hash_) := by
  have hnd2 : (calls2.map Prod.fst).Nodup := (hperm.map Prod.fst).nodup_iff.mp hnd
  have hp1 := files_add_perm lib calls1 [] hnd (by simp)
  have hp2 := files_add_perm lib calls2 [] hnd2 (by simp)
  simp only [List.nil_append] at hp1 hp2
  have ho1 := files_add_ok lib calls1 [] (by simp [map_ok])
  have ho2 := files_add_ok lib calls2 [] (by simp [map_ok])
  have heq := files_eq_of_perm _ _ ho1 ho2
    (hp1.trans ((hperm.map _).trans hp2.symm))
  rw [Tree.addfile_all_mk, Tree.addfile_all_mk]
  refine ⟨by rw [heq], ho1, ?_, ?_⟩
  · have := hp1.map Prod.fst
    simpa [Tree.files_, List.map_map, Function.comp_def] using this
  · intro fuel w d t1 w1 hrun
    obtain ⟨i1, _, i3, _⟩ := data_step_dir_payload lib _ (hash_fuel_ok lib fuel) p h m _ w
      hdir d t1 w1 hrun
    exact ⟨i1, i3⟩

/-- C9 amended, on the demo directory: `b` then `a` against `a` then `b`. -/
theorem C9_payload_in_name_order_witness :
    (([(ascii "b", ascii "b"), (ascii "a", ascii "a")] : List (Bytes × Bytes)).Perm
        [(ascii "a", ascii "a"), (ascii "b", ascii "b")] ∧
      (([(ascii "b", ascii "b"), (ascii "a", ascii "a")] : List (Bytes × Bytes)).map
        Prod.fst).Nodup ∧
      S_ISDIR 0o040755 = true) ∧
    (Tree.addfile_all demo_lib (.mk (ascii ".") [] [] 0o040755 [])
        [(ascii "b", ascii "b"), (ascii "a", ascii "a")] =
      Tree.addfile_all demo_lib (.mk (ascii ".") [] [] 0o040755 [])
        [(ascii "a", ascii "a"), (ascii "b", ascii "b")] ∧
    ((Tree.addfile_all demo_lib (.mk (ascii ".") [] [] 0o040755 [])
        [(ascii "b", ascii "b"), (ascii "a", ascii "a")]).files_.map Prod.fst).Sorted (· < ·) ∧
    ((Tree.addfile_all demo_lib (.mk (ascii ".") [] [] 0o040755 [])
        [(ascii "b", ascii "b"), (ascii "a", ascii "a")]).files_.map Prod.fst).Perm
      (([(ascii "b", ascii "b"), (ascii "a", ascii "a")] : List (Bytes × Bytes)).map Prod.fst) ∧
    ∀ fuel w d t1 w1,
      Tree.data_fuel demo_lib fuel (Tree.addfile_all demo_lib (.mk (ascii ".") [] [] 0o040755 [])
        [(ascii "b", ascii "b"), (ascii "a", ascii "a")]) w = .ok (d, t1, w1) →
      t1.files_.map Prod.fst =
        (Tree.addfile_all demo_lib (.mk (ascii ".") [] [] 0o040755 [])
          [(ascii "b", ascii "b"), (ascii "a", ascii "a")]).files_.map Prod.fst ∧
      d = t1.files_.flatMap
        (fun e => fmt_uint 8 (e.2.git_mode.getD 0) ++ ascii " " ++ e.1 ++ [0] ++ e.2.hash_)) :=
  ⟨⟨List.Perm.swap _ _ _, by decide, by decide⟩,
    C9_payload_in_name_order demo_lib (ascii ".") [] 0o040755
      [(ascii "b", ascii "b"), (ascii "a", ascii "a")]
      [(ascii "a", ascii "a"), (ascii "b", ascii "b")]
      (List.Perm.swap _ _ _) (by decide) (by decide)⟩

/-! ## C11 and C12: the mode of an entry -/

theorem git_mode_regular (t : Tree) (hreg : t.st_mode &&& S_IFMT = S_IFREG) :
    t.git_mode = some (if t.st_mode &&& 0o111 ≠ 0 then 0o100755 else 0o100644) := by
  have hm := and_type_mask t.st_mode
  rw [hreg] at hm
  have h1 : S_IFREG &&& (S_IFDIR ||| S_IFREG ||| S_IFLNK) = S_IFREG := by decide
  rw [h1] at hm
  unfold Tree.git_mode
  simp only [hreg, hm, ne_eq, not_true_eq_false, if_false]
  split
  · decide
  · decide

theorem git_mode_none_iff (t : Tree) :
    t.git_mode = none ↔ (t.st_mode).testBit 12 = true := by
  unfold Tree.git_mode
  simp only
  constructor
  · intro h
    split at h
    · rename_i hne
      by_contra hb
      apply hne
      apply Nat.eq_of_testBit_eq
      intro i
      simp only [Nat.testBit_and]
      by_cases hi : i = 12
      · subst hi; simp at hb; simp [hb]
      · congr 1
        have hmask : ∀ j, j ≠ 12 → S_IFMT.testBit j = (S_IFDIR ||| S_IFREG ||| S_IFLNK).testBit j := by
          intro j hj
          by_cases hj16 : j < 16
          · interval_cases j <;> first | exact absurd rfl hj | decide
          · have a : S_IFMT < 2 ^ j := lt_of_lt_of_le (by decide : S_IFMT < 2 ^ 16) (Nat.pow_le_pow_right (by norm_num) (by omega))
            have b : (S_IFDIR ||| S_IFREG ||| S_IFLNK) < 2 ^ j := lt_of_lt_of_le (by decide : (S_IFDIR ||| S_IFREG ||| S_IFLNK) < 2 ^ 16) (Nat.pow_le_pow_right (by norm_num) (by omega))
            rw [Nat.testBit_lt_two_pow a, Nat.testBit_lt_two_pow b]
        exact hmask i hi
    · simp at h
  · intro hb
    split
    · rfl
    · rename_i heq
      exfalso
      simp only [ne_eq, Decidable.not_not] at heq
      have := congrArg (fun x => Nat.testBit x 12) heq
      simp only [Nat.testBit_and, hb, Bool.true_and] at this
      revert this
      decide

/-- C11: for a mode whose file-type bits are exactly `S_IFREG`, `git_mode`
returns octal 100755 when any of the execute bits `0111` is set and octal
100644 otherwise, whatever the other bits of the mode. -/
theorem C11_git_mode_regular_file (t : Tree) (hreg : t.st_mode &&& S_IFMT = S_IFREG) :
    t.git_mode = some (if t.st_mode &&& 0o111 ≠ 0 then 0o100755 else 0o100644) ∧
    (t.st_mode &&& 0o111 ≠ 0 → t.git_mode = some 0o100755) ∧
    (t.st_mode &&& 0o111 = 0 → t.git_mode = some 0o100644) := by
  have h := git_mode_regular t hreg
  refine ⟨h, fun hx => ?_, fun hx => ?_⟩
  · rw [h, if_pos hx]
  · rw [h, if_neg (by simpa using hx)]

/-- C11 on a setuid regular file with only the group execute bit (mode 104650). -/
theorem C11_git_mode_regular_file_witness :
    (Tree.mk (ascii "f") [] [] 0o104650 []).st_mode &&& S_IFMT = S_IFREG ∧
    ((Tree.mk (ascii "f") [] [] 0o104650 []).git_mode =
      some (if (Tree.mk (ascii "f") [] [] 0o104650 []).st_mode &&& 0o111 ≠ 0
        then 0o100755 else 0o100644) ∧
    ((Tree.mk (ascii "f") [] [] 0o104650 []).st_mode &&& 0o111 ≠ 0 →
      (Tree.mk (ascii "f") [] [] 0o104650 []).git_mode = some 0o100755) ∧
    ((Tree.mk (ascii "f") [] [] 0o104650 []).st_mode &&& 0o111 = 0 →
      (Tree.mk (ascii "f") [] [] 0o104650 []).git_mode = some 0o100644)) :=
  ⟨by decide, C11_git_mode_regular_file (Tree.mk (ascii "f") [] [] 0o104650 []) (by decide)⟩

/-- C12, where the code departs from it: `git_mode` returns a permission word
for a character device (mode 020644), a block device (060660) and a socket
(140755); it aborts for a FIFO (010644).  In general it aborts exactly when bit
`010000` of the mode is set. -/
theorem C12_git_mode_accepts_devices :
    (Tree.mk (ascii "dev") [] [] 0o020644 []).git_mode = some 0o020644 ∧
    (Tree.mk (ascii "dev") [] [] 0o060660 []).git_mode = some 0o060644 ∧
    (Tree.mk (ascii "dev") [] [] 0o140755 []).git_mode = some 0o140755 ∧
    (Tree.mk (ascii "dev") [] [] 0o010644 []).git_mode = none ∧
    ∀ t : Tree, t.git_mode = none ↔ (t.st_mode).testBit 12 = true :=
  ⟨by decide, by decide, by decide, by decide, git_mode_none_iff⟩

/-! ## C19: the assertions of the encoder -/

theorem print_object_eq_code (lib : Lib) (s : PrintState) (obj : Object) :
    Pack.print_object lib s obj = Pack.print_object_code lib s obj.type.code obj.data := rfl

theorem type_size_arg_lt (t n : Nat) (ht : t = 1 ∨ t = 2 ∨ t = 3) :
    type_size_arg t n < 2 ^ 64 := by
  unfold type_size_arg SIZE_BITS
  apply Nat.or_lt_two_pow
  · apply Nat.or_lt_two_pow
    · exact Nat.mod_lt _ (by norm_num)
    · rw [Nat.shiftLeft_eq]
      rcases ht with rfl | rfl | rfl <;> norm_num
  · have : n &&& 15 = n % 16 := Nat.and_pow_two_sub_one_eq_mod n 4
    rw [this]; omega

/-- The loop is over after `fuel` rounds when `x` has at most `7 * fuel` bits. -/
theorem write_vint_loop_rounds (fuel : Nat) :
    ∀ x, x < 128 ^ fuel → write_vint_loop fuel x = write_vint_loop x x := by
  induction fuel with
  | zero =>
    intro x hx
    have : x = 0 := by simpa using hx
    subst this; rfl
  | succ f ih =>
    intro x hx
    by_cases h0 : x = 0
    · subst h0; simp [write_vint_loop]
    · rw [write_vint_loop_step _ _ h0, write_vint_loop_unfold _ h0]
      have hd : x / 128 < 128 ^ f := by
        rw [pow_succ] at hx
        exact Nat.div_lt_of_lt_mul (by rw [Nat.mul_comm]; exact hx)
      rw [ih _ hd]

/-- C19: for an object of type 1, 2 or 3 and any payload size, zero included,
the value passed to `write_vint` is nonzero, so `assert(obj.type)` and
`assert(x)` hold; the loop of `write_vint` is over within ten rounds and emits
between one and ten bytes; the round of `Pack::print` then fails only if the
compressor does.  For an object of type 0 the round aborts. -/
theorem C19_encoder_assertions (t n : Nat) (ht : t = 1 ∨ t = 2 ∨ t = 3) :
    t ≠ 0 ∧ type_size_arg t n ≠ 0 ∧
    (∃ w, write_vint (type_size_arg t n) = some w ∧ 1 ≤ w.length ∧ w.length ≤ 10 ∧
      write_vint_loop 10 (type_size_arg t n) = w ∧
      ∀ fuel, 10 ≤ fuel → write_vint_loop fuel (type_size_arg t n) = w) ∧
    (∀ (lib : Lib) (s : PrintState) (data : Bytes), data.length = n →
      (Pack.print_object_code lib s t data).isSome = (lib.compress2 data).isSome) ∧
    (∀ (lib : Lib) (s : PrintState) (data : Bytes),
      Pack.print_object_code lib s 0 data = none) := by
  have hx0 := type_size_arg_ne_zero t n ht
  have hlt := type_size_arg_lt t n ht
  have h10 : type_size_arg t n < 128 ^ 10 := lt_trans hlt (by norm_num)
  have hrounds : ∀ fuel, 10 ≤ fuel →
      write_vint_loop fuel (type_size_arg t n) =
        write_vint_loop (type_size_arg t n) (type_size_arg t n) := by
    intro fuel hf
    apply write_vint_loop_rounds
    exact lt_of_lt_of_le h10 (Nat.pow_le_pow_right (by norm_num) hf)
  refine ⟨by omega, hx0, ⟨_, by simp [write_vint, hx0], ?_, ?_, hrounds 10 (le_refl _), hrounds⟩,
    ?_, ?_⟩
  · exact write_vint_loop_length_pos _ hx0
  · by_contra hc
    have h1 : 10 < (write_vint_loop (type_size_arg t n) (type_size_arg t n)).length := by omega
    have h2 := (write_vint_loop_length (type_size_arg t n) 10).mp h1
    exact h2 (Nat.div_eq_of_lt h10)
  · intro lib s data hlen
    have ht0 : t ≠ 0 := by omega
    simp only [Pack.print_object_code, ht0, if_false, Pack.write_vint, write_vint, hlen, hx0,
      compress]
    cases lib.compress2 data <;> rfl
  · intro lib s data
    simp [Pack.print_object_code]

/-- C19 for an empty blob (type 3, size 0). -/
theorem C19_encoder_assertions_witness :
    (3 = 1 ∨ 3 = 2 ∨ 3 = 3) ∧
    (3 ≠ 0 ∧ type_size_arg 3 0 ≠ 0 ∧
    (∃ w, write_vint (type_size_arg 3 0) = some w ∧ 1 ≤ w.length ∧ w.length ≤ 10 ∧
      write_vint_loop 10 (type_size_arg 3 0) = w ∧
      ∀ fuel, 10 ≤ fuel → write_vint_loop fuel (type_size_arg 3 0) = w) ∧
    (∀ (lib : Lib) (s : PrintState) (data : Bytes), data.length = 0 →
      (Pack.print_object_code lib s 3 data).isSome = (lib.compress2 data).isSome) ∧
    (∀ (lib : Lib) (s : PrintState) (data : Bytes),
      Pack.print_object_code lib s 0 data = none)) :=
  ⟨by decide, C19_encoder_assertions 3 0 (by decide)⟩

/-! ## C20: the framing of the digest input -/

theorem nul_split (a b p q : Bytes) (ha : ∀ c ∈ a, c ≠ 0) (hb : ∀ c ∈ b, c ≠ 0)
    (h : a ++ [0] ++ p = b ++ [0] ++ q) : a = b ∧ p = q := by
  induction a generalizing b with
  | nil =>
    cases b with
    | nil => simpa using h
    | cons y b =>
      exfalso
      simp only [List.nil_append, List.cons_append, List.cons.injEq] at h
      exact hb y (by simp) h.1.symm
  | cons x a ih =>
    cases b with
    | nil =>
      exfalso
      simp only [List.nil_append, List.cons_append, List.cons.injEq] at h
      exact ha x (by simp) h.1
    | cons y b =>
      simp only [List.cons_append, List.cons.injEq] at h
      obtain ⟨hxy, hrest⟩ := h
      obtain ⟨h1, h2⟩ := ih b (fun c hc => ha c (by simp [hc])) (fun c hc => hb c (by simp [hc]))
        (by simpa using hrest)
      exact ⟨by rw [hxy, h1], h2⟩

/-- The first character of the name of a kind. -/
theorem gittype_name_cons (k : GitType) :
    ∃ x rest, gittype_name k = x :: rest ∧ x ≠ 0 ∧
      x = kind_initial k := by
  cases k
  · exact ⟨99, ascii "ommit", by decide, by decide, rfl⟩
  · exact ⟨116, ascii "ree", by decide, by decide, rfl⟩
  · exact ⟨98, ascii "lob", by decide, by decide, rfl⟩

/-- The header, at any length: a string free of NUL that starts with the first
character of the kind's name, and one NUL. -/
theorem git_header_shape (k : GitType) (n : Nat) :
    ∃ x rest, git_header k n = (x :: rest) ++ [0] ∧ (∀ c ∈ x :: rest, c ≠ 0) ∧
      x = kind_initial k := by
  obtain ⟨x, nm, hname, hx0, hx⟩ := gittype_name_cons k
  unfold git_header snprintf_buf c_str
  simp only [hname, List.cons_append, Nat.reduceSub, List.take_succ_cons]
  rw [List.takeWhile_cons_of_pos (by simpa using hx0)]
  refine ⟨x, _, rfl, ?_, hx⟩
  intro c hc
  simp only [List.mem_cons] at hc
  rcases hc with rfl | hc
  · exact hx0
  · have := List.mem_takeWhile_imp hc
    simpa using this

theorem git_header_injective (k1 k2 : GitType) (p1 p2 : Bytes)
    (h : git_header k1 p1.length ++ p1 = git_header k2 p2.length ++ p2) :
    k1 = k2 ∧ p1 = p2 := by
  obtain ⟨x1, r1, e1, n1, hx1⟩ := git_header_shape k1 p1.length
  obtain ⟨x2, r2, e2, n2, hx2⟩ := git_header_shape k2 p2.length
  rw [e1, e2] at h
  obtain ⟨ha, hp⟩ := nul_split _ _ _ _ n1 n2 h
  refine ⟨?_, hp⟩
  have hx : x1 = x2 := by
    simp only [List.cons.injEq] at ha
    exact ha.1
  rw [hx1, hx2] at hx
  cases k1 <;> cases k2 <;> simp [kind_initial] at hx <;> rfl

theorem count_eq_zero_of_forall_ne (l : Bytes) (a : Nat) (h : ∀ c ∈ l, c ≠ a) :
    l.count a = 0 :=
  List.count_eq_zero_of_not_mem (fun hm => h a hm rfl)

/-- C20: the byte string fed to the digest determines the object: equal strings
`git_header(k, len p) ++ p` come from equal kinds and equal payloads, so
distinct objects are fed distinct strings.  For a length below `2^64` the
header holds exactly one NUL, its last byte, and exactly one space. -/
theorem C20_digest_input_injective :
    (∀ (k1 k2 : GitType) (p1 p2 : Bytes),
      git_header k1 p1.length ++ p1 = git_header k2 p2.length ++ p2 → k1 = k2 ∧ p1 = p2) ∧
    (∀ (o1 o2 : Object), o1 ≠ o2 →
      git_header o1.type o1.data.length ++ o1.data ≠
        git_header o2.type o2.data.length ++ o2.data) ∧
    (∀ (lib : Lib) (pk1 pk2 : Pack) (o1 o2 : Object), o1 ≠ o2 →
      (Pack.hash_add lib pk1 o1).1 = (Pack.hash_add lib pk2 o2).1 →
      ∃ x y, x ≠ y ∧ lib.digest x = lib.digest y) ∧
    (∀ (k : GitType) (n : Nat), n < 2 ^ 64 →
      (git_header k n).count 0 = 1 ∧ (git_header k n).getLast? = some 0 ∧
      (git_header k n).count 32 = 1) := by
  have hinj : ∀ (o1 o2 : Object), o1 ≠ o2 →
      git_header o1.type o1.data.length ++ o1.data ≠
        git_header o2.type o2.data.length ++ o2.data := by
    intro o1 o2 hne heq
    obtain ⟨hk, hp⟩ := git_header_injective _ _ _ _ heq
    apply hne
    cases o1; cases o2
    simp only [Object.mk.injEq]
    exact ⟨hk, hp⟩
  refine ⟨git_header_injective, hinj, ?_, ?_⟩
  · intro lib pk1 pk2 o1 o2 hne hh
    simp only [Pack.hash_add, sha1_eq] at hh
    exact ⟨_, _, hinj o1 o2 hne, hh⟩
  · intro k n hn
    rw [git_header_eq k n hn]
    have hd0 : (fmt_uint 10 n).count 0 = 0 := count_eq_zero_of_forall_ne _ _ (by
      intro c hc
      have := fmt_uint_dec_digit n c hc
      unfold is_dec_digit at this; omega)
    have hd32 : (fmt_uint 10 n).count 32 = 0 := count_eq_zero_of_forall_ne _ _ (by
      intro c hc
      have := fmt_uint_dec_digit n c hc
      unfold is_dec_digit at this; omega)
    have hn0 : (gittype_name k).count 0 = 0 := by cases k <;> decide
    have hn32 : (gittype_name k).count 32 = 0 := by cases k <;> decide
    have hs0 : (ascii " ").count 0 = 0 := by decide
    have hs32 : (ascii " ").count 32 = 1 := by decide
    refine ⟨?_, ?_, ?_⟩
    · simp only [List.count_append, hd0, hn0, hs0]
      decide
    · simp
    · simp only [List.count_append, hd32, hn32, hs32]
      decide

/-- C20 on two blobs with the payload `A`. -/
theorem C20_digest_input_injective_witness :
    git_header .OBJ_BLOB (ascii "A").length ++ ascii "A" =
      git_header .OBJ_BLOB (ascii "A").length ++ ascii "A" ∧
    (GitType.OBJ_BLOB = GitType.OBJ_BLOB ∧ ascii "A" = ascii "A") :=
  ⟨rfl, C20_digest_input_injective.1 .OBJ_BLOB .OBJ_BLOB (ascii "A") (ascii "A") rfl⟩

/-! ## Tree::addpath -/

theorem str_find_found (s : Bytes) (c pos : Nat) (h : str_find s c pos ≠ npos) :
    pos ≤ str_find s c pos ∧ str_find s c pos < s.length := by
  unfold str_find at h ⊢
  simp only at h ⊢
  split
  · rename_i hlt
    simp only [List.length_drop] at hlt
    omega
  · rename_i hlt
    simp only [hlt, if_false] at h
    exact absurd rfl h

theorem Tree.addfile_find (lib : Lib) (t : Tree) (name path : Bytes) :
    map_find (t.addfile lib name path).files_ name ≠ none := by
  obtain ⟨p, d, h, m, fs⟩ := t
  simp only [Tree.addfile]
  split
  · simp [Tree.files_, map_find_map_set_self]
  · rename_i hn
    simpa [Tree.files_, Option.isNone_iff_eq_none] using hn

/-- `Tree::addpath` returns for every path: no path is rejected. -/
theorem addpath_fuel_total (lib : Lib) (path : Bytes) (fuel : Nat) :
    ∀ (t : Tree) (pos : Nat), pos ≤ path.length → path.length - pos < fuel →
      ∃ t1, Tree.addpath_fuel lib fuel t path pos = .ok t1 := by
  induction fuel with
  | zero => intro t pos _ h; omega
  | succ n ih =>
    intro t pos hpos hfuel
    simp only [Tree.addpath_fuel, not_lt.mpr hpos, if_false]
    split
    · rename_i hfound
      obtain ⟨h1, h2⟩ := str_find_found path 47 pos hfound
      obtain ⟨sub, hsub⟩ := Option.ne_none_iff_exists'.mp
        (Tree.addfile_find lib t (str_substr path pos (str_find path 47 pos))
          (str_substr path 0 (str_find path 47 pos)))
      obtain ⟨sub1, hrec⟩ := ih sub (str_find path 47 pos + 1) (by omega) (by omega)
      simp only [hsub, hrec]
      exact ⟨_, rfl⟩
    · exact ⟨_, rfl⟩

theorem Tree.addpath_total (lib : Lib) (t : Tree) (path : Bytes) :
    ∃ t1, Tree.addpath lib t path = .ok t1 :=
  addpath_fuel_total lib path (path.length + 1) t 0 (Nat.zero_le _) (by omega)

theorem nodes_list_mem_here (fs : List (Bytes × Tree)) (k : Bytes) (c : Tree)
    (h : (k, c) ∈ fs) : (k, c.path_) ∈ nodes_list fs := by
  induction fs with
  | nil => simp at h
  | cons e rest ih =>
    simp only [nodes_list, List.mem_cons, List.mem_append]
    simp only [List.mem_cons] at h
    rcases h with h | h
    · left; rw [← h]
    · right; right; exact ih h

theorem nodes_list_mem_below (fs : List (Bytes × Tree)) (k : Bytes) (c : Tree)
    (x : Bytes × Bytes) (h : (k, c) ∈ fs) (hx : x ∈ c.nodes) : x ∈ nodes_list fs := by
  induction fs with
  | nil => simp at h
  | cons e rest ih =>
    simp only [nodes_list, List.mem_cons, List.mem_append]
    simp only [List.mem_cons] at h
    rcases h with h | h
    · right; left; rw [← h]; exact hx
    · right; right; exact ih h

theorem Tree.nodes_eq (t : Tree) : t.nodes = nodes_list t.files_ := by
  obtain ⟨p, d, h, m, fs⟩ := t
  simp [Tree.nodes, Tree.files_]

theorem Tree.set_child_files (t : Tree) (name : Bytes) (c : Tree) :
    (t.set_child name c).files_ = map_set t.files_ name c := by
  obtain ⟨p, d, h, m, fs⟩ := t
  rfl

theorem Tree.set_child_mem (t : Tree) (name : Bytes) (c : Tree) :
    (name, c) ∈ (t.set_child name c).files_ := by
  rw [Tree.set_child_files]
  exact map_find_eq_some_mem _ _ _ (map_find_map_set_self _ _ _)

theorem Tree.addfile_of_present (lib : Lib) (t : Tree) (name path : Bytes)
    (h : map_find t.files_ name ≠ none) : t.addfile lib name path = t := by
  obtain ⟨p, d, h0, m, fs⟩ := t
  simp only [Tree.files_] at h
  simp only [Tree.addfile]
  split
  · rename_i hn
    exact absurd (Option.isNone_iff_eq_none.mp hn) h
  · rfl

theorem map_set_idem {V : Type} (m : List (Bytes × V)) (k : Bytes) (v : V) :
    map_set (map_set m k v) k v = map_set m k v := by
  induction m with
  | nil => simp [map_set]
  | cons e rest ih =>
    obtain ⟨k1, v1⟩ := e
    simp only [map_set]
    split
    · simp [map_set]
    · rename_i hlt
      split
      · rename_i heq
        simp [map_set, hlt, heq]
      · rename_i hne
        simp [map_set, hlt, hne, ih]

theorem Tree.set_child_idem (t : Tree) (name : Bytes) (c : Tree) :
    (t.set_child name c).set_child name c = t.set_child name c := by
  obtain ⟨p, d, h, m, fs⟩ := t
  simp [Tree.set_child, map_set_idem]

/-- A second `addpath` of the same path changes nothing. -/
theorem addpath_fuel_idem (lib : Lib) (path : Bytes) (fuel : Nat) :
    ∀ (t : Tree) (pos : Nat) (t1 : Tree), Tree.addpath_fuel lib fuel t path pos = .ok t1 →
      Tree.addpath_fuel lib fuel t1 path pos = .ok t1 := by
  induction fuel with
  | zero => intro t pos t1 h; simp [Tree.addpath_fuel] at h
  | succ n ih =>
    intro t pos t1 h
    simp only [Tree.addpath_fuel] at h ⊢
    split at h
    · simp at h
    · rename_i hpos
      simp only [hpos, if_false]
      split at h
      · rename_i hfound
        simp only [hfound, ne_eq, not_false_eq_true, if_true]
        cases hsub : map_find (t.addfile lib (str_substr path pos (str_find path 47 pos))
            (str_substr path 0 (str_find path 47 pos))).files_
            (str_substr path pos (str_find path 47 pos)) with
        | none => simp [hsub] at h
        | some sub =>
          simp only [hsub] at h
          cases hrec : Tree.addpath_fuel lib n sub path (str_find path 47 pos + 1) with
          | abort => simp [hrec] at h
          | out_of_fuel => simp [hrec] at h
          | ok sub1 =>
            simp only [hrec, Res.ok.injEq] at h
            subst h
            have hfind : map_find ((t.addfile lib (str_substr path pos (str_find path 47 pos))
                (str_substr path 0 (str_find path 47 pos))).set_child
                (str_substr path pos (str_find path 47 pos)) sub1).files_
                (str_substr path pos (str_find path 47 pos)) = some sub1 := by
              rw [Tree.set_child_files, map_find_map_set_self]
            rw [Tree.addfile_of_present lib _ _ _ (by rw [hfind]; simp)]
            simp only [hfind, ih sub _ sub1 hrec, Tree.set_child_idem]
      · rename_i hnot
        simp only [Res.ok.injEq] at h
        subst h
        simp only [hnot, if_false]
        rw [Tree.addfile_of_present lib _ _ _ (Tree.addfile_find lib t _ _)]

theorem Tree.addpath_idem (lib : Lib) (t : Tree) (path : Bytes) :
    ∃ t1, Tree.addpath lib t path = .ok t1 ∧ Tree.addpath lib t1 path = .ok t1 := by
  obtain ⟨t1, h⟩ := Tree.addpath_total lib t path
  exact ⟨t1, h, addpath_fuel_idem lib path _ t 0 t1 h⟩

theorem str_find_head (c : Nat) (rest : Bytes) : str_find (c :: rest) c 0 = 0 := by
  simp [str_find, List.indexOf_cons_self]

theorem npos_ne_zero : (0 : Nat) ≠ npos := by decide

theorem addpath_fuel_step_found (lib : Lib) (n : Nat) (t : Tree) (path : Bytes) (pos : Nat)
    (hpos : pos ≤ path.length) (hfound : str_find path 47 pos ≠ npos) (t1 : Tree)
    (h : Tree.addpath_fuel lib (n + 1) t path pos = .ok t1) :
    ∃ sub sub1,
      map_find (t.addfile lib (str_substr path pos (str_find path 47 pos))
        (str_substr path 0 (str_find path 47 pos))).files_
        (str_substr path pos (str_find path 47 pos)) = some sub ∧
      Tree.addpath_fuel lib n sub path (str_find path 47 pos + 1) = .ok sub1 ∧
      t1 = (t.addfile lib (str_substr path pos (str_find path 47 pos))
        (str_substr path 0 (str_find path 47 pos))).set_child
        (str_substr path pos (str_find path 47 pos)) sub1 := by
  rw [Tree.addpath_fuel] at h
  simp only [not_lt.mpr hpos, if_false, hfound, ne_eq, not_false_eq_true, if_true] at h
  cases hsub : map_find (t.addfile lib (str_substr path pos (str_find path 47 pos))
      (str_substr path 0 (str_find path 47 pos))).files_
      (str_substr path pos (str_find path 47 pos)) with
  | none => simp [hsub] at h
  | some sub =>
    simp only [hsub] at h
    cases hrec : Tree.addpath_fuel lib n sub path (str_find path 47 pos + 1) with
    | abort => simp [hrec] at h
    | out_of_fuel => simp [hrec] at h
    | ok sub1 =>
      simp only [hrec, Res.ok.injEq] at h
      exact ⟨sub, sub1, rfl, hrec, h.symm⟩

/-- A path that starts with `/` gives the root a child with the empty name. -/
theorem Tree.addpath_leading_slash (lib : Lib) (t : Tree) (rest : Bytes) :
    ∃ t1, Tree.addpath lib t (47 :: rest) = .ok t1 ∧ ∃ c, ([], c) ∈ t1.files_ := by
  obtain ⟨t1, h⟩ := Tree.addpath_total lib t (47 :: rest)
  refine ⟨t1, h, ?_⟩
  have hf : str_find (47 :: rest) 47 0 ≠ npos := by
    rw [str_find_head]; exact npos_ne_zero
  obtain ⟨sub, sub1, _, _, ht1⟩ := addpath_fuel_step_found lib _ t (47 :: rest) 0
    (Nat.zero_le _) hf t1 h
  have hname : str_substr (47 :: rest) 0 (str_find (47 :: rest) 47 0) = [] := by
    rw [str_find_head]; simp [str_substr]
  rw [hname] at ht1
  rw [ht1]
  exact ⟨sub1, Tree.set_child_mem _ _ _⟩

theorem mem_drop_of_getLast (path : Bytes) (c pos : Nat) (hlast : path.getLast? = some c)
    (hpos : pos < path.length) : c ∈ path.drop pos := by
  obtain ⟨init, rfl⟩ := List.getLast?_eq_some_iff.mp hlast
  simp only [List.length_append, List.length_singleton] at hpos
  rw [List.drop_append_of_le_length (by omega)]
  simp

theorem str_find_of_trailing (path : Bytes) (pos : Nat) (hlen : path.length < 2 ^ 64)
    (hlast : path.getLast? = some 47) (hpos : pos < path.length) :
    str_find path 47 pos ≠ npos := by
  have hm := mem_drop_of_getLast path 47 pos hlast hpos
  have hi := List.indexOf_lt_length.mpr hm
  unfold str_find
  simp only [hi, if_true]
  simp only [List.length_drop] at hi
  unfold npos SIZE_BITS
  omega

/-- A path that ends with `/` creates a node with the empty name. -/
theorem addpath_fuel_trailing_slash (lib : Lib) (path : Bytes) (hlen : path.length < 2 ^ 64)
    (hlast : path.getLast? = some 47) (fuel : Nat) :
    ∀ (t : Tree) (pos : Nat) (t1 : Tree), pos ≤ path.length →
      Tree.addpath_fuel lib fuel t path pos = .ok t1 → ∃ p, ([], p) ∈ t1.nodes := by
  induction fuel with
  | zero => intro t pos t1 _ h; simp [Tree.addpath_fuel] at h
  | succ n ih =>
    intro t pos t1 hpos h
    simp only [Tree.addpath_fuel, not_lt.mpr hpos, if_false] at h
    split at h
    · rename_i hfound
      obtain ⟨h1, h2⟩ := str_find_found path 47 pos hfound
      cases hsub : map_find (t.addfile lib (str_substr path pos (str_find path 47 pos))
          (str_substr path 0 (str_find path 47 pos))).files_
          (str_substr path pos (str_find path 47 pos)) with
      | none => simp [hsub] at h
      | some sub =>
        simp only [hsub] at h
        cases hrec : Tree.addpath_fuel lib n sub path (str_find path 47 pos + 1) with
        | abort => simp [hrec] at h
        | out_of_fuel => simp [hrec] at h
        | ok sub1 =>
          simp only [hrec, Res.ok.injEq] at h
          subst h
          obtain ⟨p, hp⟩ := ih sub _ sub1 (by omega) hrec
          refine ⟨p, ?_⟩
          rw [Tree.nodes_eq]
          exact nodes_list_mem_below _ _ sub1 _ (Tree.set_child_mem _ _ _) hp
    · rename_i hnot
      simp only [ne_eq, Decidable.not_not] at hnot
      simp only [Res.ok.injEq] at h
      subst h
      have hpl : pos = path.length := by
        by_contra hne
        exact str_find_of_trailing path pos hlen hlast (by omega) hnot
      have hname : str_substr path pos (str_find path 47 pos) = [] := by
        simp [str_substr, hpl]
      obtain ⟨c, hc⟩ := Option.ne_none_iff_exists'.mp
        (Tree.addfile_find lib t (str_substr path pos (str_find path 47 pos))
          (str_substr path 0 (str_find path 47 pos)))
      rw [hname] at hc
      refine ⟨c.path_, ?_⟩
      rw [Tree.nodes_eq, hname]
      exact nodes_list_mem_here _ _ c (map_find_eq_some_mem _ _ _ hc)

theorem Tree.addpath_trailing_slash (lib : Lib) (t : Tree) (path : Bytes)
    (hlen : path.length < 2 ^ 64) (hlast : path.getLast? = some 47) :
    ∃ t1, Tree.addpath lib t path = .ok t1 ∧ ∃ p, ([], p) ∈ t1.nodes := by
  obtain ⟨t1, h⟩ := Tree.addpath_total lib t path
  exact ⟨t1, h, addpath_fuel_trailing_slash lib path hlen hlast _ t 0 t1 (Nat.zero_le _) h⟩

/-! ## C13, C14, C15: what Tree::addpath builds -/

/-- C13, where the code departs from it: for the two components of `a/x.txt` the
nodes are `a` and `x.txt` with the paths `a` and `a/x.txt`; for the three
components of `a/b/c` the second node is filed under the name `b/c`, which
holds a `/`, because `substr(pos, end)` takes `end` bytes, not the bytes up to
index `end`. -/
theorem C13_addpath_middle_component :
    (Tree.addpath demo_lib demo_root (ascii "a/x.txt")).nodes =
      some [(ascii "a", ascii "a"), (ascii "x.txt", ascii "a/x.txt")] ∧
    (Tree.addpath demo_lib demo_root (ascii "a/b/c")).nodes =
      some [(ascii "a", ascii "a"), (ascii "b/c", ascii "a/b"), (ascii "c", ascii "a/b/c")] ∧
    str_find (ascii "a/b/c") 47 2 = 3 ∧
    str_substr (ascii "a/b/c") 2 3 = ascii "b/c" := by
  decide

/-- C14, refuted as stated: `addpath` returns on `/a`, on `ab/` and on `a//c`;
the first two calls create a node whose name is the empty string. -/
theorem C14_empty_component_accepted :
    (Tree.addpath demo_lib demo_root (ascii "/a")).nodes =
      some [([], []), (ascii "a", ascii "/a")] ∧
    (Tree.addpath demo_lib demo_root (ascii "ab/")).nodes =
      some [(ascii "ab", ascii "ab"), ([], ascii "ab/")] ∧
    (Tree.addpath demo_lib demo_root (ascii "a//c")).nodes =
      some [(ascii "a", ascii "a"), (ascii "/c", ascii "a/"), (ascii "c", ascii "a//c")] ∧
    (Tree.addpath demo_lib demo_root (ascii "/a")).value.isSome = true ∧
    (Tree.addpath demo_lib demo_root (ascii "ab/")).value.isSome = true ∧
    (Tree.addpath demo_lib demo_root (ascii "a//c")).value.isSome = true := by
  decide

/-- C14, amended: `Tree::addpath` rejects no path: it returns for every path; a
path that starts with `/` gives the node a child whose name is the empty
string, and a path that ends with `/` creates a node whose name is the empty
string. -/
theorem C14_addpath_rejects_nothing (lib : Lib) (t : Tree) :
    (∀ path : Bytes, ∃ t1, Tree.addpath lib t path = .ok t1) ∧
    (∀ rest : Bytes, ∃ t1, Tree.addpath lib t (47 :: rest) = .ok t1 ∧
      ∃ c, ([], c) ∈ t1.files_) ∧
    (∀ path : Bytes, path.length < 2 ^ 64 → path.getLast? = some 47 →
      ∃ t1, Tree.addpath lib t path = .ok t1 ∧ ∃ p, ([], p) ∈ t1.nodes) :=
  ⟨Tree.addpath_total lib t, Tree.addpath_leading_slash lib t,
    Tree.addpath_trailing_slash lib t⟩

/-- C14 amended, on the path `ab/`. -/
theorem C14_addpath_rejects_nothing_witness :
    ((ascii "ab/").length < 2 ^ 64 ∧ (ascii "ab/").getLast? = some 47) ∧
    ∃ t1, Tree.addpath demo_lib demo_root (ascii "ab/") = .ok t1 ∧ ∃ p, ([], p) ∈ t1.nodes :=
  ⟨⟨by decide, by decide⟩,
    (C14_addpath_rejects_nothing demo_lib demo_root).2.2 (ascii "ab/") (by decide) (by decide)⟩

/-- C15: a second `addpath` of a path changes nothing, and `a/x.txt` followed by
`a/y.txt` gives one node `a` holding both files.  Where the code departs from
the claim: `a/b/x` followed by `a/b/y` gives two nodes for the shared prefix
`a/b`, filed under `b/x` and `b/y`, each holding one file. -/
theorem C15_addpath_shared_prefix :
    (∀ (lib : Lib) (t : Tree) (path : Bytes),
      ∃ t1, Tree.addpath lib t path = .ok t1 ∧ Tree.addpath lib t1 path = .ok t1) ∧
    (Tree.addpath_two demo_lib demo_root (ascii "a/x.txt") (ascii "a/x.txt")).nodes =
      (Tree.addpath demo_lib demo_root (ascii "a/x.txt")).nodes ∧
    (Tree.addpath_two demo_lib demo_root (ascii "a/x.txt") (ascii "a/y.txt")).nodes =
      some [(ascii "a", ascii "a"), (ascii "x.txt", ascii "a/x.txt"),
        (ascii "y.txt", ascii "a/y.txt")] ∧
    (Tree.addpath_two demo_lib demo_root (ascii "a/b/x") (ascii "a/b/y")).nodes =
      some [(ascii "a", ascii "a"), (ascii "b/x", ascii "a/b"), (ascii "x", ascii "a/b/x"),
        (ascii "b/y", ascii "a/b"), (ascii "y", ascii "a/b/y")] :=
  ⟨Tree.addpath_idem, by decide, by decide, by decide⟩

/-! ## C17: how often a file is read -/

/-- A returning `Tree::hash` leaves a node on which every later `hash()` returns
the same hash at once, without touching the node or the world. -/
theorem hash_fuel_memoized (lib : Lib) (hd : ∀ b, (lib.digest b).length = 20) (fuel : Nat)
    (t : Tree) (w : World) (h : Bytes) (t1 : Tree) (w1 : World)
    (ht : t.hash_ = [] ∨ t.hash_.length = 20)
    (hrun : Tree.hash_fuel lib fuel t w = .ok (h, t1, w1)) :
    ∀ fuel2 w2, Tree.hash_fuel lib (fuel2 + 1) t1 w2 = .ok (h, t1, w2) := by
  have hl := hash_fuel_length lib hd fuel t w h t1 w1 ht hrun
  have hh := (hash_fuel_ok lib fuel t w h t1 w1 hrun).1
  intro fuel2 w2
  have hne : t1.hash_ ≠ [] := by
    intro he; rw [he] at hl; simp at hl
  simp only [Tree.hash_fuel, hash_step, hne, if_false]
  rw [hh]

/-- C17, where the code departs from it: one `Tree::hash` on the regular file `e`
of length zero calls `read_file` on it three times, for `data()` takes an empty
`data_` for a payload not yet computed; so does `hash()` on a directory that
holds `e`.  The file `a` of length one is read once.  What holds in general: a
repeated `hash()` returns the memoized hash and reads nothing. -/
theorem C17_empty_file_read_thrice :
    (Tree.hash demo_lib_e (Tree.new demo_lib_e (ascii "e")) demo_world).reads =
      some [ascii "e", ascii "e", ascii "e"] ∧
    (Tree.hash demo_lib_e
        ((Tree.new demo_lib_e (ascii ".")).addfile demo_lib_e (ascii "e") (ascii "e"))
        demo_world).reads = some [ascii "e", ascii "e", ascii "e"] ∧
    (Tree.hash demo_lib_e (Tree.new demo_lib_e (ascii "a")) demo_world).reads =
      some [ascii "a"] ∧
    (Tree.hash_twice demo_lib_e (Tree.new demo_lib_e (ascii "e")) demo_world).reads =
      some [ascii "e", ascii "e", ascii "e"] ∧
    (Tree.hash_twice demo_lib_e (Tree.new demo_lib_e (ascii "e")) demo_world).bytes =
      (Tree.hash demo_lib_e (Tree.new demo_lib_e (ascii "e")) demo_world).bytes ∧
    (∀ (lib : Lib), (∀ b, (lib.digest b).length = 20) →
      ∀ fuel t w h t1 w1, (t.hash_ = [] ∨ t.hash_.length = 20) →
        Tree.hash_fuel lib fuel t w = .ok (h, t1, w1) →
        ∀ fuel2 w2, Tree.hash_fuel lib (fuel2 + 1) t1 w2 = .ok (h, t1, w2)) :=
  ⟨by decide, by decide, by decide, by decide, by decide, hash_fuel_memoized⟩

/-! ## C18: the object count of a large store -/

theorem big_key_lt (i j : Nat) (hij : i < j) (hj : j < 2 ^ 32) : big_key i < big_key j := by
  unfold big_key
  simp only [List.replicate, List.cons_append, List.nil_append]
  iterate 16 apply List.Lex.cons
  by_cases h1 : i / 2 ^ 24 % 256 < j / 2 ^ 24 % 256
  · exact List.Lex.rel h1
  · have e1 : i / 2 ^ 24 % 256 = j / 2 ^ 24 % 256 := by omega
    rw [e1]
    apply List.Lex.cons
    by_cases h2 : i / 2 ^ 16 % 256 < j / 2 ^ 16 % 256
    · exact List.Lex.rel h2
    · have e2 : i / 2 ^ 16 % 256 = j / 2 ^ 16 % 256 := by omega
      rw [e2]
      apply List.Lex.cons
      by_cases h3 : i / 2 ^ 8 % 256 < j / 2 ^ 8 % 256
      · exact List.Lex.rel h3
      · have e3 : i / 2 ^ 8 % 256 = j / 2 ^ 8 % 256 := by omega
        rw [e3]
        apply List.Lex.cons
        exact List.Lex.rel (by omega)

theorem big_pack_objects : big_pack.objects = big_store := by
  unfold big_pack
  rfl

theorem big_store_length : big_store.length = 2 ^ 32 := by
  unfold big_store
  rw [List.length_map, List.length_range]

theorem big_store_ok : map_ok big_store := by
  unfold map_ok big_store
  rw [List.map_map, List.Sorted, List.pairwise_map]
  refine List.Pairwise.imp_of_mem ?_ (List.pairwise_lt_range (2 ^ 32))
  intro a b _ hb hab
  exact big_key_lt a b hab (List.mem_range.mp hb)

/-- The first twelve bytes `Pack::print` writes: signature, version and the
count reduced modulo `2^32`. -/
theorem print_header_bytes (lib : Lib) (deflate : Bytes → Bytes) (pack : Pack)
    (hz : ∀ e ∈ pack.objects, lib.compress2 e.2.data = some (deflate e.2.data)) :
    ∃ pack1 out, Pack.print lib pack [] = some (pack1, out) ∧
      out.take 12 = ascii "PACK" ++ [0, 0, 0, 2] ++ htonl_bytes pack.objects.length ∧
      pack_header pack.objects.length ++ pack_records deflate pack.objects ++
        lib.digest (pack_header pack.objects.length ++ pack_records deflate pack.objects) =
        out := by
  refine ⟨_, _, print_eq lib deflate pack [] hz, ?_, by simp⟩
  have hl : (pack_header pack.objects.length).length = 12 := by
    simp [pack_header, htonl_bytes, ascii]
  rw [List.nil_append, List.append_assoc]
  rw [List.take_left' hl]
  rfl

theorem htonl_bytes_mod (n : Nat) :
    (htonl_bytes n).length = 4 ∧ be_value (htonl_bytes n) = n % 2 ^ 32 := by
  have h : htonl_bytes n = htonl_bytes (n % 2 ^ 32) := by
    simp [htonl_bytes, Nat.mod_mod]
  obtain ⟨h1, _, h3⟩ := htonl_bytes_spec (n % 2 ^ 32) (Nat.mod_lt _ (by norm_num))
  rw [h]
  exact ⟨h1, h3⟩

/-- C18, refuted as stated: for the store of `2^32` blobs `Pack::print` does not
fail; it writes a pack whose count field is `00 00 00 00`. -/
theorem C18_count_wraps_around :
    big_store.length = 2 ^ 32 ∧ map_ok big_store ∧
    ∃ pack1 out, Pack.print demo_lib big_pack [] = some (pack1, out) ∧
      out.take 12 = ascii "PACK" ++ [0, 0, 0, 2] ++ [0, 0, 0, 0] := by
  refine ⟨big_store_length, big_store_ok, ?_⟩
  obtain ⟨pack1, out, h1, h2, _⟩ := print_header_bytes demo_lib id big_pack (fun _ _ => rfl)
  refine ⟨pack1, out, h1, ?_⟩
  rw [h2, big_pack_objects, big_store_length]
  decide

/-- C18, amended: for a store of `2^32` or more objects whose payloads the
compressor accepts, `Pack::print` does not fail: it writes the header with the
object count reduced modulo `2^32` in its four-byte count field, then the
record of every object, then the digest. -/
theorem C18_print_count_modulo (lib : Lib) (deflate : Bytes → Bytes) (pack : Pack)
    (hbig : 2 ^ 32 ≤ pack.objects.length)
    (hz : ∀ e ∈ pack.objects, lib.compress2 e.2.data = some (deflate e.2.data)) :
    ∃ pack1 out cnt, Pack.print lib pack [] = some (pack1, out) ∧
      cnt.length = 4 ∧ be_value cnt = pack.objects.length % 2 ^ 32 ∧
      be_value cnt < pack.objects.length ∧
      out.take 12 = ascii "PACK" ++ [0, 0, 0, 2] ++ cnt ∧
      out = ascii "PACK" ++ [0, 0, 0, 2] ++ cnt ++
          pack.objects.flatMap
            (fun e => type_size_word e.2.type.code e.2.data.length ++ deflate e.2.data) ++
        lib.digest (ascii "PACK" ++ [0, 0, 0, 2] ++ cnt ++
          pack.objects.flatMap
            (fun e => type_size_word e.2.type.code e.2.data.length ++ deflate e.2.data)) := by
  obtain ⟨pack1, out, h1, h2, h3⟩ := print_header_bytes lib deflate pack hz
  obtain ⟨c1, c2⟩ := htonl_bytes_mod pack.objects.length
  refine ⟨pack1, out, htonl_bytes pack.objects.length, h1, c1, c2, ?_, h2, ?_⟩
  · rw [c2]
    exact lt_of_lt_of_le (Nat.mod_lt _ (by norm_num)) hbig
  · rw [← h3]
    rfl

theorem big_pack_big : 2 ^ 32 ≤ big_pack.objects.length := by
  rw [big_pack_objects, big_store_length]

/-- C18 amended, on the store of `2^32` blobs. -/
theorem C18_print_count_modulo_witness :
    (2 ^ 32 ≤ big_pack.objects.length ∧
      ∀ e ∈ big_pack.objects, demo_lib.compress2 e.2.data = some (id e.2.data)) ∧
    ∃ pack1 out cnt, Pack.print demo_lib big_pack [] = some (pack1, out) ∧
      cnt.length = 4 ∧ be_value cnt = big_pack.objects.length % 2 ^ 32 ∧
      be_value cnt < big_pack.objects.length ∧
      out.take 12 = ascii "PACK" ++ [0, 0, 0, 2] ++ cnt ∧
      out = ascii "PACK" ++ [0, 0, 0, 2] ++ cnt ++
          big_pack.objects.flatMap
            (fun e => type_size_word e.2.type.code e.2.data.length ++ id e.2.data) ++
        demo_lib.digest (ascii "PACK" ++ [0, 0, 0, 2] ++ cnt ++
          big_pack.objects.flatMap
            (fun e => type_size_word e.2.type.code e.2.data.length ++ id e.2.data)) :=
  ⟨⟨big_pack_big, fun _ _ => rfl⟩,
    C18_print_count_modulo demo_lib id big_pack big_pack_big (fun _ _ => rfl)⟩

/-! ## C16: the commit payload -/

theorem fmt_uint_pad_hex2 (c : Nat) (hc : c < 256) :
    (fmt_uint_pad 16 2 c).length = 2 ∧ (∀ ch ∈ fmt_uint_pad 16 2 c, is_lower_hex_digit ch) ∧
      numeral_value 16 (fmt_uint_pad 16 2 c) = c := by
  have hle := fmt_uint_length_le 16 (by norm_num) c 2 (by norm_num) (by norm_num; omega)
  refine ⟨?_, ?_, ?_⟩
  · simp only [fmt_uint_pad, List.length_append, List.length_replicate]; omega
  · intro ch hch
    simp only [fmt_uint_pad, List.mem_append, List.mem_replicate] at hch
    rcases hch with ⟨_, rfl⟩ | hch
    · left; omega
    · obtain ⟨d, hd, rfl⟩ := fmt_uint_mem 16 (by norm_num) c ch hch
      exact digit_char_lower_hex d hd
  · simp only [fmt_uint_pad]
    rw [numeral_value_zeros, numeral_value_fmt_uint 16 (by norm_num) (by norm_num)]

theorem hex_byte (c : Nat) (hc : c < 256) :
    c_str (snprintf_buf 3 (fmt_uint_pad 16 2 c)) = fmt_uint_pad 16 2 c := by
  obtain ⟨h1, h2, _⟩ := fmt_uint_pad_hex2 c hc
  unfold snprintf_buf c_str
  rw [List.take_of_length_le (by omega), List.takeWhile_eq_self_iff]
  intro ch hch
  have := h2 ch hch
  unfold is_lower_hex_digit at this
  simp only [ne_eq, decide_eq_true_eq]
  omega

/-- The hexadecimal text of a byte string: two lowercase digits for each byte. -/
theorem hex_spec (b : Bytes) (hb : ∀ c ∈ b, c < 256) :
    hex b = b.flatMap (fun c => fmt_uint_pad 16 2 c) ∧ (hex b).length = 2 * b.length ∧
      ∀ ch ∈ hex b, is_lower_hex_digit ch := by
  induction b with
  | nil => simp [hex]
  | cons c rest ih =>
    obtain ⟨i1, i2, i3⟩ := ih (fun x hx => hb x (by simp [hx]))
    have hc := hb c (by simp)
    obtain ⟨h1, h2, _⟩ := fmt_uint_pad_hex2 c hc
    have hcons : hex (c :: rest) = fmt_uint_pad 16 2 c ++ hex rest := by
      simp only [hex, List.flatMap_cons, hex_byte c hc]
    refine ⟨?_, ?_, ?_⟩
    · rw [hcons, i1, List.flatMap_cons]
    · rw [hcons, List.length_append, h1, i2, List.length_cons]; omega
    · intro ch hch
      rw [hcons, List.mem_append] at hch
      rcases hch with hch | hch
      · exact h2 ch hch
      · exact i3 ch hch

theorem Tree.addfile_fields (lib : Lib) (t : Tree) (name path : Bytes) :
    (t.addfile lib name path).hash_ = t.hash_ ∧ (t.addfile lib name path).st_mode = t.st_mode := by
  obtain ⟨p, d, h, m, fs⟩ := t
  simp only [Tree.addfile]
  split <;> simp [Tree.hash_, Tree.st_mode]

theorem Tree.set_child_fields (t : Tree) (name : Bytes) (c : Tree) :
    (t.set_child name c).hash_ = t.hash_ ∧ (t.set_child name c).st_mode = t.st_mode := by
  obtain ⟨p, d, h, m, fs⟩ := t
  simp [Tree.set_child, Tree.hash_, Tree.st_mode]

/-- `addpath` leaves the hash and the mode of the node it is called on alone. -/
theorem addpath_fuel_fields (lib : Lib) (path : Bytes) (fuel : Nat) (t : Tree) (pos : Nat)
    (t1 : Tree) (h : Tree.addpath_fuel lib fuel t path pos = .ok t1) :
    t1.hash_ = t.hash_ ∧ t1.st_mode = t.st_mode := by
  cases fuel with
  | zero => simp [Tree.addpath_fuel] at h
  | succ n =>
    have a := Tree.addfile_fields lib t (str_substr path pos (str_find path 47 pos))
      (str_substr path 0 (str_find path 47 pos))
    by_cases hpos : pos ≤ path.length
    · by_cases hfound : str_find path 47 pos ≠ npos
      · obtain ⟨sub, sub1, _, _, ht1⟩ := addpath_fuel_step_found lib n t path pos hpos hfound t1 h
        have b := Tree.set_child_fields (t.addfile lib (str_substr path pos (str_find path 47 pos))
          (str_substr path 0 (str_find path 47 pos)))
          (str_substr path pos (str_find path 47 pos)) sub1
        rw [ht1]
        exact ⟨b.1.trans a.1, b.2.trans a.2⟩
      · rw [Tree.addpath_fuel] at h
        simp only [not_lt.mpr hpos, if_false, hfound, if_false, Res.ok.injEq] at h
        rw [← h]
        exact a
    · rw [Tree.addpath_fuel] at h
      simp [not_le.mp hpos] at h

theorem main_paths_fields (lib : Lib) (lines : List Bytes) :
    ∀ (root root1 : Tree), main_paths lib root lines = .ok root1 →
      root1.hash_ = root.hash_ ∧ root1.st_mode = root.st_mode := by
  induction lines with
  | nil =>
    intro root root1 h
    simp only [main_paths, Res.ok.injEq] at h
    rw [h]; exact ⟨rfl, rfl⟩
  | cons line rest ih =>
    intro root root1 h
    simp only [main_paths] at h
    split at h
    · exact ih _ _ h
    · cases hs : after_first_slash line with
      | none =>
        simp only [hs] at h
        exact ih _ _ h
      | some path =>
        simp only [hs] at h
        cases ha : Tree.addpath lib root path with
        | abort => simp [ha] at h
        | out_of_fuel => simp [ha] at h
        | ok r1 =>
          simp only [ha] at h
          obtain ⟨a1, a2⟩ := addpath_fuel_fields lib path _ root 0 r1 ha
          obtain ⟨b1, b2⟩ := ih _ _ h
          exact ⟨b1.trans a1, b2.trans a2⟩

/-- The steps of a returning `main` up to the commit payload. -/
theorem main_commitobj (lib : Lib) (now : Nat) (branch author msgfile parent : Bytes)
    (lines : List Bytes) (out : MainOutput)
    (h : main lib now branch author msgfile parent lines = .ok out) :
    ∃ message root tree root1 w1,
      lib.read_file_content msgfile = some message ∧ parent.length = 40 ∧
      main_paths lib (Tree.new lib (ascii ".")) lines = .ok root ∧
      Tree.hash lib root
        { pack := { objects := [], sha := [] }, reads := [msgfile] } = .ok (tree, root1, w1) ∧
      out.commitobj = make_commit author parent now (hex tree) message := by
  unfold main at h
  simp only [read_file] at h
  cases hm : lib.read_file_content msgfile with
  | none => simp [hm] at h
  | some message =>
    simp only [hm, List.nil_append] at h
    split at h
    · simp at h
    · rename_i hpar
      cases hp : main_paths lib (Tree.new lib (ascii ".")) lines with
      | abort => simp [hp] at h
      | out_of_fuel => simp [hp] at h
      | ok root =>
        simp only [hp] at h
        split at h
        · rename_i tree root1 w1 hh
          refine ⟨message, root, tree, root1, w1, rfl, by simpa using hpar, rfl, hh, ?_⟩
          split at h
          · simp at h
          · split at h
            · simp at h
            · split at h
              · simp at h
              · simp only [Res.ok.injEq] at h
                rw [← h]
        · simp at h
        · simp at h

/-- C16: `make_commit` returns `tree `, the tree text, LF, `parent `, the
parent, LF, `author `, the identity line, LF, `committer `, the same identity
line, two LF and the message, nothing after it; and in a returning run of
`main` whose root `.` is a directory the tree text is the 40 lowercase
hexadecimal digits of the digest of the root's tree header followed by the
root's payload. -/
theorem C16_commit_payload :
    (∀ (author parent : Bytes) (now : Nat) (tree message : Bytes),
      make_commit author parent now tree message =
        ascii "tree " ++ tree ++ LF ++ ascii "parent " ++ parent ++ LF ++
          ascii "author " ++ make_author author now ++ LF ++
          ascii "committer " ++ make_author author now ++ LF ++ LF ++ message) ∧
    (∀ (lib : Lib) (now : Nat) (branch author msgfile parent : Bytes) (lines : List Bytes)
      (out : MainOutput),
      (∀ b, (lib.digest b).length = 20) → (∀ b, ∀ c ∈ lib.digest b, c < 256) →
      S_ISDIR (lib.stat_mode (ascii ".")) = true →
      main lib now branch author msgfile parent lines = .ok out →
      ∃ rootPayload message root root1 w0 w1,
        main_paths lib (Tree.new lib (ascii ".")) lines = .ok root ∧
        Tree.hash lib root w0 =
          .ok (lib.digest (git_header .OBJ_TREE rootPayload.length ++ rootPayload), root1, w1) ∧
        root1.data_ = rootPayload ∧
        lib.read_file_content msgfile = some message ∧
        out.commitobj = make_commit author parent now
          (hex (lib.digest (git_header .OBJ_TREE rootPayload.length ++ rootPayload))) message ∧
        (hex (lib.digest (git_header .OBJ_TREE rootPayload.length ++ rootPayload))).length = 40 ∧
        ∀ ch ∈ hex (lib.digest (git_header .OBJ_TREE rootPayload.length ++ rootPayload)),
          is_lower_hex_digit ch) := by
  constructor
  · intro author parent now tree message
    simp only [make_commit, LF, List.append_assoc]
    rfl
  · intro lib now branch author msgfile parent lines out hd hb hdir h
    obtain ⟨message, root, tree, root1, w1, hmsg, _, hpaths, hhash, hcommit⟩ :=
      main_commitobj lib now branch author msgfile parent lines out h
    obtain ⟨f1, f2⟩ := main_paths_fields lib lines _ _ hpaths
    have hroot_hash : root.hash_ = [] := by rw [f1]; rfl
    have hroot_mode : root.st_mode = lib.stat_mode (ascii ".") := by rw [f2]; rfl
    have hrun := hhash
    unfold Tree.hash at hrun
    cases hfuel : root.height with
    | zero => rw [hfuel] at hrun; simp [Tree.hash_fuel] at hrun
    | succ n =>
      rw [hfuel, Tree.hash_fuel] at hrun
      obtain ⟨_, hmode, _, _, hfresh⟩ := hash_step_spec lib _ (hash_fuel_ok lib n) _ _ _ _ _ hrun
      obtain ⟨_, _, _, _, htree, _⟩ := hfresh hroot_hash
      have hg : root1.gittype = .OBJ_TREE := by
        simp [Tree.gittype, hmode, hroot_mode, hdir]
      rw [hg, sha1_eq] at htree
      obtain ⟨_, x2, x3⟩ := hex_spec (lib.digest (git_header .OBJ_TREE root1.data_.length ++
        root1.data_)) (hb _)
      refine ⟨root1.data_, message, root, root1,
        { pack := { objects := [], sha := [] }, reads := [msgfile] }, w1, hpaths, ?_, rfl, hmsg,
        ?_, ?_, x3⟩
      · rw [← htree]; exact hhash
      · rw [← htree]; exact hcommit
      · rw [x2, hd]

set_option maxRecDepth 20000 in
/-- C16 on the demo run: the root `.` holds the files `a` and `b`. -/
theorem C16_commit_payload_witness :
    ((∀ b, (demo_lib.digest b).length = 20) ∧ (∀ b, ∀ c ∈ demo_lib.digest b, c < 256) ∧
      S_ISDIR (demo_lib.stat_mode (ascii ".")) = true ∧
      demo_main.value.map MainOutput.commitobj =
        some (ascii "tree " ++ List.replicate 40 57 ++ ascii "\nparent " ++
          List.replicate 40 48 ++
          ascii "\nauthor me 1700000000 +0000\ncommitter me 1700000000 +0000\n\nA")) ∧
    ∃ out, demo_main = .ok out ∧
      ∃ rootPayload message root root1 w0 w1,
        main_paths demo_lib (Tree.new demo_lib (ascii ".")) [ascii "./b", ascii "./a"] =
          .ok root ∧
        Tree.hash demo_lib root w0 =
          .ok (demo_lib.digest (git_header .OBJ_TREE rootPayload.length ++ rootPayload),
            root1, w1) ∧
        root1.data_ = rootPayload ∧
        demo_lib.read_file_content (ascii "a") = some message ∧
        out.commitobj = make_commit (ascii "me") (List.replicate 40 48) 1700000000
          (hex (demo_lib.digest (git_header .OBJ_TREE rootPayload.length ++ rootPayload)))
          message ∧
        (hex (demo_lib.digest
          (git_header .OBJ_TREE rootPayload.length ++ rootPayload))).length = 40 ∧
        ∀ ch ∈ hex (demo_lib.digest (git_header .OBJ_TREE rootPayload.length ++ rootPayload)),
          is_lower_hex_digit ch :=
  ⟨⟨fun b => by simp [demo_lib],
      fun b c hc => by
        simp only [demo_lib, List.mem_replicate] at hc
        omega,
      by decide, by decide⟩,
    _, rfl,
    C16_commit_payload.2 demo_lib 1700000000 (ascii "refs/heads/main") (ascii "me") (ascii "a")
      (List.replicate 40 48) [ascii "./b", ascii "./a"] _ (fun b => by simp [demo_lib])
      (fun b c hc => by
        simp only [demo_lib, List.mem_replicate] at hc
        omega)
      (by decide) rfl⟩

end Fuggit
